import Mathlib

/-!
Verification development for the rooted Transfer Index (TI) core of the
booster repository (files src/rapid_transfer.c, src/heavy_paths.c,
src/tree.c).

The C data structures are embedded shallowly:

* A tree node (struct Node) becomes a constructor `ATree.node f ch` where
  `f` collects the mutable per-node fields used by the rapid-TI code
  (`d_lazy`, `d_min`, `d_max`, `diff`, the `include`/`exclude` NodeArrays,
  the static `subtreesize` and, for leaves, the taxon name) and `ch` is the
  list of children.  In the C code the children of a non-root node are
  `neigh[1..nneigh-1]` (position 0 holds the parent) while for the root all
  of `neigh[0..nneigh-1]` are children; both become the plain list `ch`,
  which is exactly the range every loop of the C code iterates over.
* A node of the tree is addressed by its position: the list of child
  indices on the path from the root (the root is `[]`).  The C code's
  `path_to_root` arrays become these positions.
* NodeArrays of leaf pointers become lists of taxon names.
* C `int` values become `Int`.

Functions are translated one-to-one from the C sources; comments on each
definition name the C function it embeds.
-/

namespace Booster

/-- The per-node fields of `struct Node` (tree.h) used by the rapid
transfer-index code: taxon `name` (meaningful for leaves), `subtreesize`
(`sub`), the lazy values `d_lazy`, `d_min`, `d_max`, `diff`, and the
`include`/`exclude` NodeArrays (`incl`, `excl`). -/
structure NFields where
  name : Nat
  sub : Int
  d_lazy : Int
  d_min : Int
  d_max : Int
  diff : Int
  incl : List Nat
  excl : List Nat
deriving Repr, DecidableEq

/-- A rooted tree with arbitrary arity, as in the C `Node` structure:
a node carries its fields and the list of its children. -/
inductive ATree where
  | node (f : NFields) (ch : List ATree)

/-- The fields of the top node. -/
def ATree.f : ATree → NFields
  | .node f _ => f

/-- The children of the top node. -/
def ATree.ch : ATree → List ATree
  | .node _ ch => ch

/-- Position-indexed access: follow the child indices in `p` from `t`. -/
def getA : List Nat → ATree → Option ATree
  | [], t => some t
  | j :: p, t => (t.ch[j]?).bind (getA p)

/-- Indexed map over a list of subtrees (used to mirror the C loops that
update every child of a node, distinguishing the child on the path). -/
def mapIdxA (g : Nat → ATree → ATree) : Nat → List ATree → List ATree
  | _, [] => []
  | k, c :: cs => g k c :: mapIdxA g (k + 1) cs

/-- `min` over the children of `d_min + diff`, starting from `x`; this is
the loop of `update_dminmax_on_path` (rapid_transfer.c:389-395). -/
def chMin (x : Int) (ch : List ATree) : Int :=
  ch.foldl (fun m c => min m (c.f.d_min + c.f.diff)) x

/-- `max` over the children of `d_max + diff` (same loop). -/
def chMax (x : Int) (ch : List ATree) : Int :=
  ch.foldl (fun m c => max m (c.f.d_max + c.f.diff)) x

/-- The update applied to a child off the path in `add_leaf`
(rapid_transfer.c:304-310): `diff += e + 1` where `e` is the (already
absorbed) `diff` of the parent, and, when `getset`, the leaf is appended
to the child's `include` NodeArray. -/
def offBump (getset : Bool) (lname : Nat) (e : Int) : ATree → ATree
  | .node f ch =>
      .node
        { f with
          diff := f.diff + (e + 1),
          incl := if getset then f.incl ++ [lname] else f.incl }
        ch

/-- Embedding of `add_leaf` (rapid_transfer.c:283-327) minus the
`assert_is_leaf` guard.  The parameter `a` is the `diff` pushed down from
the parent (the C code stores it into the child's `diff` field before the
loop body reads it; here it is passed as an accumulator).  The downward
pass (absorb `diff`, subtract 1 on the path, push `diff + 1` to off-path
children, record `include`/`exclude`) and the upward pass
(`update_dminmax_on_path`) are fused into one structural recursion on the
path. -/
def addGo (getset : Bool) (lname : Nat) (a : Int) : List Nat → ATree → ATree
  | [], .node f ch =>
      let e := f.diff + a
      let dl := f.d_lazy + e - 1
      .node
        { f with
          d_lazy := dl, diff := 0,
          excl := if getset then f.excl ++ [lname] else f.excl,
          d_min := dl, d_max := dl }
        ch
  | j :: p, .node f ch =>
      let e := f.diff + a
      let ch' := mapIdxA
        (fun i c => if i = j then addGo getset lname e p c
                    else offBump getset lname e c) 0 ch
      let dl := f.d_lazy + e - 1
      .node
        { f with
          d_lazy := dl, diff := 0,
          excl := if getset then f.excl ++ [lname] else f.excl,
          d_min := chMin dl ch', d_max := chMax dl ch' }
        ch'

/-- The per-node write of `reset_leaf` (rapid_transfer.c:343-348):
`d_lazy = subtreesize; d_max = subtreesize; d_min = 1; diff = 0;` and,
when `getset`, clear the `exclude` NodeArray. -/
def resetFields (getset : Bool) (f : NFields) : NFields :=
  { f with d_lazy := f.sub, d_max := f.sub, d_min := 1, diff := 0,
           excl := if getset then [] else f.excl }

/-- The child write of `reset_leaf` (rapid_transfer.c:351-364): set the
child's `diff` to 0 and, when `getset`, clear its `include` NodeArray.
Because of the `pathchild = n` assignment after `n = n->neigh[0]`
(rapid_transfer.c:367-368), `pathchild` always equals the node being
processed, so the guard `neigh[i] != pathchild` never excludes a child:
every child of every node on the path receives this write (the root's
child `neigh[0]` through the dedicated block at lines 359-364). -/
def clearTop (getset : Bool) : ATree → ATree
  | .node f ch =>
      .node
        { f with
          diff := 0,
          incl := if getset then [] else f.incl }
        ch

/-- Embedding of `reset_leaf` (rapid_transfer.c:333-370) minus the
`assert_is_leaf` guard, as a structural recursion down the path (the C
code walks leaf-to-root; all writes are per-node and independent, so the
resulting state is the same). -/
def resetGo (getset : Bool) : List Nat → ATree → ATree
  | [], .node f ch => .node (resetFields getset f) ch
  | j :: p, .node f ch =>
      let ch' := mapIdxA
        (fun i c =>
          if i = j then clearTop getset (resetGo getset p c)
          else clearTop getset c) 0 ch
      .node (resetFields getset f) ch'

/-- `assert_is_leaf` (rapid_transfer.c:405-412): the operation aborts via
`Generic_Exit` unless the node has exactly one neighbour, i.e. is a leaf.
The abort is modelled by `Except.error`. -/
def add_leaf (getset : Bool) (t : ATree) (p : List Nat) : Except Unit ATree :=
  match getA p t with
  | some c =>
      if c.ch.isEmpty then .ok (addGo getset c.f.name 0 p t) else .error ()
  | none => .error ()

/-- Embedding of `reset_leaf` with its `assert_is_leaf` guard. -/
def reset_leaf (getset : Bool) (t : ATree) (p : List Nat) :
    Except Unit ATree :=
  match getA p t with
  | some c =>
      if c.ch.isEmpty then .ok (resetGo getset p t) else .error ()
  | none => .error ()

/-! ## Leaf lists and subtree enumeration -/
/-- A position in a tree: the list of child indices from the root. -/
abbrev Pos := List Nat

instance {ε α : Type} [DecidableEq ε] [DecidableEq α] :
    DecidableEq (Except ε α) := fun a b =>
  match a, b with
  | .error e, .error e2 =>
    if h : e = e2 then .isTrue (h ▸ rfl)
    else .isFalse (fun hc => h (Except.error.inj hc))
  | .ok x, .ok y =>
    if h : x = y then .isTrue (h ▸ rfl)
    else .isFalse (fun hc => h (Except.ok.inj hc))
  | .error _, .ok _ => .isFalse (fun hc => Except.noConfusion hc)
  | .ok _, .error _ => .isFalse (fun hc => Except.noConfusion hc)

mutual
/-- The taxon names of the leaves below a node, in child order. -/
def leafList : ATree → List Nat
  | .node f [] => [f.name]
  | .node _ (c :: cs) => leafListL (c :: cs)
/-- `leafList` concatenated over a list of subtrees. -/
def leafListL : List ATree → List Nat
  | [] => []
  | c :: cs => leafList c ++ leafListL cs
end

mutual
/-- The leaf lists of every node of the tree (the whole tree first). -/
def subLists : ATree → List (List Nat)
  | .node f [] => [[f.name]]
  | .node f (c :: cs) => leafList (.node f (c :: cs)) :: subListsL (c :: cs)
/-- `subLists` concatenated over a list of subtrees. -/
def subListsL : List ATree → List (List Nat)
  | [] => []
  | c :: cs => subLists c ++ subListsL cs
end

mutual
/-- Leaf positions paired with their taxon names, in child order (this is
the contents of `tree->leaves` as filled by `prepare_rapid_TI_doer`
before sorting). -/
def leafPN : ATree → List (Pos × Nat)
  | .node f [] => [([], f.name)]
  | .node _ (c :: cs) => leafPNL 0 (c :: cs)
/-- `leafPN` over a list of children starting at child index `k`. -/
def leafPNL (k : Nat) : List ATree → List (Pos × Nat)
  | [] => []
  | c :: cs => (leafPN c).map (fun q => (k :: q.1, q.2)) ++ leafPNL (k + 1) cs
end

/-! ## The naive transfer-distance specification (spec.md glossary):
`|A △ L(v)|`, minimised or maximised over all nodes `v`. -/
/-- Symmetric-difference cardinality `|A △ L|` (as an `Int`, to compare
with the C `int` values). -/
def tdist (A : Finset ℕ) (L : List ℕ) : Int :=
  ((symmDiff A L.toFinset).card : Int)

/-- Minimum of `tdist A` over all subtrees of `t`. -/
def minTD (A : Finset ℕ) (t : ATree) : Int :=
  ((subLists t).map (tdist A)).foldl min (tdist A (leafList t))

/-- Maximum of `tdist A` over all subtrees of `t`. -/
def maxTD (A : Finset ℕ) (t : ATree) : Int :=
  ((subLists t).map (tdist A)).foldl max (tdist A (leafList t))

/-! ## Tree preparation (tree.c) -/
/-- Sum of the stored `subtreesize` fields of a list of children
(the loop of `prepare_rapid_TI_doer`, tree.c:2563-2568; for the root the
loop starts at neighbour 0, for other internal nodes at 1 — in both cases
it sums exactly over the children). -/
def subSum (ch : List ATree) : Int :=
  ch.foldl (fun s c => s + c.f.sub) 0

mutual
/-- Embedding of the post-order pass `prepare_rapid_TI_post` /
`prepare_rapid_TI_doer` (tree.c:2554-2581) restricted to the per-node
fields: `subtreesize` (1 for leaves, sum of the children otherwise),
`diff = 0`, `d_lazy = d_max = subtreesize`, `d_min = 1`.  The
`include`/`exclude` NodeArrays start empty (they are allocated empty). -/
def initA : ATree → ATree
  | .node f [] =>
      .node
        { f with
          sub := 1, d_lazy := 1, d_max := 1, d_min := 1, diff := 0,
          incl := [], excl := [] }
        []
  | .node f (c :: cs) =>
      let ch' := initL (c :: cs)
      let s := subSum ch'
      .node
        { f with
          sub := s, d_lazy := s, d_max := s, d_min := 1, diff := 0,
          incl := [], excl := [] }
        ch'
/-- `initA` applied to every child. -/
def initL : List ATree → List ATree
  | [] => []
  | c :: cs => initA c :: initL cs
end

/-- The heavy-child selection loop of `setup_heavy_light_subtrees`
(tree.c:2457-2464).  The loop body contains an extra `i++` in addition to
the `for` increment, so after comparing child `i` the loop jumps to child
`i + 2`: only children at odd list offsets 1, 3, 5, … are compared with
the running best (which starts at child 0).  `best` is the index of the
current heaviest, `bsub` its `subtreesize`, `i` the index of the head of
`rest`. -/
def hciGo (best : Nat) (bsub : Int) (i : Nat) : List ATree → Nat
  | [] => best
  | [c] => if bsub < c.f.sub then i else best
  | c :: _ :: rest =>
      if bsub < c.f.sub then hciGo i c.f.sub (i + 2) rest
      else hciGo best bsub (i + 2) rest

/-- `u->heavychild` as computed by `setup_heavy_light_subtrees`
(tree.c:2444-2464): `none` for a leaf, otherwise the index of the child
selected by `hciGo` starting from child 0. -/
def heavyChildIdx : List ATree → Option Nat
  | [] => none
  | c :: cs => some (hciGo 0 c.f.sub 1 cs)

/-- Embedding of `add_leaves_in_subtree` (tree.c:2493-2510) for non-root
nodes: a leaf contributes its own position; an internal node recurses into
`neigh[1]` and `neigh[2]` only, i.e. into its first two children (the root
branch of the C function, which recurses into `neigh[0]` twice, is only
reachable when the function is called on the root itself, which the
rapid-TI preparation never does).  Positions are relative to the node. -/
def leafPosIn : ATree → List Pos
  | .node _ [] => [[]]
  | .node _ (c0 :: rest) =>
      (leafPosIn c0).map (fun q => 0 :: q) ++
      (match rest with
       | [] => []
       | c1 :: _ => (leafPosIn c1).map (fun q => 1 :: q))

/-- The `lightleaves` of a node as built by `setup_heavy_light_subtrees`
(tree.c:2466-2473): the concatenation, in child order, of the leaves of
every child other than the heavy child.  Positions are relative to the
node; a leaf gets the empty list (`allocateLA(0)`). -/
def lightPossOf (u : ATree) : List Pos :=
  match heavyChildIdx u.ch with
  | none => []
  | some hc =>
      (List.range u.ch.length).flatMap (fun i =>
        if i = hc then []
        else match u.ch[i]? with
             | some c => (leafPosIn c).map (fun q => i :: q)
             | none => [])

/-! ## Leaf sorting and the leaf bijection (tree.c) -/
/-- Insertion into a list sorted by taxon name. -/
def insByName (x : Pos × Nat) : List (Pos × Nat) → List (Pos × Nat)
  | [] => [x]
  | y :: ys => if x.2 ≤ y.2 then x :: y :: ys else y :: insByName x ys

/-- `sortLA` (tree.c:2329-2331): sort the leaf array by taxon name.  The C
code uses `qsort` with `compare_nodes` (strcmp on names); on distinct
names any comparison sort yields the same list, here realised by insertion
sort. -/
def sortByName (l : List (Pos × Nat)) : List (Pos × Nat) :=
  l.foldr insByName []

/-- Embedding of `set_leaf_bijection` (tree.c:2367-2373): pair the two
(name-sorted) leaf arrays positionally — `tree1->leaves->a[i]->other =
tree2->leaves->a[i]` — with no comparison of the names.  The loop reads
`tree2->leaves->a[i]` for every `i < tree1->leaves->i`, which is out of
bounds when the first tree has more leaves; that case is modelled by
`none`.  No other validation of any kind is performed. -/
def set_leaf_bijection (l1 l2 : List Pos) : Option (List (Pos × Pos)) :=
  if l1.length ≤ l2.length then some (l1.zip l2) else none

/-! ## Node-to-edge conversion (rapid_transfer.c:453-475) -/
/-- `set_edge_TI` (rapid_transfer.c:467-475): for a node of nonzero depth
store `min(ti_min, n - ti_max)` on the edge above it (`u->br[0]`); the
root (depth 0) stores nothing. -/
def set_edge_TI (n : Int) (depth : Nat) (timin timax : Int) : Option Int :=
  if depth ≠ 0 then some (min timin (n - timax)) else none

/-- `nodeTI_to_edgeTI` (rapid_transfer.c:456-460) over the list of
per-node `(position, ti_min, ti_max)` records: every non-root node
produces the value of the edge above it, the root is skipped.  The depth
of a node is the length of its position. -/
def nodeTI_to_edgeTI (n : Int) (recs : List (Pos × Int × Int)) :
    List (Pos × Int) :=
  recs.filterMap (fun r =>
    (set_edge_TI n r.1.length r.2.1 r.2.2).map (fun v => (r.1, v)))

/-- The last `(ti_min, ti_max)` recorded for a node (the C code stores the
values into node fields, so a later visit overwrites an earlier one). -/
def finalTI (recs : List (Pos × Int × Int)) (p : Pos) : Option (Int × Int) :=
  (recs.reverse.find? (fun r => r.1 = p)).map (fun r => r.2)

/-- The transfer index finally stored on the edge above `p` (and copied to
the output array by `edgeTI_to_array`, rapid_transfer.c:129-133): for the
root there is no such edge. -/
def edgeTI (n : Int) (recs : List (Pos × Int × Int)) (p : Pos) : Option Int :=
  if p = [] then none
  else (finalTI recs p).map (fun v => min v.1 (n - v.2))

/-! ## The driver over the reference tree (rapid_transfer.c:136-274),
balanced variant (`use_HPT == false`, as called by
`compute_transfer_indices_fast_BALANCED` with `getsets == false`). -/
/-- Position lookup that aborts (as a C pointer dereference cannot fail,
`error` here can only arise from ill-formed positions). -/
def getE (t : ATree) (p : Pos) : Except Unit ATree :=
  match getA p t with
  | some u => .ok u
  | none => .error ()

/-- `u->other` lookup through the leaf bijection. -/
def othLook (oth : List (Pos × Pos)) (p : Pos) : Except Unit Pos :=
  match oth.find? (fun q => q.1 == p) with
  | some q => .ok q.2
  | none => .error ()

/-- The reference-tree leaves on which `add_heavy_path` calls `add_leaf`
when visiting node `p` (rapid_transfer.c:155-175): the node itself if it
is a leaf, otherwise its `lightleaves`. -/
def stepAdds (ref : ATree) (p : Pos) : Except Unit (List Pos) := do
  let u ← getE ref p
  .ok (if u.ch.isEmpty then [p] else (lightPossOf u).map (fun q => p ++ q))

/-- Apply `add_leaf` (balanced, `getsets == false`) to the images under
the bijection of the given reference leaves, in order. -/
def addLeavesB (oth : List (Pos × Pos)) (alt : ATree) (ps : List Pos) :
    Except Unit ATree :=
  ps.foldlM (fun st p => do
    let q ← othLook oth p
    add_leaf false st q) alt

/-- Apply `reset_leaf` to the images of the given reference leaves. -/
def resetLeavesB (oth : List (Pos × Pos)) (alt : ATree) (ps : List Pos) :
    Except Unit ATree :=
  ps.foldlM (fun st p => do
    let q ← othLook oth p
    reset_leaf false st q) alt

/-- `add_heavy_path` (rapid_transfer.c:144-236, branch `use_HPT == false`):
walk up from the leaf whose reversed position is `rp`, adding the newly
entering leaves at every node, recording `(node, d_min(root), d_max(root))`
of the alternative tree (`u->ti_min`, `u->ti_max`), and continuing to the
parent exactly when the node has nonzero depth and is its parent's
`heavychild`. -/
def climb (ref : ATree) (oth : List (Pos × Pos)) :
    List Nat → ATree → Except Unit (List (Pos × Int × Int) × ATree)
  | [], alt => do
      let adds ← stepAdds ref []
      let alt' ← addLeavesB oth alt adds
      .ok ([([], alt'.f.d_min, alt'.f.d_max)], alt')
  | j :: rp, alt => do
      let p := (j :: rp).reverse
      let adds ← stepAdds ref p
      let alt' ← addLeavesB oth alt adds
      let r := (p, alt'.f.d_min, alt'.f.d_max)
      let par ← getE ref rp.reverse
      if heavyChildIdx par.ch = some j then do
        let res ← climb ref oth rp alt'
        .ok (r :: res.1, res.2)
      else
        .ok ([r], alt')

/-- `reset_heavy_path` (rapid_transfer.c:247-274, branch
`use_HPT == false`): the same walk, calling `reset_leaf` on the same
leaves. -/
def climbR (ref : ATree) (oth : List (Pos × Pos)) :
    List Nat → ATree → Except Unit ATree
  | [], alt => do
      let adds ← stepAdds ref []
      resetLeavesB oth alt adds
  | j :: rp, alt => do
      let p := (j :: rp).reverse
      let adds ← stepAdds ref p
      let alt' ← resetLeavesB oth alt adds
      let par ← getE ref rp.reverse
      if heavyChildIdx par.ch = some j then climbR ref oth rp alt'
      else .ok alt'

/-- One iteration of the main loop of
`compute_transfer_indices_fast_BALANCED` (rapid_transfer.c:105-119):
`add_heavy_path` then `reset_heavy_path` from one reference leaf. -/
def iterate1 (ref : ATree) (oth : List (Pos × Pos)) (alt : ATree)
    (pleaf : Pos) : Except Unit (List (Pos × Int × Int) × ATree) := do
  let res ← climb ref oth pleaf.reverse alt
  let alt2 ← climbR ref oth pleaf.reverse res.2
  .ok (res.1, alt2)

/-- `compute_transfer_indices_fast_BALANCED` (rapid_transfer.c:89-123) up
to the node-level records: prepare both trees (`prepare_rapid_TI`), sort
the leaves by name, set the leaf bijection, then run
`add_heavy_path`/`reset_heavy_path` from every reference leaf in order.
Returns the `(node, ti_min, ti_max)` records together with
`ref_tree->nb_taxa`.  The calls the C code makes to functions that are
not part of the sources (`get_min_node`, `transfer_index`,
`get_transfer_set`, …, rapid_transfer.c:196-225) only read the state and
feed `assert`s documented to hold, and are omitted. -/
def driveBAL (ref0 alt0 : ATree) :
    Except Unit (List (Pos × Int × Int) × Int) := do
  let ref := initA ref0
  let alt := initA alt0
  let s1 := sortByName (leafPN ref)
  let s2 := sortByName (leafPN alt)
  match set_leaf_bijection (s1.map (fun x => x.1)) (s2.map (fun x => x.1)) with
  | none => .error ()
  | some oth => do
    let res ← s1.foldlM
      (fun (acc : List (Pos × Int × Int) × ATree) x => do
        let r ← iterate1 ref oth acc.2 x.1
        .ok (acc.1 ++ r.1, r.2))
      (([] : List (Pos × Int × Int)), alt)
    .ok (res.1, (s1.length : Int))

/-- The per-edge output of `compute_transfer_indices_fast_BALANCED`
(after `nodeTI_to_edgeTI` and `edgeTI_to_array`): the transfer index of
the edge above each non-root reference node. -/
def pipelineBAL (ref0 alt0 : ATree) : Except Unit (List (Pos × Int)) := do
  let r ← driveBAL ref0 alt0
  .ok (nodeTI_to_edgeTI r.2 r.1)

/-! ## The HeavyPathTree (heavy_paths.c)

A `Path` struct becomes the inductive `PathT`: an internal PT node with
two children, or a PT leaf attached to an alt-tree node (with the list of
pendant child heavy paths, empty exactly for an HPT leaf).  `parent`,
`sibling` and `parent_heavypath` pointers disappear: the sweeps are
written as recursions from the HPT root downward along the materialised
root-to-leaf step list (`PStep`), which is the reverse of the C
`path_to_root` array. -/
/-- The mutable statistics of a `Path` (heavy_paths.h:59-99). -/
structure PStats where
  diff_path : Int
  diff_sub : Int
  d_min_path : Int
  d_min_sub : Int
  d_max_path : Int
  d_max_sub : Int
  incl_path : List Nat
  incl_sub : List Nat
  excl : List Nat
  excl_path : List Nat
  total_depth : Nat
  num_hpt : Nat
deriving Repr, DecidableEq

/-- `new_Path()` (heavy_paths.c:10-44): diffs 0, `d_min_path = 1`,
`d_min_subtree = 1`, `d_max_path = 0`, `d_max_subtree = 1`, empty
NodeArrays.  (`num_hpt_leaves` is left uninitialised by the C code but is
overwritten before any use; it starts at 0 here.) -/
def newPStats (depth : Nat) : PStats :=
  ⟨0, 0, 1, 1, 0, 1, [], [], [], [], depth, 0⟩

/-- A `Path` of the HPT: an internal PT node, or a PT leaf carrying the
name, `subtreesize` and position of its alt-tree node together with its
pendant child heavy paths (`child_heavypaths`; empty for an HPT leaf). -/
inductive PathT where
  | internal (st : PStats) (l r : PathT)
  | pleaf (st : PStats) (nm : Nat) (sub : Int) (np : Pos) (cps : List PathT)

/-- The statistics of a `Path`. -/
def PathT.st : PathT → PStats
  | .internal st _ _ => st
  | .pleaf st _ _ _ _ => st

/-- Replace the statistics of a `Path`. -/
def PathT.mapSt (g : PStats → PStats) : PathT → PathT
  | .internal st l r => .internal (g st) l r
  | .pleaf st nm sub np cps => .pleaf (g st) nm sub np cps

/-- `is_HPT_leaf` (heavy_paths.c:692-695): a `Path` with a `node` and no
`child_heavypaths`. -/
def isHPTLeaf : PathT → Bool
  | .pleaf _ _ _ _ [] => true
  | _ => false

/-- `INT_MAX` (used by `heavypath_leaf`). -/
def intMax : Int := 2147483647

/-- `INT_MIN` (used by `heavypath_leaf`). -/
def intMin : Int := -2147483648

/-- `get_heavypath` / `get_heavypath_length` (heavy_paths.c:653-686):
the maximal heavy path starting at a node, following the stored
`heavychild` (as selected by `setup_heavy_light_subtrees`), as pairs of
(absolute position, subtree). -/
def hpList (fuel : Nat) (u : ATree) (p : Pos) : Option (List (Pos × ATree)) :=
  match fuel with
  | 0 => none
  | fuel + 1 =>
    if u.ch.isEmpty then some [(p, u)]
    else
      match heavyChildIdx u.ch with
      | none => none
      | some hc =>
        match u.ch[hc]? with
        | none => none
        | some c => (hpList fuel c (p ++ [hc])).map (fun l => (p, u) :: l)

mutual
/-- `heavy_decomposition` (heavy_paths.c:76-93): build the PT of the
maximal heavy path starting at `u` (absolute position `p`), at HPT depth
`depth`. -/
def heavyDecomp (fuel : Nat) (u : ATree) (p : Pos) (depth : Nat) :
    Option PathT :=
  match fuel with
  | 0 => none
  | fuel + 1 =>
    match hpList fuel u p with
    | none => none
    | some hp =>
      if hp.length == 1 then hpLeaf fuel u p depth
      else partitionHP fuel hp depth
termination_by structural fuel

/-- `partition_heavypath` (heavy_paths.c:140-179).  `l1 = ceil(length/2)`
in the C source is `ceil` applied to the C integer division `length/2`,
i.e. `⌊length/2⌋`. -/
def partitionHP (fuel : Nat) (hp : List (Pos × ATree)) (depth : Nat) :
    Option PathT :=
  match fuel with
  | 0 => none
  | fuel + 1 =>
    if hp.length < 2 then none
    else
      let l1 := hp.length / 2
      let goHalf := fun (half : List (Pos × ATree)) =>
        if half.length == 1 then
          match half with
          | [(q, v)] => hpLeaf fuel v q (depth + 1)
          | _ => none
        else partitionHP fuel half (depth + 1)
      match goHalf (hp.take l1), goHalf (hp.drop l1) with
      | some pl, some pr =>
        let st0 := newPStats depth
        some (.internal
          { st0 with
            d_min_path := min pl.st.d_min_path pr.st.d_min_path,
            d_max_path := max pl.st.d_max_path pr.st.d_max_path,
            d_max_sub := max pl.st.d_max_sub pr.st.d_max_sub,
            num_hpt := pl.st.num_hpt + pr.st.num_hpt }
          pl pr)
      | _, _ => none
termination_by structural fuel

/-- `heavypath_leaf` (heavy_paths.c:188-249): a PT leaf for alt node `u`.
For an internal alt node, recursively decompose every child other than the
heavy child (for the alt root the neighbour scan starts at 0, otherwise at
1 — in both cases exactly the children list) and aggregate
`d_min_subtree` / `d_max_subtree` / `num_hpt_leaves` over the returned PT
roots; `d_min_path = d_max_path = subtreesize`. -/
def hpLeaf (fuel : Nat) (u : ATree) (p : Pos) (depth : Nat) : Option PathT :=
  match fuel with
  | 0 => none
  | fuel + 1 =>
    let st0 := { newPStats depth with d_max_path := u.f.sub }
    if u.ch.isEmpty then
      some (.pleaf { st0 with num_hpt := 1 } u.f.name u.f.sub p [])
    else
      match heavyChildIdx u.ch with
      | none => none
      | some hc =>
        match decompChildren fuel u p depth hc 0 u.ch with
        | none => none
        | some cps =>
          let st1 := cps.foldl
            (fun (st : PStats) c =>
              { st with
                num_hpt := st.num_hpt + c.st.num_hpt,
                d_min_sub := min (min st.d_min_sub c.st.d_min_path)
                                 c.st.d_min_sub,
                d_max_sub := max (max st.d_max_sub c.st.d_max_path)
                                 c.st.d_max_sub })
            { st0 with d_min_sub := intMax, d_max_sub := intMin, num_hpt := 0 }
          some (.pleaf
            { st1 with d_min_path := u.f.sub, d_max_path := u.f.sub }
            u.f.name u.f.sub p cps)
termination_by structural fuel

/-- The child scan of `heavypath_leaf` (heavy_paths.c:215-237): decompose
every child except the heavy child, in child order (`i` is the index of
the head of the list). -/
def decompChildren (fuel : Nat) (u : ATree) (p : Pos) (depth : Nat)
    (hc : Nat) (i : Nat) (ch : List ATree) : Option (List PathT) :=
  match fuel with
  | 0 => none
  | fuel + 1 =>
    match ch with
    | [] => some []
    | c :: cs =>
      if i = hc then decompChildren fuel u p depth hc (i + 1) cs
      else
        match heavyDecomp fuel c (p ++ [i]) (depth + 1) with
        | none => none
        | some pt =>
          (decompChildren fuel u p depth hc (i + 1) cs).map (fun l => pt :: l)
termination_by structural fuel
end

/-- `do_heavy_decomposition` (heavy_paths.c:62-74) up to the scratch
buffer (which only caches `path_to_root`). -/
def doHeavyDecomp (fuel : Nat) (alt : ATree) : Option PathT :=
  heavyDecomp fuel alt [] 0

/-- One step of the HPT root-to-leaf path: descend to the left or right
PT child, or into `child_heavypaths[i]` of a PT leaf. -/
inductive PStep where
  | L
  | R
  | C (i : Nat)
deriving Repr, DecidableEq

mutual
/-- The root-to-leaf step list to the HPT leaf of the alt-tree leaf at
position `q` (the reverse of the C `path_to_root` array built by
`set_path_to_root_HPT`, heavy_paths.c:600-617). -/
def findSteps : PathT → Pos → Option (List PStep)
  | .internal _ l r, q =>
    match findSteps l q with
    | some s => some (.L :: s)
    | none => (findSteps r q).map (fun s => .R :: s)
  | .pleaf _ _ _ np [], q => if np = q then some [] else none
  | .pleaf _ _ _ _ (c :: cs), q => findStepsL 0 (c :: cs) q
/-- `findSteps` over the child heavy paths. -/
def findStepsL (i : Nat) : List PathT → Pos → Option (List PStep)
  | [], _ => none
  | c :: cs, q =>
    match findSteps c q with
    | some s => some (.C i :: s)
    | none => findStepsL (i + 1) cs q
end

/-- `get_ti_min` (heavy_paths.c:274-278). -/
def get_ti_min (pt : PathT) : Int :=
  min (pt.st.d_min_path + pt.st.diff_path) (pt.st.d_min_sub + pt.st.diff_sub)

/-- `get_ti_max` (heavy_paths.c:305-312). -/
def get_ti_max (pt : PathT) : Int :=
  if isHPTLeaf pt then pt.st.d_max_path + pt.st.diff_path
  else max (pt.st.d_max_path + pt.st.diff_path)
           (pt.st.d_max_sub + pt.st.diff_sub)

/-- `get_ti_min_mod` (heavy_paths.c:294-301). -/
def get_ti_min_mod (pt : PathT) (accP accS : Int) : Int :=
  if isHPTLeaf pt then pt.st.d_min_path + pt.st.diff_path + accP
  else min (pt.st.d_min_path + pt.st.diff_path + accP)
           (pt.st.d_min_sub + pt.st.diff_sub + accS)

/-- `get_ti_max_mod` (heavy_paths.c:317-321). -/
def get_ti_max_mod (pt : PathT) (accP accS : Int) : Int :=
  max (pt.st.d_max_path + pt.st.diff_path + accP)
      (pt.st.d_max_sub + pt.st.diff_sub + accS)

/-- `get_ti_x_mod` (heavy_paths.c:283-289). -/
def get_ti_x_mod (pt : PathT) (accP accS : Int) (usemax : Bool) : Int :=
  if usemax then get_ti_max_mod pt accP accS else get_ti_min_mod pt accP accS

/-- The push of a PT leaf's `diff_subtree` into a child heavy path
(`add_leaf_HPT`, heavy_paths.c:722-726). -/
def pushSub (d : Int) (c : PathT) : PathT :=
  c.mapSt (fun st =>
    { st with diff_path := st.diff_path + d, diff_sub := st.diff_sub + d })

/-- The extra bump of a child heavy path that is not on the path
(`add_leaf_HPT`, heavy_paths.c:727-733). -/
def offBumpH (lname : Nat) (c : PathT) : PathT :=
  c.mapSt (fun st =>
    { st with
      incl_sub := st.incl_sub ++ [lname],
      incl_path := st.incl_path ++ [lname],
      diff_path := st.diff_path + 1,
      diff_sub := st.diff_sub + 1 })

/-- Recompute `d_min_subtree` / `d_max_subtree` of a PT leaf from its
child heavy paths in the upward sweep of `add_leaf_HPT`
(heavy_paths.c:776-808): initialise from `child_heavypaths[0]`'s path
value, then fold over all children, adding only the path value for an HPT
leaf child and otherwise both the path value and
`d_min_subtree + diff_path` (the C code adds `diff_path`, not
`diff_subtree`, to the subtree statistic here). -/
def upSubOfCps (st : PStats) (cps : List PathT) : PStats :=
  match cps with
  | [] => st
  | c0 :: _ =>
    let st1 := { st with
      d_min_sub := c0.st.d_min_path + c0.st.diff_path,
      d_max_sub := c0.st.d_max_path + c0.st.diff_path }
    cps.foldl
      (fun (a : PStats) c =>
        if isHPTLeaf c then
          { a with
            d_min_sub := min a.d_min_sub (c.st.d_min_path + c.st.diff_path),
            d_max_sub := max a.d_max_sub (c.st.d_max_path + c.st.diff_path) }
        else
          { a with
            d_min_sub := min (min a.d_min_sub
                                  (c.st.d_min_path + c.st.diff_path))
                             (c.st.d_min_sub + c.st.diff_path),
            d_max_sub := max (max a.d_max_sub
                                  (c.st.d_max_path + c.st.diff_path))
                             (c.st.d_max_sub + c.st.diff_path) })
      st1

/-- Recompute the statistics of an internal PT node from its two children
in the upward sweep of `add_leaf_HPT` (heavy_paths.c:809-846). -/
def upInternal (st : PStats) (l r : PathT) : PStats :=
  let st1 := { st with
    d_min_path := min (l.st.d_min_path + l.st.diff_path)
                      (r.st.d_min_path + r.st.diff_path),
    d_max_path := max (l.st.d_max_path + l.st.diff_path)
                      (r.st.d_max_path + r.st.diff_path) }
  if isHPTLeaf l then
    { st1 with
      d_min_sub := r.st.d_min_sub + r.st.diff_sub,
      d_max_sub := r.st.d_max_sub + r.st.diff_sub }
  else if isHPTLeaf r then
    { st1 with
      d_min_sub := l.st.d_min_sub + l.st.diff_sub,
      d_max_sub := l.st.d_max_sub + l.st.diff_sub }
  else
    { st1 with
      d_min_sub := min (l.st.d_min_sub + l.st.diff_sub)
                       (r.st.d_min_sub + r.st.diff_sub),
      d_max_sub := max (l.st.d_max_sub + l.st.diff_sub)
                       (r.st.d_max_sub + r.st.diff_sub) }

/-- Indexed map over child heavy paths. -/
def mapIdxP (g : Nat → PathT → PathT) : Nat → List PathT → List PathT
  | _, [] => []
  | k, c :: cs => g k c :: mapIdxP g (k + 1) cs

/-- `add_leaf_HPT` (heavy_paths.c:706-848), with the version-skew
`getsets` parameter of the caller dropped: this version of the function
maintains the include/exclude NodeArrays unconditionally.  The downward
sweep (push `diff`s, ±1 bumps, include/exclude bookkeeping) and the
upward sweep (recompute `d_min/d_max` statistics along the path) are
fused into one recursion over the root-to-leaf step list. -/
def addHPT (lname : Nat) : List PStep → PathT → PathT
  | [], .pleaf st nm sub np cps =>
      let st1 := { st with excl := st.excl ++ [lname] }
      let st2 := { st1 with
        d_min_path := st1.d_min_path + st1.diff_path - 1 }
      .pleaf { st2 with
        d_max_path := st2.d_min_path, diff_path := 0, diff_sub := 0 }
        nm sub np cps
  | .C i :: rest, .pleaf st nm sub np cps =>
      let cps1 := (mapIdxP (fun j c =>
        let c1 := pushSub st.diff_sub c
        if j = i then c1 else offBumpH lname c1) 0 cps)
      let cps2 := mapIdxP (fun j c => if j = i then addHPT lname rest c else c)
        0 cps1
      let st1 := { st with excl := st.excl ++ [lname] }
      let st2 := { st1 with
        d_min_path := st1.d_min_path + st1.diff_path - 1 }
      let st3 := { st2 with
        d_max_path := st2.d_min_path, diff_path := 0, diff_sub := 0 }
      .pleaf (upSubOfCps st3 cps2) nm sub np cps2
  | .L :: rest, .internal st l r =>
      let l1 := l.mapSt (fun s =>
        { s with diff_path := s.diff_path + st.diff_path,
                 diff_sub := s.diff_sub + st.diff_sub })
      let r1 := r.mapSt (fun s =>
        { s with
          incl_path := s.incl_path ++ [lname],
          incl_sub := s.incl_sub ++ [lname],
          diff_path := s.diff_path + (st.diff_path + 1),
          diff_sub := s.diff_sub + (st.diff_sub + 1) })
      let l2 := addHPT lname rest l1
      let st1 := { st with diff_path := 0, diff_sub := 0 }
      .internal (upInternal st1 l2 r1) l2 r1
  | .R :: rest, .internal st l r =>
      let r1 := r.mapSt (fun s =>
        { s with diff_path := s.diff_path + st.diff_path,
                 diff_sub := s.diff_sub + st.diff_sub })
      let l1 := l.mapSt (fun s =>
        { s with
          incl_sub := s.incl_sub ++ [lname],
          excl_path := s.excl_path ++ [lname],
          diff_path := s.diff_path + (st.diff_path - 1),
          diff_sub := s.diff_sub + (st.diff_sub + 1) })
      let r2 := addHPT lname rest r1
      let st1 := { st with diff_path := 0, diff_sub := 0 }
      .internal (upInternal st1 l1 r2) l1 r2
  | _, pt => pt

/-- `reset_leaf_HPT` (heavy_paths.c:876-925), as a recursion down the
same step list (the C code walks leaf-to-root; within each PT the
ancestors are processed bottom-up, which the post-recursion position of
the updates reproduces). -/
def resetHPT : List PStep → PathT → PathT
  | [], .pleaf st nm sub np cps =>
      .pleaf { st with
        diff_path := 0, diff_sub := 0,
        d_min_path := sub, d_max_path := sub,
        excl := [] } nm sub np cps
  | .C i :: rest, .pleaf st nm sub np cps =>
      let cps1 := mapIdxP (fun j c =>
        if j = i then resetHPT rest c
        else c.mapSt (fun s =>
          { s with diff_path := 0, diff_sub := 0,
                   incl_sub := [], incl_path := [] })) 0 cps
      let lastw := cps1[i]?
      let st1 := { st with
        diff_path := 0, diff_sub := 0,
        d_min_path := sub, d_max_path := sub,
        d_min_sub := match lastw with
          | some w => min w.st.d_min_path w.st.d_min_sub
          | none => st.d_min_sub,
        d_max_sub := match lastw with
          | some w => max w.st.d_max_path w.st.d_max_sub
          | none => st.d_max_sub,
        excl := [] }
      .pleaf st1 nm sub np cps1
  | .L :: rest, .internal st l r =>
      let l1 := resetHPT rest l
      let l2 := l1.mapSt (fun s =>
        { s with diff_path := 0, diff_sub := 0,
                 excl_path := [], incl_sub := [], incl_path := [] })
      let r2 := r.mapSt (fun s =>
        { s with diff_path := 0, diff_sub := 0,
                 excl_path := [], incl_sub := [], incl_path := [] })
      .internal { st with
        diff_path := 0, diff_sub := 0,
        d_min_path := min l2.st.d_min_path r2.st.d_min_path,
        d_max_path := max l2.st.d_max_path r2.st.d_max_path,
        d_min_sub := 1,
        d_max_sub := max l2.st.d_max_sub r2.st.d_max_sub,
        excl := [] } l2 r2
  | .R :: rest, .internal st l r =>
      let r1 := resetHPT rest r
      let r2 := r1.mapSt (fun s =>
        { s with diff_path := 0, diff_sub := 0,
                 excl_path := [], incl_sub := [], incl_path := [] })
      let l2 := l.mapSt (fun s =>
        { s with diff_path := 0, diff_sub := 0,
                 excl_path := [], incl_sub := [], incl_path := [] })
      .internal { st with
        diff_path := 0, diff_sub := 0,
        d_min_path := min l2.st.d_min_path r2.st.d_min_path,
        d_max_path := max l2.st.d_max_path r2.st.d_max_path,
        d_min_sub := 1,
        d_max_sub := max l2.st.d_max_sub r2.st.d_max_sub,
        excl := [] } l2 r2
  | _, pt => pt

/-- `num_child_paths` of a `Path` (0 for internal PT nodes and HPT
leaves). -/
def numCps : PathT → Nat
  | .pleaf _ _ _ _ cps => cps.length
  | _ => 0

/-- The `child_heavypaths` array of a `Path`. -/
def cpsOf : PathT → List PathT
  | .pleaf _ _ _ _ cps => cps
  | _ => []

mutual
/-- The scan over `child_heavypaths` inside `get_x_path`
(heavy_paths.c:411-428).  The C `for` loop re-reads
`currentnode->num_child_paths` and `currentnode->child_heavypaths[i]`
after `currentnode` has been replaced by a matching child, and does not
break after a match; the index `i`, the current node and the accumulators
evolve exactly as in the source. -/
def scanC (usemax : Bool) (target : Int) : Nat → Nat → PathT → Int → Int →
    List PStep → Bool → Option (List PStep)
  | 0, _, _, _, _, _, _ => none
  | fuel + 1, i, cur, accP, accS, route, found =>
    match (cpsOf cur)[i]? with
    | some c =>
      if get_ti_x_mod c accS accS usemax == target then
        scanC usemax target fuel (i + 1) c (c.st.diff_path + accS)
          (c.st.diff_sub + accS) (route ++ [.C i]) true
      else
        scanC usemax target fuel (i + 1) cur accP accS route found
    | none =>
      if found then getXGo usemax target fuel cur accP accS route
      else some route
termination_by structural f _i _c _a _b _r _fd => f

/-- `get_x_path` (heavy_paths.c:384-433): descend from `cur` towards a
`Path` whose (modified) statistic equals `target`, returning the route
taken.  Tries the right PT child, then the left, then the child heavy
paths. -/
def getXGo (usemax : Bool) (target : Int) : Nat → PathT → Int → Int →
    List PStep → Option (List PStep)
  | 0, _, _, _, _ => none
  | fuel + 1, cur, accP, accS, route =>
    match cur with
    | .internal _ l r =>
      if get_ti_x_mod r accP accS usemax == target then
        getXGo usemax target fuel r (accP + r.st.diff_path)
          (accS + r.st.diff_sub) (route ++ [.R])
      else if get_ti_x_mod l accP accS usemax == target then
        getXGo usemax target fuel l (accP + l.st.diff_path)
          (accS + l.st.diff_sub) (route ++ [.L])
      else some route
    | .pleaf _ _ _ _ [] => some route
    | .pleaf _ _ _ _ (_ :: _) =>
      scanC usemax target fuel 0 cur accP accS route false
termination_by structural f _c _a _b _r => f
end

/-- `get_min_path` / `get_max_path` / `get_x_path` entry
(heavy_paths.c:365-395): target is the overall min (resp. max), the
accumulators start from the root's own `diff`s. -/
def getXPath (fuel : Nat) (pt : PathT) (usemax : Bool) :
    Option (List PStep) :=
  let target := if usemax then get_ti_max pt else get_ti_min pt
  getXGo usemax target fuel pt pt.st.diff_path pt.st.diff_sub []

/-- The `Path`s visited from the HPT root following a route (the reverse
of the C `path_to_root` array of the route's endpoint). -/
def routeNodes : PathT → List PStep → List PathT
  | pt, [] => [pt]
  | pt, s :: rest =>
    pt :: (match pt, s with
      | .internal _ l _, .L => routeNodes l rest
      | .internal _ _ r, .R => routeNodes r rest
      | .pleaf _ _ _ _ cps, .C i =>
        match cps[i]? with
        | some c => routeNodes c rest
        | none => []
      | _, _ => [])

mutual
/-- `add_nonexcluded_from_HPT_subtree` (heavy_paths.c:531-548): collect
the taxa of the HPT leaves below a `Path`, pruning every sub-`Path` whose
`exclude` NodeArray size equals its `num_hpt_leaves`. -/
def addNonexcl (pt : PathT) : List Nat :=
  if pt.st.excl.length == pt.st.num_hpt then []
  else
    match pt with
    | .pleaf _ nm _ _ [] => [nm]
    | .pleaf _ _ _ _ (c :: cs) => addNonexclL (c :: cs)
    | .internal _ l r => addNonexcl l ++ addNonexcl r
/-- `addNonexcl` over child heavy paths. -/
def addNonexclL : List PathT → List Nat
  | [] => []
  | c :: cs => addNonexcl c ++ addNonexclL cs
end

/-- Whether a step descends into a child heavy path. -/
def PStep.isC : PStep → Bool
  | .C _ => true
  | _ => false

/-- The include-collection loop shared by the two transfer-set builders
(heavy_paths.c:458-467 and 505-513): walk the path bottom-up with the
`in_PT` flag (cleared at the first `Path` above the start that has child
heavy paths and never set again), appending `sel true` of the node while
inside the starting PT and `sel false` otherwise. -/
def collectUp (sel : Bool → PathT → List Nat) (pathBU : List PathT) :
    List Nat :=
  (pathBU.foldl
    (fun (acc : List Nat × Bool × Nat) w =>
      let inPT := if acc.2.2 ≠ 0 ∧ numCps w > 0 then false else acc.2.1
      (acc.1 ++ sel inPT w, inPT, acc.2.2 + 1))
    ([], true, 0)).1

/-- `get_min_transfer_set_for_node_HPT` (heavy_paths.c:451-480), with the
target `Path` given by its route from the HPT root: collect the
`include_path` sets inside the starting PT and the `include_subtree` sets
above it, add the non-excluded leaves below the target, then walk the
target's PT upward adding the non-excluded leaves of every right sibling
(the heavy-path continuation below the target). -/
def minTransferSet (pt : PathT) (route : List PStep) : List Nat :=
  let vis := routeNodes pt route
  let pathBU := vis.reverse
  let incs := collectUp
    (fun inPT w => if inPT then w.st.incl_path else w.st.incl_sub) pathBU
  let tgt := vis.getLast? |>.getD pt
  let ts1 := incs ++ addNonexcl tgt
  let pairs := vis.zip route
  let seg := (pairs.reverse.takeWhile (fun x => ¬x.2.isC))
  ts1 ++ seg.flatMap (fun x =>
    match x.1, x.2 with
    | .internal _ _ r, .L => addNonexcl r
    | _, _ => [])

/-- The sibling child heavy paths of `parent_heavypath` other than the
one descended into (heavy_paths.c:566-572). -/
def sibCps (i : Nat) (j : Nat) : List PathT → List Nat
  | [] => []
  | c :: cs =>
    (if j = i then [] else addNonexcl c) ++ sibCps i (j + 1) cs

/-- `include_leaves_from_ancestral_subtrees` (heavy_paths.c:553-575):
walk from the target to the HPT root; at a step inside a PT add the
sibling's subtree when the target side is the right child or the first PT
has been left; at a PT-root step clear `in_subree` and add every sibling
child heavy path. -/
def inclAncestral (pairsBU : List (PathT × PStep)) : List Nat :=
  (pairsBU.foldl
    (fun (acc : List Nat × Bool) x =>
      match x.1, x.2 with
      | .internal _ l r, s =>
        if ¬acc.2 ∨ s = .R then
          (acc.1 ++ addNonexcl (if s = .R then l else r), acc.2)
        else (acc.1, acc.2)
      | .pleaf _ _ _ _ cps, .C i =>
        (acc.1 ++ sibCps i 0 cps, false)
      | _, _ => acc)
    ([], true)).1

/-- `get_max_transfer_set_for_node_HPT` (heavy_paths.c:498-524): collect
the `exclude_path` sets inside the starting PT, the target's own
`exclude`, then the non-excluded leaves of the ancestral sibling
subtrees. -/
def maxTransferSet (pt : PathT) (route : List PStep) : List Nat :=
  let vis := routeNodes pt route
  let pathBU := vis.reverse
  let exps := collectUp
    (fun inPT w => if inPT then w.st.excl_path else []) pathBU
  let tgt := vis.getLast? |>.getD pt
  let pairsBU := (vis.zip route).reverse
  exps ++ tgt.st.excl ++ inclAncestral pairsBU

/-- `get_transfer_set_for_node_HPT` (heavy_paths.c:441-447). -/
def transferSetForNode (pt : PathT) (route : List PStep) (usemax : Bool) :
    List Nat :=
  if usemax then maxTransferSet pt route else minTransferSet pt route

/-- `get_transfer_set_HPT` (heavy_paths.c:334-362): evaluate the min and
max side, pick the min side when `min <= max`, build the corresponding
set, and `assert` that its size equals the chosen value (an assertion
failure aborts the program, modelled by `Except.error`). -/
def getTransferSetHPT (fuel : Nat) (pt : PathT) (nbTaxa : Int) :
    Except Unit (List Nat) :=
  let mn := get_ti_min pt
  let mx := nbTaxa - get_ti_max pt
  if mn ≤ mx then
    match getXPath fuel pt false with
    | none => .error ()
    | some route =>
      let s := minTransferSet pt route
      if (s.length : Int) = mn then .ok s else .error ()
  else
    match getXPath fuel pt true with
    | none => .error ()
    | some route =>
      let s := maxTransferSet pt route
      if (s.length : Int) = mx then .ok s else .error ()

/-! ## The driver, HPT variant (`use_HPT == true`), as called by
`compute_transfer_indices_fast` (rapid_transfer.c:28-68). -/
/-- `add_leaf_HPT` on the image of one reference leaf: locate the HPT
leaf of the alt leaf and run the sweeps. -/
def addLeafHPT1 (alt : ATree) (pt : PathT) (q : Pos) : Except Unit PathT :=
  match getA q alt with
  | none => .error ()
  | some u =>
    match findSteps pt q with
    | none => .error ()
    | some steps => .ok (addHPT u.f.name steps pt)

/-- `reset_leaf_HPT` on the image of one reference leaf. -/
def resetLeafHPT1 (pt : PathT) (q : Pos) : Except Unit PathT :=
  match findSteps pt q with
  | none => .error ()
  | some steps => .ok (resetHPT steps pt)

/-- `add_leaf_HPT` over a batch of reference leaves (the loop of
`add_heavy_path`, rapid_transfer.c:155-175, branch `use_HPT == true`). -/
def addLeavesH (oth : List (Pos × Pos)) (alt : ATree) (pt : PathT)
    (ps : List Pos) : Except Unit PathT :=
  ps.foldlM (fun st p => do
    let q ← othLook oth p
    addLeafHPT1 alt st q) pt

/-- `reset_leaf_HPT` over a batch of reference leaves. -/
def resetLeavesH (oth : List (Pos × Pos)) (pt : PathT) (ps : List Pos) :
    Except Unit PathT :=
  ps.foldlM (fun st p => do
    let q ← othLook oth p
    resetLeafHPT1 st q) pt

/-- The per-node body of `add_heavy_path` with `use_HPT == true`
(rapid_transfer.c:178-193): read `ti_min`/`ti_max` from the HPT root and,
when `getsets`, build the transfer set and `assert` that its size equals
`min(ti_min, alt_tree->nb_taxa - ti_max)`. -/
def recordH (getsets : Bool) (fuel : Nat) (nbTaxaAlt : Int) (pt : PathT)
    (p : Pos) : Except Unit (Pos × Int × Int) := do
  let tmin := get_ti_min pt
  let tmax := get_ti_max pt
  if getsets then
    let ts ← getTransferSetHPT fuel pt nbTaxaAlt
    if (ts.length : Int) = min tmin (nbTaxaAlt - tmax) then
      .ok (p, tmin, tmax)
    else .error ()
  else .ok (p, tmin, tmax)

/-- `add_heavy_path` (rapid_transfer.c:144-236, branch `use_HPT = true`):
the upward walk in the reference tree, adding the entering leaves into
the HPT and recording the root statistics at every node. -/
def climbH (getsets : Bool) (fuel : Nat) (nbTaxaAlt : Int) (ref alt : ATree)
    (oth : List (Pos × Pos)) :
    List Nat → PathT → Except Unit (List (Pos × Int × Int) × PathT)
  | [], pt => do
      let adds ← stepAdds ref []
      let pt' ← addLeavesH oth alt pt adds
      let r ← recordH getsets fuel nbTaxaAlt pt' []
      .ok ([r], pt')
  | j :: rp, pt => do
      let p := (j :: rp).reverse
      let adds ← stepAdds ref p
      let pt' ← addLeavesH oth alt pt adds
      let r ← recordH getsets fuel nbTaxaAlt pt' p
      let par ← getE ref rp.reverse
      if heavyChildIdx par.ch = some j then do
        let res ← climbH getsets fuel nbTaxaAlt ref alt oth rp pt'
        .ok (r :: res.1, res.2)
      else
        .ok ([r], pt')

/-- `reset_heavy_path` (rapid_transfer.c:247-274, branch
`use_HPT == true`). -/
def climbHR (ref : ATree) (oth : List (Pos × Pos)) :
    List Nat → PathT → Except Unit PathT
  | [], pt => do
      let adds ← stepAdds ref []
      resetLeavesH oth pt adds
  | j :: rp, pt => do
      let p := (j :: rp).reverse
      let adds ← stepAdds ref p
      let pt' ← resetLeavesH oth pt adds
      let par ← getE ref rp.reverse
      if heavyChildIdx par.ch = some j then climbHR ref oth rp pt'
      else .ok pt'

/-- One iteration of the main loop of `compute_transfer_indices_fast`
(rapid_transfer.c:48-62). -/
def iterateH (getsets : Bool) (fuel : Nat) (nbTaxaAlt : Int)
    (ref alt : ATree) (oth : List (Pos × Pos)) (pt : PathT) (pleaf : Pos) :
    Except Unit (List (Pos × Int × Int) × PathT) := do
  let res ← climbH getsets fuel nbTaxaAlt ref alt oth pleaf.reverse pt
  let pt2 ← climbHR ref oth pleaf.reverse res.2
  .ok (res.1, pt2)

/-- `compute_transfer_indices_fast` (rapid_transfer.c:28-68) up to the
node-level records: prepare both trees, set the leaf bijection, build the
heavy-path decomposition of the alternative tree, then run
`add_heavy_path`/`reset_heavy_path` from every reference leaf in order.
Returns the `(node, ti_min, ti_max)` records and `ref_tree->nb_taxa`. -/
def driveHPT (getsets : Bool) (fuel : Nat) (ref0 alt0 : ATree) :
    Except Unit (List (Pos × Int × Int) × Int) := do
  let ref := initA ref0
  let alt := initA alt0
  let s1 := sortByName (leafPN ref)
  let s2 := sortByName (leafPN alt)
  match set_leaf_bijection (s1.map (fun x => x.1)) (s2.map (fun x => x.1)) with
  | none => .error ()
  | some oth =>
    match doHeavyDecomp fuel alt with
    | none => .error ()
    | some pt0 => do
      let res ← s1.foldlM
        (fun (acc : List (Pos × Int × Int) × PathT) x => do
          let r ← iterateH getsets fuel (s2.length : Int) ref alt oth acc.2 x.1
          .ok (acc.1 ++ r.1, r.2))
        (([] : List (Pos × Int × Int)), pt0)
      .ok (res.1, (s1.length : Int))

/-- The per-edge output of `compute_transfer_indices_fast` (after
`nodeTI_to_edgeTI` and `edgeTI_to_array`). -/
def pipelineHPT (getsets : Bool) (fuel : Nat) (ref0 alt0 : ATree) :
    Except Unit (List (Pos × Int)) := do
  let r ← driveHPT getsets fuel ref0 alt0
  .ok (nodeTI_to_edgeTI r.2 r.1)

/-! ## Concrete trees used as evaluation inputs -/
/-- A bare leaf with taxon `n` (the mutable fields are set by `initA`). -/
def cxL (n : Nat) : ATree := .node ⟨n, 0, 0, 0, 0, 0, [], []⟩ []

/-- A bare internal node (the mutable fields are set by `initA`). -/
def cxN (ch : List ATree) : ATree := .node ⟨99, 0, 0, 0, 0, 0, [], []⟩ ch

/-- The tree `((a,b),(c,d))` on taxa `0,1,2,3`. -/
def cxT4 : ATree := cxN [cxN [cxL 0, cxL 1], cxN [cxL 2, cxL 3]]

/-- The tree `((a,c),(b,d))` on taxa `0,1,2,3`. -/
def cxT4b : ATree := cxN [cxN [cxL 0, cxL 2], cxN [cxL 1, cxL 3]]

/-- A two-leaf tree on taxa `0,1`. -/
def cxR2 : ATree := cxN [cxL 0, cxL 1]

/-- A two-leaf tree on taxa `0,2` (taxon 2 does not occur in `cxR2`). -/
def cxA2 : ATree := cxN [cxL 0, cxL 2]

/-- A tree whose root has three children of subtree sizes `1`, `2`, `4`
(a pseudo-root 3-fan with the third child strictly heaviest). -/
def cxFan : ATree :=
  cxN [cxL 0, cxN [cxL 1, cxL 2],
       cxN [cxN [cxL 3, cxL 4], cxN [cxL 5, cxL 6]]]

/-- The heavy-path tree of the prepared `cxT4b`. -/
def cxPT0 : PathT :=
  (doHeavyDecomp 50 (initA cxT4b)).getD (.pleaf (newPStats 0) 0 0 [] [])

/-- `cxPT0` after `add_leaf_HPT` on the leaf of taxon 0. -/
def cxPT1 : PathT :=
  match addLeafHPT1 (initA cxT4b) cxPT0 [0, 0] with
  | .ok p => p
  | .error _ => cxPT0

/-- `cxPT1` after `add_leaf_HPT` on the leaf of taxon 1: the state seen
when the driver visits the `{a,b}` subtree of `((a,b),(c,d))`. -/
def cxPT2 : PathT :=
  match addLeafHPT1 (initA cxT4b) cxPT1 [1, 0] with
  | .ok p => p
  | .error _ => cxPT1

/-! ## Theorems: `partition_heavypath` (claim C9) -/
/-- The number of heavy-path nodes covered by a `Path` within its own PT
(not descending into pendant child heavy paths). -/
def ptRangeLen : PathT → Nat
  | .internal _ l r => ptRangeLen l + ptRangeLen r
  | .pleaf _ _ _ _ _ => 1

/-- The heavy-path node positions covered by a `Path` within its own PT,
left to right. -/
def ptNodes : PathT → List Pos
  | .internal _ l r => ptNodes l ++ ptNodes r
  | .pleaf _ _ _ np _ => [np]

/-- The shape `partition_heavypath` actually produces over a node range:
a PT leaf covers one node; an internal PT node covers the concatenation
of its children's contiguous ranges, the left child covering exactly
`⌊k/2⌋` of the `k` nodes, with `d_min_path` / `d_max_path` /
`d_max_subtree` / `num_hpt_leaves` aggregated from the children exactly
as in heavy_paths.c:168-176. -/
inductive Covers : PathT → List Pos → Prop where
  | leaf : ∀ st nm sub np cps, Covers (.pleaf st nm sub np cps) [np]
  | node : ∀ st l r ql qr, Covers l ql → Covers r qr →
      ql.length = (ql.length + qr.length) / 2 →
      st.d_min_path = min l.st.d_min_path r.st.d_min_path →
      st.d_max_path = max l.st.d_max_path r.st.d_max_path →
      st.d_max_sub = max l.st.d_max_sub r.st.d_max_sub →
      st.num_hpt = l.st.num_hpt + r.st.num_hpt →
      Covers (.internal st l r) (ql ++ qr)

/-- The heavy path of `((a,b),(c,d))` from the root. -/
def cxHP : List (Pos × ATree) := (hpList 50 (initA cxT4) []).getD []

/-- `partition_heavypath` applied to `cxHP`. -/
def cxPT9 : PathT :=
  (partitionHP 50 cxHP 0).getD (.pleaf (newPStats 0) 0 0 [] [])

/-- `p` is a prefix of `q` (the node at `p` lies on the root path of the
node at `q`). -/
def IsPre (p q : Pos) : Prop := ∃ r, p ++ r = q

/-- `q` is a child of a proper-prefix node of the path `π` but not itself
on the path: exactly the nodes whose `diff`/`include` are touched as
"children off the path". -/
def OffChild (q π : Pos) : Prop :=
  ∃ q' j, q = q' ++ [j] ∧ IsPre q' π ∧ q' ≠ π ∧ ¬ IsPre q π

/-- The observation of the node at `q`: its fields and its number of
children. -/
def viewAt (t : ATree) (q : Pos) : Option (NFields × Nat) :=
  (getA q t).map (fun c => (c.f, c.ch.length))

/-- The field write of `clearTop` (`diff = 0`, clear `include`). -/
def ctF (g : Bool) (f : NFields) : NFields :=
  { f with diff := 0, incl := if g then [] else f.incl }

/-- The `include`-clearing applied on top of `resetFields` to every
on-path node below the top one (through its parent's child loop). -/
def rI (g : Bool) (f : NFields) : NFields :=
  { f with incl := if g then [] else f.incl }

/-- A generic observation of the node at `q` through a projection. -/
def obsV {β : Type} (proj : ATree → β) (t : ATree) (q : Pos) : Option β :=
  (getA q t).map proj

/-- The `(d_lazy, d_min, d_max, exclude)` fields of a node: exactly the
fields that `add_leaf` writes only on the path and `reset_leaf` rewrites
to their fresh values on the path. -/
def dproj (c : ATree) : Int × Int × Int × List Nat :=
  (c.f.d_lazy, c.f.d_min, c.f.d_max, c.f.excl)

/-- `(d_lazy, d_min, d_max, exclude)` of the node at `q`. -/
def dexView (t : ATree) (q : Pos) : Option (Int × Int × Int × List Nat) :=
  obsV dproj t q

/-- The `include` NodeArray of the node at `q`. -/
def inView (t : ATree) (q : Pos) : Option (List Nat) :=
  obsV (fun c => c.f.incl) t q

/-- The `diff` of the node at `q`. -/
def diffView (t : ATree) (q : Pos) : Option Int :=
  obsV (fun c => c.f.diff) t q

/-- The `exclude` NodeArray of the node at `q`. -/
def exView (t : ATree) (q : Pos) : Option (List Nat) :=
  obsV (fun c => c.f.excl) t q

/-- The immutable data of the node at `q`: taxon name, `subtreesize` and
arity (`add_leaf`/`reset_leaf` touch none of them). -/
def stView (t : ATree) (q : Pos) : Option (Nat × Int × Nat) :=
  obsV (fun c => (c.f.name, c.f.sub, c.ch.length)) t q

/-- The fully reset `(d_lazy, d_min, d_max, exclude)` values at `q`, as
written by `reset_leaf` on a path node (rapid_transfer.c:343-348). -/
def dexFresh (g : Bool) (t : ATree) (q : Pos) :
    Option (Int × Int × Int × List Nat) :=
  (getA q t).map (fun c =>
    (c.f.sub, (1 : Int), c.f.sub, if g then ([] : List Nat) else c.f.excl))

/-- The taxon name stored at position `p` (0 for an invalid position). -/
def nmAt (t : ATree) (p : Pos) : Nat :=
  match getA p t with
  | some c => c.f.name
  | none => 0

/-- The effect of a sequence of `add_leaf` calls (each reading the leaf
name at its position, as `add_leaf` does through `leaf->name`). -/
def addChain (g : Bool) : List Pos → ATree → ATree
  | [], t => t
  | p :: ps, t => addChain g ps (addGo g (nmAt t p) 0 p t)

/-- The effect of a sequence of `reset_leaf` calls. -/
def resetChain (g : Bool) : List Pos → ATree → ATree
  | [], t => t
  | p :: ps, t => resetChain g ps (resetGo g p t)

/-- The per-node fresh state of the AltIndex, as established by
`prepare_rapid_TI`: `d_lazy = d_max = subtreesize`, `d_min = 1`,
`diff = 0`, empty `include`/`exclude`. -/
def freshF (f : NFields) : Bool :=
  (f.d_lazy == f.sub) && (f.d_max == f.sub) && (f.d_min == 1) &&
  (f.diff == 0) && (f.incl == ([] : List Nat)) && (f.excl == ([] : List Nat))

mutual
/-- Every node of the tree is in the fresh state. -/
def freshA : ATree → Bool
  | .node f ch => freshF f && freshL ch
/-- `freshA` over a list of subtrees. -/
def freshL : List ATree → Bool
  | [] => true
  | c :: cs => freshA c && freshL cs
end

/-- The guard of `assert_is_leaf` at position `p`: the node exists and has
no children. -/
def isLeafAt (t : ATree) (p : Pos) : Bool :=
  match getA p t with
  | some c => c.ch.isEmpty
  | none => false

/-! ## Semantic invariant of the lazy AltIndex (balanced variant)

`InvAt A e t` says: with `e` the pending `diff` accumulated strictly above
`t`, every node `v` of `t` stores `d_lazy`, `d_min`, `d_max` values that
resolve (after adding all pending diffs) to `|A △ L(v)|`, the minimum of
that quantity over the subtree of `v`, and its maximum — the invariant
`add_leaf` maintains (spec §4.2, rapid_transfer.c:283-327). -/
mutual
/-- Resolved-value invariant at a node, with pending diff `e` from
above. -/
def InvAt (A : Finset ℕ) : Int → ATree → Prop
  | e, .node f ch =>
      f.d_lazy + (f.diff + e) = tdist A (leafList (.node f ch)) ∧
      f.d_min + (f.diff + e) = minTD A (.node f ch) ∧
      f.d_max + (f.diff + e) = maxTD A (.node f ch) ∧
      InvL A (f.diff + e) ch
/-- `InvAt` for every tree of a list, at the same pending diff. -/
def InvL (A : Finset ℕ) : Int → List ATree → Prop
  | _, [] => True
  | e, c :: cs => InvAt A e c ∧ InvL A e cs
end

mutual
/-- Every node has zero or exactly two children (rooted binary shape). -/
def binaryA : ATree → Bool
  | .node _ ch => (ch.isEmpty || ch.length == 2) && binaryL ch
/-- `binaryA` over a list of subtrees. -/
def binaryL : List ATree → Bool
  | [] => true
  | c :: cs => binaryA c && binaryL cs
end

/-- The reference positions on which one node of the climb calls
`add_leaf`: the node itself if it is a leaf, its light leaves
otherwise. -/
def stepPoss (u : ATree) (p : Pos) : List Pos :=
  if u.ch.isEmpty then [p] else (lightPossOf u).map (fun q => p ++ q)

/-- The reference-tree positions visited by the climb of
`add_heavy_path` starting from the node with reversed position `rp`: the
node itself, then its ancestors for as long as the current node is its
parent's `heavychild`. -/
def visited (ref : ATree) : List Nat → List Pos
  | [] => [[]]
  | j :: rp =>
      (j :: rp).reverse ::
        (match getA rp.reverse ref with
         | some par =>
             if heavyChildIdx par.ch = some j then visited ref rp else []
         | none => [])

/-- The quantity the balanced pipeline stores on the edge above a
reference node with leaf set `A`: the minimum over all alt-tree nodes `v`
of `min(|A △ L(v)|, n − |A △ L(v)|)`. -/
def specTIall (A : Finset ℕ) (n : Int) (t : ATree) : Int :=
  ((subLists t).map (fun L => min (tdist A L) (n - tdist A L))).foldl min
    (min (tdist A (leafList t)) (n - tdist A (leafList t)))

/-- The name-sorted positional leaf bijection list
(`set_leaf_bijection` applied to the two sorted leaf arrays). -/
def bijBAL (ref0 alt0 : ATree) : List (Pos × Pos) :=
  ((sortByName (leafPN ref0)).map (fun x => x.1)).zip
    ((sortByName (leafPN alt0)).map (fun x => x.1))

/-- The image of a reference leaf under the leaf bijection (`u->other`). -/
def othImg (oth : List (Pos × Pos)) (p : Pos) : Pos :=
  match othLook oth p with
  | .ok q => q
  | .error _ => []

mutual
/-- The leaf lists of the internal (non-leaf) nodes of the tree. -/
def intLists : ATree → List (List Nat)
  | .node _ [] => []
  | .node f (c :: cs) => leafList (.node f (c :: cs)) :: intListsL (c :: cs)
/-- `intLists` concatenated over a list of subtrees. -/
def intListsL : List ATree → List (List Nat)
  | [] => []
  | c :: cs => intLists c ++ intListsL cs
end

/-- The value the spec sentence ascribes to an edge: the minimum over the
*internal* nodes `v` of the alternative tree of `|A △ L(v)|`, clipped to
`⌊n/2⌋` (the root's leaf list seeds the fold; the root is internal in
every tree with at least two leaves). -/
def specTIinternalClip (A : Finset ℕ) (n : Int) (t : ATree) : Int :=
  min (((intLists t).map (tdist A)).foldl min (tdist A (leafList t))) (n / 2)


/-! ## Theorems -/

/-! ## Theorems: guards of `add_leaf` / `reset_leaf` (claim C10) -/
/-- C10: `add_leaf` and `reset_leaf` both begin with `assert_is_leaf`
(rapid_transfer.c:285,335,405-412): on a node with more than one
neighbour they abort fatally before touching any state (`Except.error`
carries no modified tree), and only on a leaf do they proceed, producing
exactly the path update `addGo` (resp. `resetGo`). -/
theorem add_reset_require_leaf (g : Bool) (t : ATree) (p : Pos) (c : ATree)
    (h : getA p t = some c) :
    (c.ch ≠ [] → add_leaf g t p = .error () ∧ reset_leaf g t p = .error ()) ∧
    (c.ch = [] → add_leaf g t p = .ok (addGo g c.f.name 0 p t) ∧
                 reset_leaf g t p = .ok (resetGo g p t)) := by
  unfold add_leaf reset_leaf
  rw [h]
  rcases c with ⟨f, ch⟩
  cases ch <;> simp [ATree.ch, List.isEmpty]

/-- Witness for `add_reset_require_leaf`: the root of `cxT4` is the node
at position `[]` and is internal, so both operations abort on it; the
node at `[0, 0]` is a leaf, so both proceed. -/
theorem add_reset_require_leaf_witness :
    (add_leaf true cxT4 [] = .error () ∧ reset_leaf true cxT4 [] = .error ()) ∧
    (add_leaf true cxT4 [0, 0] = .ok (addGo true 0 0 [0, 0] cxT4) ∧
     reset_leaf true cxT4 [0, 0] = .ok (resetGo true [0, 0] cxT4)) := by
  refine ⟨(add_reset_require_leaf true cxT4 [] cxT4 (by rfl)).1
    (by simp [cxT4, cxN, ATree.ch]), ?_⟩
  have h := (add_reset_require_leaf true cxT4 [0, 0] (cxL 0) (by rfl)).2 (by rfl)
  exact h

/-! ## Theorems: node-to-edge conversion (claim C3) -/
/-- C3: `nodeTI_to_edgeTI` (rapid_transfer.c:456-475) assigns to the edge
above every non-root node `u` the value `min(u.ti_min, n - u.ti_max)`,
and produces nothing for the root (depth 0): every non-root record is
converted with exactly that formula, and everything produced comes from a
non-root record via that formula. -/
theorem nodeTI_to_edgeTI_formula (n : Int) (recs : List (Pos × Int × Int)) :
    (∀ p mn mx, (p, mn, mx) ∈ recs → p ≠ [] →
      (p, min mn (n - mx)) ∈ nodeTI_to_edgeTI n recs) ∧
    (∀ p v, (p, v) ∈ nodeTI_to_edgeTI n recs →
      p ≠ [] ∧ ∃ mn mx, (p, mn, mx) ∈ recs ∧ v = min mn (n - mx)) := by
  constructor
  · intro p mn mx hm hp
    refine List.mem_filterMap.2 ⟨(p, mn, mx), hm, ?_⟩
    have hl : p.length ≠ 0 := by
      intro h0
      exact hp (List.length_eq_zero.1 h0)
    simp [set_edge_TI, hl]
  · intro p v hm
    rcases List.mem_filterMap.1 hm with ⟨⟨q, mn, mx⟩, hq, he⟩
    by_cases hl : q.length ≠ 0
    · simp [set_edge_TI, hl] at he
      rcases he with ⟨hqp, hv⟩
      subst hqp
      refine ⟨fun h0 => hl (by simp [h0]), mn, mx, hq, hv.symm⟩
    · simp [set_edge_TI, hl] at he

/-- Witness for `nodeTI_to_edgeTI_formula`: on a concrete record list,
the non-root record `([1], 3, 4)` is converted to `([1], min 3 (9 - 4))`
and the root record produces nothing. -/
theorem nodeTI_to_edgeTI_formula_witness :
    ([1], min 3 (9 - 4)) ∈
      nodeTI_to_edgeTI 9 [([], 1, 8), ([1], 3, 4)] ∧
    nodeTI_to_edgeTI 9 [([], 1, 8), ([1], 3, 4)] = [([1], 3)] := by
  constructor
  · exact (nodeTI_to_edgeTI_formula 9 [([], 1, 8), ([1], 3, 4)]).1
      [1] 3 4 (by decide) (by decide)
  · decide

/-! ## Theorems: the leaf bijection (claim C7) -/
/-- C7 counterexample: the reference tree on taxa `{0, 1}` and the
alternative tree on taxa `{0, 2}` have (after name-sorting) leaf lists
that are not element-wise equal, yet `compute_transfer_indices_fast`'s
collaborators never compare the names: the balanced pipeline runs to
completion and produces a full output array instead of aborting at
bijection time. -/
theorem set_leaf_bijection_no_abort_cex :
    pipelineBAL cxR2 cxA2 = .ok [([0], 0), ([1], 0)] := by decide

/-- C7 amended: `set_leaf_bijection` (tree.c:2367-2373) performs no
validation whatsoever — it pairs the two name-sorted leaf arrays
positionally whenever the reference array is not longer (reading out of
bounds otherwise), regardless of the taxa. -/
theorem set_leaf_bijection_positional (l1 l2 : List Pos) :
    (l1.length ≤ l2.length → set_leaf_bijection l1 l2 = some (l1.zip l2)) ∧
    (l2.length < l1.length → set_leaf_bijection l1 l2 = none) := by
  unfold set_leaf_bijection
  constructor
  · intro h
    simp [h]
  · intro h
    have : ¬ l1.length ≤ l2.length := by omega
    simp [this]

/-- Witness for `set_leaf_bijection_positional` at concrete lists with
different "taxa". -/
theorem set_leaf_bijection_positional_witness :
    set_leaf_bijection [[0], [1]] [[1, 0], [1, 1]] =
      some [([0], [1, 0]), ([1], [1, 1])] ∧
    set_leaf_bijection [[0], [1]] [[0]] = none := by
  exact ⟨(set_leaf_bijection_positional [[0], [1]] [[1, 0], [1, 1]]).1
          (by decide),
         (set_leaf_bijection_positional [[0], [1]] [[0]]).2 (by decide)⟩

/-! ## Theorems: heavy-child selection (claim C8) -/
/-- C8: the heavy-child loop of `setup_heavy_light_subtrees`
(tree.c:2457-2464) contains a stray `i++` inside the body of a `for` loop
that already increments `i`, so only every other child is compared.  On a
root with three children of subtree sizes `1`, `2`, `4` the third child —
the unique heaviest — is never examined and the size-2 child at index 1
is selected, contradicting the function's own documentation ("Find the
heaviest child of this node") and the claimed maximality. -/
theorem heavychild_skips_third_child :
    heavyChildIdx ((initA cxFan).ch) = some 1 ∧
    ((initA cxFan).ch.map (fun c => c.f.sub)) = [1, 2, 4] := by decide

/-! ## Theorems: transfer-set size (claim C2) -/
/-- C2: whenever the HPT driver visits a node with `getsets` requested and
completes (rapid_transfer.c:187-192 and heavy_paths.c:334-362), the
transfer set built by `get_transfer_set_HPT` has size exactly
`min(ti_min, n - ti_max)` — the value subsequently stored on the edge —
and in particular exactly `TI_min` when the min side is chosen
(`min <= max`) and exactly `n - TI_max` otherwise.  The size equalities
are enforced by the `assert`s, which abort the computation
(`Except.error`) on any mismatch, so every completed visit satisfies
them. -/
theorem transfer_set_size_matches_TI (fuel : Nat) (nb : Int) (pt : PathT)
    (p q : Pos) (mn mx : Int)
    (h : recordH true fuel nb pt p = .ok (q, mn, mx)) :
    q = p ∧ mn = get_ti_min pt ∧ mx = get_ti_max pt ∧
    ∃ s, getTransferSetHPT fuel pt nb = .ok s ∧
      (s.length : Int) = min mn (nb - mx) ∧
      (mn ≤ nb - mx → (s.length : Int) = mn) ∧
      (nb - mx < mn → (s.length : Int) = nb - mx) := by
  unfold recordH at h
  rcases hts : getTransferSetHPT fuel pt nb with e | s
  · rw [hts] at h
    simp only [bind, Except.bind] at h
    cases h
  · rw [hts] at h
    simp only [bind, Except.bind] at h
    by_cases hlen :
        ((s.length : Int) = min (get_ti_min pt) (nb - get_ti_max pt))
    · simp [hlen] at h
      rcases h with ⟨hq, hmn, hmx⟩
      subst hq hmn hmx
      refine ⟨rfl, rfl, rfl, s, rfl, hlen, ?_, ?_⟩
      · intro hle
        rw [hlen, min_eq_left hle]
      · intro hlt
        rw [hlen, min_eq_right (le_of_lt hlt)]
    · simp [hlen] at h

/-- Witness for `transfer_set_size_matches_TI`: on the heavy-path tree of
`((a,c),(b,d))` after adding leaves `a` and `b` (the subtree `{a,b}` of
`((a,b),(c,d))`), the visit completes with `ti_min = 1`, `ti_max = 3`,
and the transfer set `[b]` of size `1 = min(1, 4 - 3)`. -/
theorem transfer_set_size_matches_TI_witness :
    ∃ s, getTransferSetHPT 50 cxPT2 4 = .ok s ∧
      (s.length : Int) = min 1 (4 - 3) ∧
      ((1 : Int) ≤ 4 - 3 → (s.length : Int) = 1) ∧
      ((4 : Int) - 3 < 1 → (s.length : Int) = 4 - 3) := by
  have h := transfer_set_size_matches_TI 50 4 cxPT2 [0] [0] 1 3 (by rfl)
  rcases h with ⟨-, hmn, hmx, hs⟩
  exact hs

/-- `heavypath_leaf` always returns a PT leaf for the position it is
given. -/
theorem hpLeaf_is_pleaf (fuel : Nat) (u : ATree) (p : Pos) (d : Nat)
    (pt : PathT) (h : hpLeaf fuel u p d = some pt) :
    ∃ st nm sub cps, pt = .pleaf st nm sub p cps := by
  cases fuel with
  | zero => simp [hpLeaf] at h
  | succ fuel =>
    unfold hpLeaf at h
    split at h
    · exact ⟨_, _, _, _, (Option.some.inj h).symm⟩
    · split at h
      · cases h
      · split at h
        · cases h
        · exact ⟨_, _, _, _, (Option.some.inj h).symm⟩

/-- C9 counterexample: in `((a,b),(c,d))` the heavy path from the root
has length 3 (`root, (a,b), a`), and `partition_heavypath` puts a single
node in the left half, not `⌈3/2⌉ = 2`: `ceil(length/2)` in
heavy_paths.c:147 applies `ceil` to the already-truncated C integer
division, so the left half has `⌊k/2⌋` nodes. -/
theorem partition_left_half_cex :
    ((hpList 50 (initA cxT4) []).map List.length = some 3) ∧
    (((hpList 50 (initA cxT4) []).bind
        (fun hp => partitionHP 50 hp 0)).map
      (fun pt => match pt with
        | .internal _ l _ => ptRangeLen l
        | _ => 0) = some 1) ∧
    (1 : Nat) ≠ (3 + 1) / 2 := by decide

/-- C9 amended: for every heavy path of length `k ≥ 2`,
`partition_heavypath` splits the node range into two contiguous halves of
sizes `⌊k/2⌋` (left/upper) and `k − ⌊k/2⌋` (right/lower) — not `⌈k/2⌉` —
recursing on each half, and every internal node of the resulting Path
tree satisfies the claimed aggregation equations
(`d_min_path = min` of the children, `d_max_path = max` of the children,
together with `d_max_subtree` and `num_hpt_leaves`). -/
theorem partition_covers : ∀ (fuel : Nat) (hp : List (Pos × ATree))
    (d : Nat) (pt : PathT), partitionHP fuel hp d = some pt →
    Covers pt (hp.map (fun x => x.1)) := by
  intro fuel
  induction fuel with
  | zero => intro hp d pt h; simp [partitionHP] at h
  | succ fuel ih =>
    intro hp d pt h
    unfold partitionHP at h
    by_cases hlen : hp.length < 2
    · simp [hlen] at h
    · simp only [hlen, if_false] at h
      have half : ∀ (part : List (Pos × ATree)) (q : PathT),
          (if part.length == 1 then
            match part with
            | [(q, v)] => hpLeaf fuel v q (d + 1)
            | _ => none
          else partitionHP fuel part (d + 1)) = some q →
          Covers q (part.map (fun x => x.1)) := by
        intro part q hq
        by_cases h1 : part.length == 1
        · rw [if_pos h1] at hq
          match part, h1 with
          | [(qq, v)], _ =>
            rcases hpLeaf_is_pleaf fuel v qq (d + 1) q hq with
              ⟨st, nm, sub, cps, rfl⟩
            exact Covers.leaf st nm sub qq cps
        · rw [if_neg h1] at hq
          exact ih part (d + 1) q hq
      rcases hL : (if (hp.take (hp.length / 2)).length == 1 then
            match hp.take (hp.length / 2) with
            | [(q, v)] => hpLeaf fuel v q (d + 1)
            | _ => none
          else partitionHP fuel (hp.take (hp.length / 2)) (d + 1)) with
          _ | pl
      · rw [hL] at h
        simp at h
      · rcases hR : (if (hp.drop (hp.length / 2)).length == 1 then
              match hp.drop (hp.length / 2) with
              | [(q, v)] => hpLeaf fuel v q (d + 1)
              | _ => none
            else partitionHP fuel (hp.drop (hp.length / 2)) (d + 1)) with
            _ | pr
        · rw [hL, hR] at h
          simp at h
        · rw [hL, hR] at h
          simp at h
          have cl := half _ _ hL
          have cr := half _ _ hR
          have hsplit : (hp.map (fun x => x.1)) =
              ((hp.take (hp.length / 2)).map (fun x => x.1)) ++
              ((hp.drop (hp.length / 2)).map (fun x => x.1)) := by
            rw [← List.map_append, List.take_append_drop]
          rw [hsplit, ← h]
          refine Covers.node _ pl pr _ _ cl cr ?_ (by simp [PathT.st])
            (by simp [PathT.st]) (by simp [PathT.st]) (by simp [PathT.st])
          have hlt : hp.length / 2 ≤ hp.length := Nat.div_le_self _ _
          simp [List.length_take, List.length_drop]
          omega

/-- Witness for `partition_covers` at the concrete heavy path `cxHP`. -/
theorem partition_covers_witness : Covers cxPT9 (cxHP.map (fun x => x.1)) :=
  partition_covers 50 cxHP 0 cxPT9 (by rfl)

/-! ## Machinery for the `add_leaf`/`reset_leaf` round trip (claim C6):
observations of the tree state at a position, and the classification of a
position relative to the updated root-to-leaf path. -/
/-- Induction over `ATree` with the hypothesis available for every
child. -/
theorem ATree.ind {motive : ATree → Prop}
    (h : ∀ f ch, (∀ c ∈ ch, motive c) → motive (.node f ch)) :
    ∀ t, motive t :=
  fun t =>
    @ATree.rec motive (fun l => ∀ c ∈ l, motive c)
      h
      (fun c hc => absurd hc (List.not_mem_nil c))
      (fun c cs hc hcs x hx => by
        rcases List.mem_cons.1 hx with h1 | h2
        · exact h1 ▸ hc
        · exact hcs x h2)
      t

/-- Element lookup in `mapIdxA`. -/
theorem mapIdxA_get (g : Nat → ATree → ATree) :
    ∀ (l : List ATree) (k i : Nat),
      (mapIdxA g k l)[i]? = (l[i]?).map (fun c => g (k + i) c) := by
  intro l
  induction l with
  | nil => intro k i; simp [mapIdxA]
  | cons c cs ih =>
    intro k i
    cases i with
    | zero => simp [mapIdxA]
    | succ i =>
      simp only [mapIdxA, List.getElem?_cons_succ]
      rw [ih (k + 1) i]
      have : k + 1 + i = k + (i + 1) := by omega
      rw [this]

/-- Length of `mapIdxA`. -/
theorem mapIdxA_length (g : Nat → ATree → ATree) :
    ∀ (l : List ATree) (k : Nat), (mapIdxA g k l).length = l.length := by
  intro l
  induction l with
  | nil => intro k; rfl
  | cons c cs ih => intro k; simp [mapIdxA, ih]

theorem isPre_nil (q : Pos) : IsPre [] q := ⟨q, rfl⟩

theorem isPre_cons (j : Nat) (p q : Pos) :
    IsPre (j :: p) (j :: q) ↔ IsPre p q := by
  constructor
  · rintro ⟨r, hr⟩
    exact ⟨r, by injection hr⟩
  · rintro ⟨r, hr⟩
    exact ⟨r, by rw [List.cons_append, hr]⟩

theorem isPre_cons_ne {i j : Nat} (h : i ≠ j) (p q : Pos) :
    ¬ IsPre (i :: p) (j :: q) := by
  rintro ⟨r, hr⟩
  injection hr with h1 h2
  exact h h1

theorem offChild_nil (π : Pos) : ¬ OffChild [] π := by
  rintro ⟨q', j, hq, -, -, -⟩
  simp at hq

theorem offChild_cons (i : Nat) (q π : Pos) :
    OffChild (i :: q) (i :: π) ↔ OffChild q π := by
  constructor
  · rintro ⟨q', k, hq, hpre, hne, hnpre⟩
    rcases q' with _ | ⟨a, q'⟩
    · exfalso
      simp only [List.nil_append] at hq
      injection hq with h1 h2
      subst h2
      exact hnpre ((isPre_cons i [] π).2 (isPre_nil π))
    · simp only [List.cons_append] at hq
      injection hq with h1 h2
      subst h1
      refine ⟨q', k, h2, (isPre_cons _ _ _).1 hpre, ?_, ?_⟩
      · intro hc; exact hne (by rw [hc])
      · intro hc
        exact hnpre ((isPre_cons _ _ _).2 hc)
  · rintro ⟨q', k, hq, hpre, hne, hnpre⟩
    refine ⟨i :: q', k, by simp [hq], (isPre_cons _ _ _).2 hpre, ?_, ?_⟩
    · intro hc
      injection hc with h1 h2
      exact hne h2
    · intro hc
      exact hnpre ((isPre_cons i q π).1 hc)

/-- A child index other than the path head, with an empty remainder, is an
off-path child of the path. -/
theorem offChild_singleton {i j : Nat} (h : i ≠ j) (π : Pos) :
    OffChild [i] (j :: π) := by
  refine ⟨[], i, rfl, isPre_nil _, ?_, ?_⟩
  · intro hc; exact List.cons_ne_nil _ _ hc.symm
  · exact isPre_cons_ne h [] π

/-- A position starting with a non-path child index and continuing deeper
is neither on the path nor an off-path child. -/
theorem not_touched_cons_ne {i j : Nat} (h : i ≠ j) (q : Pos) (π : Pos)
    (hq : q ≠ []) : ¬ IsPre (i :: q) (j :: π) ∧ ¬ OffChild (i :: q) (j :: π) := by
  constructor
  · exact isPre_cons_ne h _ _
  · rintro ⟨q', k, hqe, hpre, hne, hnpre⟩
    rcases q' with _ | ⟨a, q'⟩
    · simp at hqe
      exact hq hqe.2
    · simp at hqe
      rcases hqe with ⟨h1, h2⟩
      subst h1
      rcases hpre with ⟨r, hr⟩
      cases hr
      exact h rfl

theorem viewAt_nil (t : ATree) : viewAt t [] = some (t.f, t.ch.length) := by
  cases t; rfl

theorem viewAt_cons (t : ATree) (j : Nat) (q : Pos) :
    viewAt t (j :: q) = match t.ch[j]? with
      | some c => viewAt c q
      | none => none := by
  rcases t with ⟨f, ch⟩
  rcases hc : ch[j]? with _ | c <;>
    simp [viewAt, getA, ATree.ch, hc]

/-- Two trees with the same observation at every position are equal. -/
theorem viewAt_ext : ∀ t1 t2 : ATree,
    (∀ q, viewAt t1 q = viewAt t2 q) → t1 = t2 := by
  intro t1
  induction t1 using ATree.ind with
  | h f ch ih =>
    intro t2 h
    rcases t2 with ⟨f2, ch2⟩
    have h0 := h []
    rw [viewAt_nil, viewAt_nil] at h0
    simp only [ATree.f, ATree.ch, Option.some.injEq, Prod.mk.injEq] at h0
    rcases h0 with ⟨hf, hlen⟩
    subst hf
    have hch : ch = ch2 := by
      apply List.ext_getElem?
      intro i
      rcases hc : ch[i]? with _ | c
      · have hi : ch.length ≤ i := by
          by_contra hlt
          push_neg at hlt
          rcases List.getElem?_eq_some.2 ⟨hlt, rfl⟩ with h2
          rw [hc] at h2
          cases h2
        exact (List.getElem?_eq_none (by omega)).symm
      · rcases List.getElem?_eq_some.1 hc with ⟨hi, hv⟩
        have hi2 : i < ch2.length := by omega
        rcases hc2 : ch2[i]? with _ | c2
        · rw [List.getElem?_eq_some.2 ⟨hi2, rfl⟩] at hc2
          cases hc2
        · rcases List.getElem?_eq_some.1 hc2 with ⟨hi2b, hv2⟩
          have hmem : c ∈ ch := hv ▸ List.getElem_mem hi
          have heq : c = c2 := by
            apply ih c hmem
            intro q
            have hq := h (i :: q)
            rw [viewAt_cons, viewAt_cons] at hq
            simp only [ATree.ch] at hq
            rw [hc, hc2] at hq
            exact hq
          rw [heq]
    rw [hch]

theorem offBump_getA_deep (g : Bool) (x : Nat) (e : Int) (t : ATree)
    (q : Pos) (hq : q ≠ []) : getA q (offBump g x e t) = getA q t := by
  rcases t with ⟨f, ch⟩
  rcases q with _ | ⟨j, q⟩
  · exact absurd rfl hq
  · rfl

theorem offBump_view_nil (g : Bool) (x : Nat) (e : Int) (t : ATree) :
    viewAt (offBump g x e t) [] =
      (viewAt t []).map (fun v =>
        ({ v.1 with
           diff := v.1.diff + (e + 1),
           incl := if g then v.1.incl ++ [x] else v.1.incl },
         v.2)) := by
  rcases t with ⟨f, ch⟩
  rfl

theorem clearTop_getA_deep (g : Bool) (t : ATree) (q : Pos) (hq : q ≠ []) :
    getA q (clearTop g t) = getA q t := by
  rcases t with ⟨f, ch⟩
  rcases q with _ | ⟨j, q⟩
  · exact absurd rfl hq
  · rfl

theorem clearTop_view_nil (g : Bool) (t : ATree) :
    viewAt (clearTop g t) [] =
      (viewAt t []).map (fun v => (ctF g v.1, v.2)) := by
  rcases t with ⟨f, ch⟩
  rfl

/-- If `i ≠ j` then an off-path child position under `i` must be `[i]`
itself. -/
theorem offChild_cons_ne_inv {i j : Nat} (hij : i ≠ j) (q π : Pos)
    (h : OffChild (i :: q) (j :: π)) : q = [] := by
  rcases h with ⟨q', k, hq, hpre, hne, hnpre⟩
  rcases q' with _ | ⟨a, q'⟩
  · simp only [List.nil_append] at hq
    injection hq
  · exfalso
    simp only [List.cons_append] at hq
    injection hq with h1 h2
    subst h1
    rcases hpre with ⟨r, hr⟩
    simp only [List.cons_append] at hr
    injection hr with h3 h4
    exact hij h3

/-- `addGo` preserves the name, `subtreesize` and arity of every node. -/
theorem addGo_static (g : Bool) (x : Nat) : ∀ (π : Pos) (a : Int)
    (t : ATree) (q : Pos),
    (viewAt (addGo g x a π t) q).map (fun v => (v.1.name, v.1.sub, v.2)) =
    (viewAt t q).map (fun v => (v.1.name, v.1.sub, v.2)) := by
  intro π
  induction π with
  | nil =>
    intro a t q
    rcases t with ⟨f, ch⟩
    rcases q with _ | ⟨i, q⟩
    · rw [viewAt_nil, viewAt_nil]
      rfl
    · rw [viewAt_cons, viewAt_cons]
      rfl
  | cons j rest ih =>
    intro a t q
    rcases t with ⟨f, ch⟩
    have hch : (addGo g x a (j :: rest) (ATree.node f ch)).ch =
        mapIdxA (fun i c => if i = j then addGo g x (f.diff + a) rest c
                 else offBump g x (f.diff + a) c) 0 ch := rfl
    rcases q with _ | ⟨i, q⟩
    · rw [viewAt_nil, viewAt_nil]
      simp only [Option.map_some']
      rw [hch, mapIdxA_length]
      rcases rest with _ | ⟨r, rs⟩ <;> rfl
    · rw [viewAt_cons, viewAt_cons, hch, mapIdxA_get]
      simp only [ATree.ch, Nat.zero_add]
      rcases hc : ch[i]? with _ | c
      · rfl
      · simp only [Option.map_some']
        by_cases hij : i = j
        · subst hij
          simp only [if_pos rfl]
          exact ih (f.diff + a) c q
        · simp only [if_neg hij]
          rcases q with _ | ⟨k, q⟩
          · rw [offBump_view_nil]
            rcases viewAt c [] with _ | v <;> rfl
          · rw [viewAt_cons, viewAt_cons,
               show (offBump g x (f.diff + a) c).ch = c.ch from by
                 rcases c with ⟨cf, cch⟩; rfl]

/-! Relating the component observations to `viewAt`, and the effect of
`offBump`/`clearTop` on each component. -/
theorem dexView_viewAt (t : ATree) (q : Pos) :
    dexView t q = (viewAt t q).map
      (fun v => (v.1.d_lazy, v.1.d_min, v.1.d_max, v.1.excl)) := by
  unfold dexView obsV viewAt
  rcases hc : getA q t with _ | c <;> rfl

theorem inView_viewAt (t : ATree) (q : Pos) :
    inView t q = (viewAt t q).map (fun v => v.1.incl) := by
  unfold inView obsV viewAt
  rcases hc : getA q t with _ | c <;> rfl

theorem diffView_viewAt (t : ATree) (q : Pos) :
    diffView t q = (viewAt t q).map (fun v => v.1.diff) := by
  unfold diffView obsV viewAt
  rcases hc : getA q t with _ | c <;> rfl

theorem exView_viewAt (t : ATree) (q : Pos) :
    exView t q = (viewAt t q).map (fun v => v.1.excl) := by
  unfold exView obsV viewAt
  rcases hc : getA q t with _ | c <;> rfl

theorem stView_viewAt (t : ATree) (q : Pos) :
    stView t q = (viewAt t q).map (fun v => (v.1.name, v.1.sub, v.2)) := by
  unfold stView obsV viewAt
  rcases hc : getA q t with _ | c <;> rfl

theorem obsV_cons {β : Type} (proj : ATree → β) (t : ATree) (i : Nat)
    (q : Pos) :
    obsV proj t (i :: q) =
      match t.ch[i]? with
      | some c => obsV proj c q
      | none => none := by
  rcases t with ⟨f, ch⟩
  rcases hc : ch[i]? with _ | c <;> simp [obsV, getA, ATree.ch, hc]

theorem offBump_dproj (g : Bool) (x : Nat) (e : Int) (c : ATree) (q : Pos) :
    obsV dproj (offBump g x e c) q = obsV dproj c q := by
  rcases c with ⟨cf, cch⟩
  rcases q with _ | ⟨k, q⟩ <;> rfl

theorem offBump_ex (g : Bool) (x : Nat) (e : Int) (c : ATree) (q : Pos) :
    exView (offBump g x e c) q = exView c q := by
  rcases c with ⟨cf, cch⟩
  rcases q with _ | ⟨k, q⟩ <;> rfl

theorem offBump_in_noget (x : Nat) (e : Int) (c : ATree) (q : Pos) :
    inView (offBump false x e c) q = inView c q := by
  rcases c with ⟨cf, cch⟩
  rcases q with _ | ⟨k, q⟩ <;> rfl

theorem clearTop_dproj (g : Bool) (c : ATree) (q : Pos) :
    obsV dproj (clearTop g c) q = obsV dproj c q := by
  rcases c with ⟨cf, cch⟩
  rcases q with _ | ⟨k, q⟩ <;> rfl

theorem viewAt_offBump_deep (g : Bool) (x : Nat) (e : Int) (t : ATree)
    (q : Pos) (hq : q ≠ []) : viewAt (offBump g x e t) q = viewAt t q := by
  unfold viewAt
  rw [offBump_getA_deep g x e t q hq]

theorem viewAt_clearTop_deep (g : Bool) (t : ATree) (q : Pos) (hq : q ≠ []) :
    viewAt (clearTop g t) q = viewAt t q := by
  unfold viewAt
  rw [clearTop_getA_deep g t q hq]

theorem offChild_nil_right (q : Pos) : ¬ OffChild q [] := by
  rintro ⟨q', j, hq, ⟨r, hr⟩, hne, -⟩
  exact hne (List.append_eq_nil.1 hr).1

/-! The effect of one `add_leaf` pass (`addGo`) on each component, by the
position of the observed node relative to the updated path. -/
/-- `stView` form of the static preservation of `addGo`. -/
theorem addGo_st (g : Bool) (x : Nat) (π : Pos) (a : Int) (t : ATree)
    (q : Pos) : stView (addGo g x a π t) q = stView t q := by
  rw [stView_viewAt, stView_viewAt]
  exact addGo_static g x π a t q

/-- Off the path, `addGo` does not touch `d_lazy`, `d_min`, `d_max` or
`exclude` (off-path children only get `diff`/`include` updates). -/
theorem addGo_dex (g : Bool) (x : Nat) : ∀ (π : Pos) (a : Int) (t : ATree)
    (q : Pos), ¬ IsPre q π → dexView (addGo g x a π t) q = dexView t q := by
  intro π
  induction π with
  | nil =>
    intro a t q hpre
    rcases t with ⟨f, ch⟩
    rcases q with _ | ⟨i, q⟩
    · exact absurd (isPre_nil _) hpre
    · rfl
  | cons j p ih =>
    intro a t q hpre
    rcases t with ⟨f, ch⟩
    rcases q with _ | ⟨i, q⟩
    · exact absurd (isPre_nil _) hpre
    · have hch : (addGo g x a (j :: p) (ATree.node f ch)).ch =
          mapIdxA (fun i c => if i = j then addGo g x (f.diff + a) p c
                   else offBump g x (f.diff + a) c) 0 ch := rfl
      unfold dexView
      rw [obsV_cons, obsV_cons, hch, mapIdxA_get]
      simp only [ATree.ch, Nat.zero_add]
      rcases hc : ch[i]? with _ | c
      · rfl
      · simp only [Option.map_some']
        by_cases hij : i = j
        · subst hij
          simp only [if_pos rfl]
          have hpre' : ¬ IsPre q p := fun hx => hpre ((isPre_cons i q p).2 hx)
          have := ih (f.diff + a) c q hpre'
          unfold dexView at this
          exact this
        · simp only [if_neg hij]
          exact offBump_dproj g x (f.diff + a) c q

/-- `addGo` changes `include` only at off-path children. -/
theorem addGo_incl (g : Bool) (x : Nat) : ∀ (π : Pos) (a : Int) (t : ATree)
    (q : Pos), ¬ OffChild q π → inView (addGo g x a π t) q = inView t q := by
  intro π
  induction π with
  | nil =>
    intro a t q hoff
    rcases t with ⟨f, ch⟩
    rcases q with _ | ⟨i, q⟩
    · rfl
    · rfl
  | cons j p ih =>
    intro a t q hoff
    rcases t with ⟨f, ch⟩
    rcases q with _ | ⟨i, q⟩
    · rfl
    · have hch : (addGo g x a (j :: p) (ATree.node f ch)).ch =
          mapIdxA (fun i c => if i = j then addGo g x (f.diff + a) p c
                   else offBump g x (f.diff + a) c) 0 ch := rfl
      unfold inView
      rw [obsV_cons, obsV_cons, hch, mapIdxA_get]
      simp only [ATree.ch, Nat.zero_add]
      rcases hc : ch[i]? with _ | c
      · rfl
      · simp only [Option.map_some']
        by_cases hij : i = j
        · subst hij
          simp only [if_pos rfl]
          have hoff' : ¬ OffChild q p := fun hx => hoff ((offChild_cons i q p).2 hx)
          have := ih (f.diff + a) c q hoff'
          unfold inView at this
          exact this
        · simp only [if_neg hij]
          have hqne : q ≠ [] := by
            intro h0
            subst h0
            exact hoff (offChild_singleton hij p)
          rcases q with _ | ⟨k, q⟩
          · exact absurd rfl hqne
          · rcases c with ⟨cf, cch⟩
            rfl

/-- Away from the path and its off-path children, `addGo` changes
nothing. -/
theorem addGo_frame (g : Bool) (x : Nat) : ∀ (π : Pos) (a : Int) (t : ATree)
    (q : Pos), ¬ IsPre q π → ¬ OffChild q π →
    viewAt (addGo g x a π t) q = viewAt t q := by
  intro π
  induction π with
  | nil =>
    intro a t q hpre hoff
    rcases t with ⟨f, ch⟩
    rcases q with _ | ⟨i, q⟩
    · exact absurd (isPre_nil _) hpre
    · rfl
  | cons j p ih =>
    intro a t q hpre hoff
    rcases t with ⟨f, ch⟩
    rcases q with _ | ⟨i, q⟩
    · exact absurd (isPre_nil _) hpre
    · have hch : (addGo g x a (j :: p) (ATree.node f ch)).ch =
          mapIdxA (fun i c => if i = j then addGo g x (f.diff + a) p c
                   else offBump g x (f.diff + a) c) 0 ch := rfl
      rw [viewAt_cons, viewAt_cons, hch, mapIdxA_get]
      simp only [ATree.ch, Nat.zero_add]
      rcases hc : ch[i]? with _ | c
      · rfl
      · simp only [Option.map_some']
        by_cases hij : i = j
        · subst hij
          simp only [if_pos rfl]
          have hpre' : ¬ IsPre q p := fun hx => hpre ((isPre_cons i q p).2 hx)
          have hoff' : ¬ OffChild q p := fun hx => hoff ((offChild_cons i q p).2 hx)
          exact ih (f.diff + a) c q hpre' hoff'
        · simp only [if_neg hij]
          have hqne : q ≠ [] := by
            intro h0
            subst h0
            exact hoff (offChild_singleton hij p)
          exact viewAt_offBump_deep g x (f.diff + a) c q hqne

/-- With `getsets == false`, `add_leaf` never touches an `exclude`
NodeArray. -/
theorem addGo_ex_noget (x : Nat) : ∀ (π : Pos) (a : Int) (t : ATree)
    (q : Pos), exView (addGo false x a π t) q = exView t q := by
  intro π
  induction π with
  | nil =>
    intro a t q
    rcases t with ⟨f, ch⟩
    rcases q with _ | ⟨i, q⟩ <;> rfl
  | cons j p ih =>
    intro a t q
    rcases t with ⟨f, ch⟩
    rcases q with _ | ⟨i, q⟩
    · rfl
    · have hch : (addGo false x a (j :: p) (ATree.node f ch)).ch =
          mapIdxA (fun i c => if i = j then addGo false x (f.diff + a) p c
                   else offBump false x (f.diff + a) c) 0 ch := rfl
      unfold exView
      rw [obsV_cons, obsV_cons, hch, mapIdxA_get]
      simp only [ATree.ch, Nat.zero_add]
      rcases hc : ch[i]? with _ | c
      · rfl
      · simp only [Option.map_some']
        by_cases hij : i = j
        · subst hij
          simp only [if_pos rfl]
          have := ih (f.diff + a) c q
          unfold exView at this
          exact this
        · simp only [if_neg hij]
          exact offBump_ex false x (f.diff + a) c q

/-- With `getsets == false`, `add_leaf` never touches an `include`
NodeArray. -/
theorem addGo_in_noget (x : Nat) : ∀ (π : Pos) (a : Int) (t : ATree)
    (q : Pos), inView (addGo false x a π t) q = inView t q := by
  intro π
  induction π with
  | nil =>
    intro a t q
    rcases t with ⟨f, ch⟩
    rcases q with _ | ⟨i, q⟩ <;> rfl
  | cons j p ih =>
    intro a t q
    rcases t with ⟨f, ch⟩
    rcases q with _ | ⟨i, q⟩
    · rfl
    · have hch : (addGo false x a (j :: p) (ATree.node f ch)).ch =
          mapIdxA (fun i c => if i = j then addGo false x (f.diff + a) p c
                   else offBump false x (f.diff + a) c) 0 ch := rfl
      unfold inView
      rw [obsV_cons, obsV_cons, hch, mapIdxA_get]
      simp only [ATree.ch, Nat.zero_add]
      rcases hc : ch[i]? with _ | c
      · rfl
      · simp only [Option.map_some']
        by_cases hij : i = j
        · subst hij
          simp only [if_pos rfl]
          have := ih (f.diff + a) c q
          unfold inView at this
          exact this
        · simp only [if_neg hij]
          exact offBump_in_noget x (f.diff + a) c q

/-! The exact effect of one `reset_leaf` pass (`resetGo`): `resetFields`
at the top node, `ctF ∘ resetFields` at the deeper path nodes, `ctF` at
every off-path child, identity elsewhere. -/
theorem resetGo_view_nil (g : Bool) (π : Pos) (t : ATree) :
    viewAt (resetGo g π t) [] =
      (viewAt t []).map (fun v => (resetFields g v.1, v.2)) := by
  rcases t with ⟨f, ch⟩
  rcases π with _ | ⟨j, p⟩
  · rfl
  · rw [viewAt_nil, viewAt_nil]
    simp only [Option.map_some']
    have hch : (resetGo g (j :: p) (ATree.node f ch)).ch =
        mapIdxA (fun i c => if i = j then clearTop g (resetGo g p c)
                 else clearTop g c) 0 ch := rfl
    rw [hch, mapIdxA_length]
    rfl

theorem resetGo_path_deep (g : Bool) : ∀ (π : Pos) (t : ATree) (q : Pos),
    IsPre q π → q ≠ [] →
    viewAt (resetGo g π t) q =
      (viewAt t q).map (fun v => (ctF g (resetFields g v.1), v.2)) := by
  intro π
  induction π with
  | nil =>
    intro t q hpre hq
    rcases hpre with ⟨r, hr⟩
    exact absurd (List.append_eq_nil.1 hr).1 hq
  | cons j p ih =>
    intro t q hpre hq
    rcases t with ⟨f, ch⟩
    rcases q with _ | ⟨i, q⟩
    · exact absurd rfl hq
    · have hij : i = j ∧ IsPre q p := by
        rcases hpre with ⟨r, hr⟩
        injection hr with h1 h2
        exact ⟨h1, ⟨r, h2⟩⟩
      rcases hij with ⟨hij, hqp⟩
      subst hij
      have hch : (resetGo g (i :: p) (ATree.node f ch)).ch =
          mapIdxA (fun k c => if k = i then clearTop g (resetGo g p c)
                   else clearTop g c) 0 ch := rfl
      rw [viewAt_cons, viewAt_cons, hch, mapIdxA_get]
      simp only [ATree.ch, Nat.zero_add]
      rcases hc : ch[i]? with _ | c
      · rfl
      · simp only [Option.map_some', if_pos rfl, if_true]
        by_cases hq0 : q = []
        · subst hq0
          rw [clearTop_view_nil, resetGo_view_nil]
          rcases c with ⟨cf, cch⟩
          rfl
        · rw [viewAt_clearTop_deep g _ q hq0, ih c q hqp hq0]

theorem resetGo_off (g : Bool) : ∀ (π : Pos) (t : ATree) (q : Pos),
    OffChild q π →
    viewAt (resetGo g π t) q = (viewAt t q).map (fun v => (ctF g v.1, v.2)) := by
  intro π
  induction π with
  | nil =>
    intro t q h
    exact absurd h (offChild_nil_right q)
  | cons j p ih =>
    intro t q h
    rcases t with ⟨f, ch⟩
    rcases q with _ | ⟨i, q⟩
    · exact absurd h (offChild_nil _)
    · have hch : (resetGo g (j :: p) (ATree.node f ch)).ch =
          mapIdxA (fun k c => if k = j then clearTop g (resetGo g p c)
                   else clearTop g c) 0 ch := rfl
      rw [viewAt_cons, viewAt_cons, hch, mapIdxA_get]
      simp only [ATree.ch, Nat.zero_add]
      rcases hc : ch[i]? with _ | c
      · rfl
      · simp only [Option.map_some']
        by_cases hij : i = j
        · subst hij
          simp only [if_pos rfl, if_true]
          have hqp : OffChild q p := (offChild_cons i q p).1 h
          have hqne : q ≠ [] := by
            rcases hqp with ⟨q', k, hq, -, -, -⟩
            rw [hq]
            simp
          rw [viewAt_clearTop_deep g _ q hqne, ih c q hqp]
        · simp only [if_neg hij]
          have hq0 : q = [] := offChild_cons_ne_inv hij q p h
          subst hq0
          rw [clearTop_view_nil]

theorem resetGo_frame (g : Bool) : ∀ (π : Pos) (t : ATree) (q : Pos),
    ¬ IsPre q π → ¬ OffChild q π → viewAt (resetGo g π t) q = viewAt t q := by
  intro π
  induction π with
  | nil =>
    intro t q hpre hoff
    rcases t with ⟨f, ch⟩
    rcases q with _ | ⟨i, q⟩
    · exact absurd (isPre_nil _) hpre
    · rfl
  | cons j p ih =>
    intro t q hpre hoff
    rcases t with ⟨f, ch⟩
    rcases q with _ | ⟨i, q⟩
    · exact absurd (isPre_nil _) hpre
    · have hch : (resetGo g (j :: p) (ATree.node f ch)).ch =
          mapIdxA (fun k c => if k = j then clearTop g (resetGo g p c)
                   else clearTop g c) 0 ch := rfl
      rw [viewAt_cons, viewAt_cons, hch, mapIdxA_get]
      simp only [ATree.ch, Nat.zero_add]
      rcases hc : ch[i]? with _ | c
      · rfl
      · simp only [Option.map_some']
        by_cases hij : i = j
        · subst hij
          simp only [if_pos rfl, if_true]
          have hpre' : ¬ IsPre q p := fun hx => hpre ((isPre_cons i q p).2 hx)
          have hoff' : ¬ OffChild q p := fun hx => hoff ((offChild_cons i q p).2 hx)
          have hqne : q ≠ [] := by
            intro h0
            subst h0
            exact hpre ⟨p, rfl⟩
          rw [viewAt_clearTop_deep g _ q hqne, ih c q hpre' hoff']
        · simp only [if_neg hij]
          have hqne : q ≠ [] := by
            intro h0
            subst h0
            exact hoff (offChild_singleton hij p)
          exact viewAt_clearTop_deep g c q hqne

/-! Component corollaries of the `resetGo` characterisation, and general
helpers for transferring observations between states. -/
theorem resetGo_static (g : Bool) (π : Pos) (t : ATree) (q : Pos) :
    stView (resetGo g π t) q = stView t q := by
  by_cases h1 : IsPre q π
  · rcases q with _ | ⟨i, q⟩
    · rcases t with ⟨f, ch⟩
      rw [stView_viewAt, stView_viewAt, resetGo_view_nil, viewAt_nil]
      rfl
    · rw [stView_viewAt, stView_viewAt,
         resetGo_path_deep g π t _ h1 (List.cons_ne_nil i q)]
      rcases hc : viewAt t (i :: q) with _ | v <;> rfl
  · by_cases h2 : OffChild q π
    · rw [stView_viewAt, stView_viewAt, resetGo_off g π t q h2]
      rcases hc : viewAt t q with _ | v <;> rfl
    · rw [stView_viewAt, stView_viewAt, resetGo_frame g π t q h1 h2]

theorem resetGo_dex_path (g : Bool) (π : Pos) (t : ATree) (q : Pos)
    (h : IsPre q π) : dexView (resetGo g π t) q = dexFresh g t q := by
  rcases q with _ | ⟨i, q⟩
  · rcases t with ⟨f, ch⟩
    rw [dexView_viewAt, resetGo_view_nil, viewAt_nil]
    rfl
  · rw [dexView_viewAt, resetGo_path_deep g π t _ h (List.cons_ne_nil i q)]
    unfold dexFresh viewAt
    rcases hc : getA (i :: q) t with _ | c <;> rfl

theorem resetGo_dex_notpath (g : Bool) (π : Pos) (t : ATree) (q : Pos)
    (h : ¬ IsPre q π) : dexView (resetGo g π t) q = dexView t q := by
  by_cases h2 : OffChild q π
  · rw [dexView_viewAt, dexView_viewAt, resetGo_off g π t q h2]
    rcases hc : viewAt t q with _ | v <;> rfl
  · rw [dexView_viewAt, dexView_viewAt, resetGo_frame g π t q h h2]

theorem resetGo_diff_zero (g : Bool) (π : Pos) (t : ATree) (q : Pos)
    (h : IsPre q π ∨ OffChild q π) :
    diffView (resetGo g π t) q = (getA q t).map (fun _ => (0 : Int)) := by
  rcases h with h | h
  · rcases q with _ | ⟨i, q⟩
    · rcases t with ⟨f, ch⟩
      rw [diffView_viewAt, resetGo_view_nil, viewAt_nil]
      rfl
    · rw [diffView_viewAt, resetGo_path_deep g π t _ h (List.cons_ne_nil i q)]
      unfold viewAt
      rcases hc : getA (i :: q) t with _ | c <;> rfl
  · rw [diffView_viewAt, resetGo_off g π t q h]
    unfold viewAt
    rcases hc : getA q t with _ | c <;> rfl

theorem resetGo_in_clear (π : Pos) (t : ATree) (q : Pos)
    (h : OffChild q π ∨ (IsPre q π ∧ q ≠ [])) :
    inView (resetGo true π t) q = (getA q t).map (fun _ => ([] : List Nat)) := by
  rcases h with h | ⟨h, hq⟩
  · rw [inView_viewAt, resetGo_off true π t q h]
    unfold viewAt
    rcases hc : getA q t with _ | c <;> rfl
  · rw [inView_viewAt, resetGo_path_deep true π t q h hq]
    unfold viewAt
    rcases hc : getA q t with _ | c <;> rfl

theorem resetGo_in_keep (g : Bool) (π : Pos) (t : ATree) (q : Pos)
    (h1 : ¬ OffChild q π) (h2 : ¬ IsPre q π ∨ q = []) :
    inView (resetGo g π t) q = inView t q := by
  rcases h2 with h2 | h2
  · rw [inView_viewAt, inView_viewAt, resetGo_frame g π t q h2 h1]
  · subst h2
    rcases t with ⟨f, ch⟩
    rw [inView_viewAt, inView_viewAt, resetGo_view_nil, viewAt_nil]
    rfl

theorem resetGo_ex_noget (π : Pos) (t : ATree) (q : Pos) :
    exView (resetGo false π t) q = exView t q := by
  by_cases h1 : IsPre q π
  · rcases q with _ | ⟨i, q⟩
    · rcases t with ⟨f, ch⟩
      rw [exView_viewAt, exView_viewAt, resetGo_view_nil, viewAt_nil]
      rfl
    · rw [exView_viewAt, exView_viewAt,
         resetGo_path_deep false π t _ h1 (List.cons_ne_nil i q)]
      rcases hc : viewAt t (i :: q) with _ | v <;> rfl
  · by_cases h2 : OffChild q π
    · rw [exView_viewAt, exView_viewAt, resetGo_off false π t q h2]
      rcases hc : viewAt t q with _ | v <;> rfl
    · rw [exView_viewAt, exView_viewAt, resetGo_frame false π t q h1 h2]

theorem resetGo_in_noget (π : Pos) (t : ATree) (q : Pos) :
    inView (resetGo false π t) q = inView t q := by
  by_cases h1 : IsPre q π
  · rcases q with _ | ⟨i, q⟩
    · rcases t with ⟨f, ch⟩
      rw [inView_viewAt, inView_viewAt, resetGo_view_nil, viewAt_nil]
      rfl
    · rw [inView_viewAt, inView_viewAt,
         resetGo_path_deep false π t _ h1 (List.cons_ne_nil i q)]
      rcases hc : viewAt t (i :: q) with _ | v <;> rfl
  · by_cases h2 : OffChild q π
    · rw [inView_viewAt, inView_viewAt, resetGo_off false π t q h2]
      rcases hc : viewAt t q with _ | v <;> rfl
    · rw [inView_viewAt, inView_viewAt, resetGo_frame false π t q h1 h2]

theorem isSome_of_stView {t1 t2 : ATree} {q : Pos}
    (h : stView t1 q = stView t2 q) :
    (getA q t1).isSome = (getA q t2).isSome := by
  unfold stView obsV at h
  rcases h1 : getA q t1 with _ | c1 <;> rcases h2 : getA q t2 with _ | c2 <;>
      rw [h1, h2] at h <;>
      first
      | rfl
      | simp at h

theorem mapConst_eq {α β : Type} {o1 o2 : Option α} (z : β)
    (h : o1.isSome = o2.isSome) :
    o1.map (fun _ => z) = o2.map (fun _ => z) := by
  rcases o1 with _ | a <;> rcases o2 with _ | b
  · rfl
  · simp at h
  · simp at h
  · rfl

theorem freshF_fields {f : NFields} (h : freshF f = true) :
    f.d_lazy = f.sub ∧ f.d_max = f.sub ∧ f.d_min = 1 ∧ f.diff = 0 ∧
    f.incl = [] ∧ f.excl = [] := by
  unfold freshF at h
  simp only [Bool.and_eq_true, beq_iff_eq] at h
  exact ⟨h.1.1.1.1.1, h.1.1.1.1.2, h.1.1.1.2, h.1.1.2, h.1.2, h.2⟩

theorem freshL_mem : ∀ (l : List ATree), freshL l = true →
    ∀ c ∈ l, freshA c = true := by
  intro l
  induction l with
  | nil => intro h c hc; exact absurd hc (List.not_mem_nil c)
  | cons a as ih =>
    intro h c hc
    rw [show freshL (a :: as) = (freshA a && freshL as) from rfl,
       Bool.and_eq_true] at h
    rcases List.mem_cons.1 hc with h1 | h1
    · exact h1 ▸ h.1
    · exact ih h.2 c h1

theorem freshA_at : ∀ (t : ATree), freshA t = true →
    ∀ (q : Pos) (c : ATree), getA q t = some c → freshF c.f = true := by
  intro t
  induction t using ATree.ind with
  | h f ch ih =>
    intro hf q c hq
    rw [show freshA (ATree.node f ch) = (freshF f && freshL ch) from rfl,
       Bool.and_eq_true] at hf
    rcases q with _ | ⟨i, q⟩
    · rw [show getA [] (ATree.node f ch) = some (ATree.node f ch) from rfl]
        at hq
      rw [← Option.some.inj hq]
      exact hf.1
    · rw [show getA (i :: q) (ATree.node f ch) = (ch[i]?).bind (getA q)
          from rfl] at hq
      rcases hc : ch[i]? with _ | ci
      · rw [hc] at hq
        cases hq
      · rw [hc] at hq
        have hmem : ci ∈ ch := by
          rcases List.getElem?_eq_some.1 hc with ⟨hi, hv⟩
          exact hv ▸ List.getElem_mem hi
        exact ih ci hmem (freshL_mem ch hf.2 ci hmem) q c hq

theorem leaf_transfer {t1 t2 : ATree} {p : Pos}
    (h : stView t1 p = stView t2 p) (hp : isLeafAt t2 p = true) :
    isLeafAt t1 p = true := by
  unfold isLeafAt at hp ⊢
  unfold stView obsV at h
  rcases h1 : getA p t1 with _ | c1 <;> rcases h2 : getA p t2 with _ | c2 <;>
      rw [h1, h2] at h <;> rw [h2] at hp
  · exact hp
  · exact absurd h (by simp)
  · exact absurd h (by simp)
  · simp only [Option.map_some', Option.some.injEq, Prod.mk.injEq] at h
    have hlen : c1.ch.length = c2.ch.length := h.2.2
    rw [List.isEmpty_iff] at hp ⊢
    rw [← List.length_eq_zero] at hp ⊢
    rw [hlen, hp]

/-! Chain-level lemmas: the effect of a whole sequence of adds (resp.
resets) on each component of each node. -/
theorem addChain_static (g : Bool) : ∀ (ps : List Pos) (t : ATree) (q : Pos),
    stView (addChain g ps t) q = stView t q := by
  intro ps
  induction ps with
  | nil => intro t q; rfl
  | cons p ps ih =>
    intro t q
    rw [show addChain g (p :: ps) t
        = addChain g ps (addGo g (nmAt t p) 0 p t) from rfl, ih]
    exact addGo_st g (nmAt t p) p 0 t q

theorem resetChain_static (g : Bool) : ∀ (qs : List Pos) (t : ATree)
    (q : Pos), stView (resetChain g qs t) q = stView t q := by
  intro qs
  induction qs with
  | nil => intro t q; rfl
  | cons r rest ih =>
    intro t q
    rw [show resetChain g (r :: rest) t
        = resetChain g rest (resetGo g r t) from rfl, ih]
    exact resetGo_static g r t q

theorem addChain_dex (g : Bool) : ∀ (ps : List Pos) (t : ATree) (q : Pos),
    (∀ p ∈ ps, ¬ IsPre q p) → dexView (addChain g ps t) q = dexView t q := by
  intro ps
  induction ps with
  | nil => intro t q _; rfl
  | cons p ps ih =>
    intro t q h
    rw [show addChain g (p :: ps) t
        = addChain g ps (addGo g (nmAt t p) 0 p t) from rfl,
       ih _ _ (fun p' hp' => h p' (List.mem_cons_of_mem p hp'))]
    exact addGo_dex g (nmAt t p) p 0 t q (h p (List.mem_cons_self p ps))

theorem addChain_in (g : Bool) : ∀ (ps : List Pos) (t : ATree) (q : Pos),
    (∀ p ∈ ps, ¬ OffChild q p) → inView (addChain g ps t) q = inView t q := by
  intro ps
  induction ps with
  | nil => intro t q _; rfl
  | cons p ps ih =>
    intro t q h
    rw [show addChain g (p :: ps) t
        = addChain g ps (addGo g (nmAt t p) 0 p t) from rfl,
       ih _ _ (fun p' hp' => h p' (List.mem_cons_of_mem p hp'))]
    exact addGo_incl g (nmAt t p) p 0 t q (h p (List.mem_cons_self p ps))

theorem addChain_frame (g : Bool) : ∀ (ps : List Pos) (t : ATree) (q : Pos),
    (∀ p ∈ ps, ¬ IsPre q p ∧ ¬ OffChild q p) →
    viewAt (addChain g ps t) q = viewAt t q := by
  intro ps
  induction ps with
  | nil => intro t q _; rfl
  | cons p ps ih =>
    intro t q h
    rw [show addChain g (p :: ps) t
        = addChain g ps (addGo g (nmAt t p) 0 p t) from rfl,
       ih _ _ (fun p' hp' => h p' (List.mem_cons_of_mem p hp'))]
    exact addGo_frame g (nmAt t p) p 0 t q
      (h p (List.mem_cons_self p ps)).1 (h p (List.mem_cons_self p ps)).2

theorem addChain_ex_noget : ∀ (ps : List Pos) (t : ATree) (q : Pos),
    exView (addChain false ps t) q = exView t q := by
  intro ps
  induction ps with
  | nil => intro t q; rfl
  | cons p ps ih =>
    intro t q
    rw [show addChain false (p :: ps) t
        = addChain false ps (addGo false (nmAt t p) 0 p t) from rfl, ih]
    exact addGo_ex_noget (nmAt t p) p 0 t q

theorem addChain_in_noget : ∀ (ps : List Pos) (t : ATree) (q : Pos),
    inView (addChain false ps t) q = inView t q := by
  intro ps
  induction ps with
  | nil => intro t q; rfl
  | cons p ps ih =>
    intro t q
    rw [show addChain false (p :: ps) t
        = addChain false ps (addGo false (nmAt t p) 0 p t) from rfl, ih]
    exact addGo_in_noget (nmAt t p) p 0 t q

theorem resetChain_frame (g : Bool) : ∀ (qs : List Pos) (t : ATree) (q : Pos),
    (∀ p ∈ qs, ¬ IsPre q p ∧ ¬ OffChild q p) →
    viewAt (resetChain g qs t) q = viewAt t q := by
  intro qs
  induction qs with
  | nil => intro t q _; rfl
  | cons r rest ih =>
    intro t q h
    rw [show resetChain g (r :: rest) t
        = resetChain g rest (resetGo g r t) from rfl,
       ih _ _ (fun p' hp' => h p' (List.mem_cons_of_mem r hp'))]
    exact resetGo_frame g r t q
      (h r (List.mem_cons_self r rest)).1 (h r (List.mem_cons_self r rest)).2

theorem resetChain_dex_miss (g : Bool) : ∀ (qs : List Pos) (t : ATree)
    (q : Pos), (∀ p ∈ qs, ¬ IsPre q p) →
    dexView (resetChain g qs t) q = dexView t q := by
  intro qs
  induction qs with
  | nil => intro t q _; rfl
  | cons r rest ih =>
    intro t q h
    rw [show resetChain g (r :: rest) t
        = resetChain g rest (resetGo g r t) from rfl,
       ih _ _ (fun p' hp' => h p' (List.mem_cons_of_mem r hp'))]
    exact resetGo_dex_notpath g r t q (h r (List.mem_cons_self r rest))

theorem dexFresh_resetGo (g : Bool) (r : Pos) (t : ATree) (q : Pos) :
    dexFresh g (resetGo g r t) q = dexFresh g t q := by
  have hst := resetGo_static g r t q
  cases g with
  | true =>
    unfold dexFresh
    unfold stView obsV at hst
    rcases h1 : getA q (resetGo true r t) with _ | c1 <;>
        rcases h2 : getA q t with _ | c2 <;> rw [h1, h2] at hst
    · simp at hst
    · simp at hst
    · simp only [Option.map_some', Option.some.injEq, Prod.mk.injEq] at hst
      simp only [Option.map_some', hst.2.1, if_true]
  | false =>
    have hex := resetGo_ex_noget r t q
    unfold dexFresh
    unfold stView obsV at hst
    unfold exView obsV at hex
    rcases h1 : getA q (resetGo false r t) with _ | c1 <;>
        rcases h2 : getA q t with _ | c2 <;> rw [h1, h2] at hst hex
    · simp at hst
    · simp at hst
    · simp only [Option.map_some', Option.some.injEq, Prod.mk.injEq] at hst
      simp only [Option.map_some', Option.some.injEq] at hex
      simp only [Option.map_some', hst.2.1, hex, if_false]

theorem resetChain_dex_hit (g : Bool) : ∀ (qs : List Pos) (t : ATree)
    (q : Pos), (∃ p ∈ qs, IsPre q p) →
    dexView (resetChain g qs t) q = dexFresh g t q := by
  intro qs
  induction qs with
  | nil =>
    rintro t q ⟨p, hp, -⟩
    exact absurd hp (List.not_mem_nil p)
  | cons r rest ih =>
    intro t q hex
    rw [show resetChain g (r :: rest) t
        = resetChain g rest (resetGo g r t) from rfl]
    by_cases hr : IsPre q r
    · by_cases hrest : ∃ p ∈ rest, IsPre q p
      · rw [ih _ _ hrest]
        exact dexFresh_resetGo g r t q
      · have hrest' : ∀ p ∈ rest, ¬ IsPre q p := by
          intro p hp hpre
          exact hrest ⟨p, hp, hpre⟩
        rw [resetChain_dex_miss g rest _ q hrest']
        exact resetGo_dex_path g r t q hr
    · have hrest : ∃ p ∈ rest, IsPre q p := by
        rcases hex with ⟨p, hp, hpre⟩
        rcases List.mem_cons.1 hp with h1 | h1
        · exact absurd (h1 ▸ hpre) hr
        · exact ⟨p, h1, hpre⟩
      rw [ih _ _ hrest]
      exact dexFresh_resetGo g r t q

theorem resetChain_diff_miss (g : Bool) (qs : List Pos) (t : ATree) (q : Pos)
    (h : ∀ p ∈ qs, ¬ IsPre q p ∧ ¬ OffChild q p) :
    diffView (resetChain g qs t) q = diffView t q := by
  rw [diffView_viewAt, diffView_viewAt, resetChain_frame g qs t q h]

theorem resetChain_diff_hit (g : Bool) : ∀ (qs : List Pos) (t : ATree)
    (q : Pos), (∃ p ∈ qs, IsPre q p ∨ OffChild q p) →
    diffView (resetChain g qs t) q = (getA q t).map (fun _ => (0 : Int)) := by
  intro qs
  induction qs with
  | nil =>
    rintro t q ⟨p, hp, -⟩
    exact absurd hp (List.not_mem_nil p)
  | cons r rest ih =>
    intro t q hex
    rw [show resetChain g (r :: rest) t
        = resetChain g rest (resetGo g r t) from rfl]
    by_cases hr : IsPre q r ∨ OffChild q r
    · by_cases hrest : ∃ p ∈ rest, IsPre q p ∨ OffChild q p
      · rw [ih _ _ hrest]
        exact mapConst_eq 0 (isSome_of_stView (resetGo_static g r t q))
      · have hrest' : ∀ p ∈ rest, ¬ IsPre q p ∧ ¬ OffChild q p := by
          intro p hp
          constructor
          · exact fun hx => hrest ⟨p, hp, Or.inl hx⟩
          · exact fun hx => hrest ⟨p, hp, Or.inr hx⟩
        rw [resetChain_diff_miss g rest _ q hrest']
        exact resetGo_diff_zero g r t q hr
    · have hrest : ∃ p ∈ rest, IsPre q p ∨ OffChild q p := by
        rcases hex with ⟨p, hp, hor⟩
        rcases List.mem_cons.1 hp with h1 | h1
        · exact absurd (h1 ▸ hor) hr
        · exact ⟨p, h1, hor⟩
      rw [ih _ _ hrest]
      exact mapConst_eq 0 (isSome_of_stView (resetGo_static g r t q))

theorem resetChain_in_miss (g : Bool) : ∀ (qs : List Pos) (t : ATree)
    (q : Pos), (∀ p ∈ qs, ¬ OffChild q p ∧ (¬ IsPre q p ∨ q = [])) →
    inView (resetChain g qs t) q = inView t q := by
  intro qs
  induction qs with
  | nil => intro t q _; rfl
  | cons r rest ih =>
    intro t q h
    rw [show resetChain g (r :: rest) t
        = resetChain g rest (resetGo g r t) from rfl,
       ih _ _ (fun p' hp' => h p' (List.mem_cons_of_mem r hp'))]
    exact resetGo_in_keep g r t q
      (h r (List.mem_cons_self r rest)).1 (h r (List.mem_cons_self r rest)).2

theorem resetChain_in_hit : ∀ (qs : List Pos) (t : ATree) (q : Pos),
    (∃ p ∈ qs, OffChild q p ∨ (IsPre q p ∧ q ≠ [])) →
    inView (resetChain true qs t) q = (getA q t).map (fun _ => ([] : List Nat)) := by
  intro qs
  induction qs with
  | nil =>
    rintro t q ⟨p, hp, -⟩
    exact absurd hp (List.not_mem_nil p)
  | cons r rest ih =>
    intro t q hex
    rw [show resetChain true (r :: rest) t
        = resetChain true rest (resetGo true r t) from rfl]
    by_cases hr : OffChild q r ∨ (IsPre q r ∧ q ≠ [])
    · by_cases hrest : ∃ p ∈ rest, OffChild q p ∨ (IsPre q p ∧ q ≠ [])
      · rw [ih _ _ hrest]
        exact mapConst_eq [] (isSome_of_stView (resetGo_static true r t q))
      · have hrest' : ∀ p ∈ rest, ¬ OffChild q p ∧ (¬ IsPre q p ∨ q = []) := by
          intro p hp
          constructor
          · exact fun hx => hrest ⟨p, hp, Or.inl hx⟩
          · by_cases hq0 : q = []
            · exact Or.inr hq0
            · exact Or.inl (fun hx => hrest ⟨p, hp, Or.inr ⟨hx, hq0⟩⟩)
        rw [resetChain_in_miss true rest _ q hrest']
        exact resetGo_in_clear r t q hr
    · have hrest : ∃ p ∈ rest, OffChild q p ∨ (IsPre q p ∧ q ≠ []) := by
        rcases hex with ⟨p, hp, hor⟩
        rcases List.mem_cons.1 hp with h1 | h1
        · exact absurd (h1 ▸ hor) hr
        · exact ⟨p, h1, hor⟩
      rw [ih _ _ hrest]
      exact mapConst_eq [] (isSome_of_stView (resetGo_static true r t q))

theorem resetChain_in_noget : ∀ (qs : List Pos) (t : ATree) (q : Pos),
    inView (resetChain false qs t) q = inView t q := by
  intro qs
  induction qs with
  | nil => intro t q; rfl
  | cons r rest ih =>
    intro t q
    rw [show resetChain false (r :: rest) t
        = resetChain false rest (resetGo false r t) from rfl, ih]
    exact resetGo_in_noget r t q

/-- Building a record equality from the componentwise field
equalities. -/
theorem NFields.extF {f1 f2 : NFields}
    (h1 : f1.name = f2.name) (h2 : f1.sub = f2.sub)
    (h3 : f1.d_lazy = f2.d_lazy) (h4 : f1.d_min = f2.d_min)
    (h5 : f1.d_max = f2.d_max) (h6 : f1.diff = f2.diff)
    (h7 : f1.incl = f2.incl) (h8 : f1.excl = f2.excl) : f1 = f2 := by
  cases f1
  cases f2
  simp_all

/-- The pure round trip: on a fresh tree, any sequence of `addGo` passes
followed by `resetGo` passes over a permutation of the same positions
restores the tree exactly. -/
theorem chain_round_trip (g : Bool) (t0 : ATree) (hF : freshA t0 = true)
    (ps qs : List Pos) (hperm : ps.Perm qs) :
    resetChain g qs (addChain g ps t0) = t0 := by
  apply viewAt_ext
  intro q
  by_cases hU : ∃ p ∈ ps, IsPre q p ∨ OffChild q p
  · have hstA : stView (addChain g ps t0) q = stView t0 q :=
      addChain_static g ps t0 q
    have hstR : stView (resetChain g qs (addChain g ps t0)) q = stView t0 q := by
      rw [resetChain_static g qs _ q, hstA]
    have hsomeA : (getA q (addChain g ps t0)).isSome = (getA q t0).isSome :=
      isSome_of_stView hstA
    have hsomeR : (getA q (resetChain g qs (addChain g ps t0))).isSome
        = (getA q t0).isSome := isSome_of_stView hstR
    have hdex : dexView (resetChain g qs (addChain g ps t0)) q
        = dexView t0 q := by
      by_cases hPre : ∃ p ∈ ps, IsPre q p
      · have hPre' : ∃ p ∈ qs, IsPre q p := by
          rcases hPre with ⟨p, hp, hx⟩
          exact ⟨p, hperm.mem_iff.1 hp, hx⟩
        rw [resetChain_dex_hit g qs _ q hPre']
        unfold dexFresh dexView obsV dproj
        rcases h1 : getA q (addChain g ps t0) with _ | cT <;>
            rcases h2 : getA q t0 with _ | c0
        · rfl
        · rw [h1, h2] at hsomeA
          simp at hsomeA
        · rw [h1, h2] at hsomeA
          simp at hsomeA
        · have hfr := freshF_fields (freshA_at t0 hF q c0 h2)
          have hsub : cT.f.sub = c0.f.sub := by
            unfold stView obsV at hstA
            rw [h1, h2] at hstA
            simp only [Option.map_some', Option.some.injEq,
              Prod.mk.injEq] at hstA
            exact hstA.2.1
          have hex : (if g then ([] : List Nat) else cT.f.excl)
              = c0.f.excl := by
            cases g with
            | true => simp [hfr.2.2.2.2.2]
            | false =>
              have hng := addChain_ex_noget ps t0 q
              unfold exView obsV at hng
              rw [h1, h2] at hng
              simp only [Option.map_some', Option.some.injEq] at hng
              simp [hng]
          simp only [Option.map_some', Option.some.injEq]
          rw [hsub, hex, hfr.1, hfr.2.1, hfr.2.2.1]
      · have hPreQ : ∀ p ∈ qs, ¬ IsPre q p := by
          intro p hp hx
          exact hPre ⟨p, hperm.mem_iff.2 hp, hx⟩
        have hPreP : ∀ p ∈ ps, ¬ IsPre q p := by
          intro p hp hx
          exact hPre ⟨p, hp, hx⟩
        rw [resetChain_dex_miss g qs _ q hPreQ, addChain_dex g ps t0 q hPreP]
    have hdiff : diffView (resetChain g qs (addChain g ps t0)) q
        = diffView t0 q := by
      have hUq : ∃ p ∈ qs, IsPre q p ∨ OffChild q p := by
        rcases hU with ⟨p, hp, hx⟩
        exact ⟨p, hperm.mem_iff.1 hp, hx⟩
      rw [resetChain_diff_hit g qs _ q hUq, mapConst_eq (0 : Int) hsomeA]
      unfold diffView obsV
      rcases h2 : getA q t0 with _ | c0
      · rfl
      · have hfr := freshF_fields (freshA_at t0 hF q c0 h2)
        simp [hfr.2.2.2.1]
    have hin : inView (resetChain g qs (addChain g ps t0)) q
        = inView t0 q := by
      cases g with
      | false => rw [resetChain_in_noget qs _ q, addChain_in_noget ps t0 q]
      | true =>
        by_cases hIn : ∃ p ∈ ps, OffChild q p ∨ (IsPre q p ∧ q ≠ [])
        · have hIn' : ∃ p ∈ qs, OffChild q p ∨ (IsPre q p ∧ q ≠ []) := by
            rcases hIn with ⟨p, hp, hx⟩
            exact ⟨p, hperm.mem_iff.1 hp, hx⟩
          rw [resetChain_in_hit qs _ q hIn',
             mapConst_eq ([] : List Nat) hsomeA]
          unfold inView obsV
          rcases h2 : getA q t0 with _ | c0
          · rfl
          · have hfr := freshF_fields (freshA_at t0 hF q c0 h2)
            simp [hfr.2.2.2.2.1]
        · have hInQ : ∀ p ∈ qs, ¬ OffChild q p ∧ (¬ IsPre q p ∨ q = []) := by
            intro p hp
            constructor
            · exact fun hx => hIn ⟨p, hperm.mem_iff.2 hp, Or.inl hx⟩
            · by_cases hq0 : q = []
              · exact Or.inr hq0
              · exact Or.inl
                  (fun hx => hIn ⟨p, hperm.mem_iff.2 hp, Or.inr ⟨hx, hq0⟩⟩)
          have hInP : ∀ p ∈ ps, ¬ OffChild q p := by
            intro p hp hx
            exact hIn ⟨p, hp, Or.inl hx⟩
          rw [resetChain_in_miss true qs _ q hInQ, addChain_in true ps t0 q hInP]
    rcases h1 : getA q (resetChain g qs (addChain g ps t0)) with _ | cR <;>
        rcases h2 : getA q t0 with _ | c0
    · unfold viewAt
      rw [h1, h2]
    · rw [h1, h2] at hsomeR
      simp at hsomeR
    · rw [h1, h2] at hsomeR
      simp at hsomeR
    · unfold stView obsV at hstR
      unfold dexView obsV dproj at hdex
      unfold diffView obsV at hdiff
      unfold inView obsV at hin
      rw [h1, h2] at hstR hdex hdiff hin
      simp only [Option.map_some', Option.some.injEq,
        Prod.mk.injEq] at hstR hdex hdiff hin
      unfold viewAt
      rw [h1, h2]
      simp only [Option.map_some', Option.some.injEq, Prod.mk.injEq]
      constructor
      · exact NFields.extF hstR.1 hstR.2.1 hdex.1 hdex.2.1 hdex.2.2.1
          hdiff hin hdex.2.2.2
      · exact hstR.2.2
  · have hU' : ∀ p ∈ ps, ¬ IsPre q p ∧ ¬ OffChild q p := by
      intro p hp
      exact ⟨fun hx => hU ⟨p, hp, Or.inl hx⟩, fun hx => hU ⟨p, hp, Or.inr hx⟩⟩
    have hUq : ∀ p ∈ qs, ¬ IsPre q p ∧ ¬ OffChild q p :=
      fun p hp => hU' p (hperm.mem_iff.2 hp)
    rw [resetChain_frame g qs _ q hUq, addChain_frame g ps t0 q hU']

/-- A sequence of `add_leaf` calls on leaf positions never aborts and
computes `addChain`. -/
theorem foldlM_add_ok (g : Bool) : ∀ (ps : List Pos) (t : ATree),
    (∀ p ∈ ps, isLeafAt t p = true) →
    ps.foldlM (add_leaf g) t = Except.ok (addChain g ps t) := by
  intro ps
  induction ps with
  | nil => intro t _; rfl
  | cons p ps ih =>
    intro t h
    have hp := h p (List.mem_cons_self p ps)
    unfold isLeafAt at hp
    rcases hc : getA p t with _ | c
    · rw [hc] at hp
      cases hp
    · rw [hc] at hp
      have hstep : add_leaf g t p = Except.ok (addGo g (nmAt t p) 0 p t) := by
        simp only [add_leaf, hc]
        rw [if_pos hp]
        unfold nmAt
        rw [hc]
      have hnext : ∀ p' ∈ ps, isLeafAt (addGo g (nmAt t p) 0 p t) p' = true :=
        fun p' hp' =>
          leaf_transfer (addGo_st g (nmAt t p) p 0 t p')
            (h p' (List.mem_cons_of_mem p hp'))
      rw [show List.foldlM (add_leaf g) t (p :: ps)
          = add_leaf g t p >>= fun t' => List.foldlM (add_leaf g) t' ps
          from rfl, hstep]
      show List.foldlM (add_leaf g) (addGo g (nmAt t p) 0 p t) ps
          = Except.ok (addChain g (p :: ps) t)
      rw [ih _ hnext]
      rfl

/-- A sequence of `reset_leaf` calls on leaf positions never aborts and
computes `resetChain`. -/
theorem foldlM_reset_ok (g : Bool) : ∀ (qs : List Pos) (t : ATree),
    (∀ p ∈ qs, isLeafAt t p = true) →
    qs.foldlM (reset_leaf g) t = Except.ok (resetChain g qs t) := by
  intro qs
  induction qs with
  | nil => intro t _; rfl
  | cons p ps ih =>
    intro t h
    have hp := h p (List.mem_cons_self p ps)
    unfold isLeafAt at hp
    rcases hc : getA p t with _ | c
    · rw [hc] at hp
      cases hp
    · rw [hc] at hp
      have hstep : reset_leaf g t p = Except.ok (resetGo g p t) := by
        simp only [reset_leaf, hc]
        rw [if_pos hp]
      have hnext : ∀ p' ∈ ps, isLeafAt (resetGo g p t) p' = true :=
        fun p' hp' =>
          leaf_transfer (resetGo_static g p t p')
            (h p' (List.mem_cons_of_mem p hp'))
      rw [show List.foldlM (reset_leaf g) t (p :: ps)
          = reset_leaf g t p >>= fun t' => List.foldlM (reset_leaf g) t' ps
          from rfl, hstep]
      show List.foldlM (reset_leaf g) (resetGo g p t) ps
          = Except.ok (resetChain g (p :: ps) t)
      rw [ih _ hnext]
      rfl

/-- **C6.** Starting from the fresh AltIndex state (`d_lazy = d_max =
subtreesize`, `d_min = 1`, `diff = 0`, empty `include`/`exclude` at every
node, as set up by `prepare_rapid_TI`), running `add_leaf`
(rapid_transfer.c:283-327) on any list of alt-tree leaves and then
`reset_leaf` (rapid_transfer.c:333-370) on a permutation of the same
leaves completes without aborting and restores every node of the
AltIndex exactly to the fresh state — for both values of `getsets`. -/
theorem add_reset_round_trip (g : Bool) (t0 : ATree)
    (hF : freshA t0 = true) (ps qs : List Pos) (hperm : ps.Perm qs)
    (hleaf : ∀ p ∈ ps, isLeafAt t0 p = true) :
    (ps.foldlM (add_leaf g) t0 >>= fun t1 => qs.foldlM (reset_leaf g) t1) =
      Except.ok t0 := by
  have hleafT : ∀ p ∈ qs, isLeafAt (addChain g ps t0) p = true := by
    intro p hp
    exact leaf_transfer (addChain_static g ps t0 p)
      (hleaf p (hperm.mem_iff.2 hp))
  rw [foldlM_add_ok g ps t0 hleaf]
  show qs.foldlM (reset_leaf g) (addChain g ps t0) = Except.ok t0
  rw [foldlM_reset_ok g qs (addChain g ps t0) hleafT,
     chain_round_trip g t0 hF ps qs hperm]

/-- Witness for C6: the prepared tree `((a,c),(b,d))` with the leaves at
positions `[0,0]` and `[1,1]` added and then reset in the opposite
order (with `getsets == true`). -/
theorem add_reset_round_trip_witness :
    freshA (initA cxT4b) = true ∧
    ([[0, 0], [1, 1]] : List Pos).Perm [[1, 1], [0, 0]] ∧
    (∀ p ∈ ([[0, 0], [1, 1]] : List Pos), isLeafAt (initA cxT4b) p = true) ∧
    (([[0, 0], [1, 1]] : List Pos).foldlM (add_leaf true) (initA cxT4b) >>=
      fun t1 => ([[1, 1], [0, 0]] : List Pos).foldlM (reset_leaf true) t1) =
      Except.ok (initA cxT4b) :=
  ⟨by decide, by decide, by decide,
   add_reset_round_trip true (initA cxT4b) (by decide) _ _ (by decide)
     (by decide)⟩

/-! ### Arithmetic toolkit: `tdist` under `insert`, and `foldl min/max`
algebra. -/
theorem tdist_nonneg (A : Finset ℕ) (L : List ℕ) : 0 ≤ tdist A L := by
  unfold tdist
  exact Int.natCast_nonneg _

theorem tdist_insert_mem {A : Finset ℕ} {x : ℕ} {L : List ℕ}
    (hx : x ∉ A) (hxL : x ∈ L) : tdist (insert x A) L = tdist A L - 1 := by
  unfold tdist
  have hxLf : x ∈ L.toFinset := List.mem_toFinset.2 hxL
  have hmem : x ∈ symmDiff A L.toFinset :=
    Finset.mem_symmDiff.2 (Or.inr ⟨hxLf, hx⟩)
  have hset : symmDiff (insert x A) L.toFinset
      = (symmDiff A L.toFinset).erase x := by
    ext y
    by_cases hy : y = x
    · subst hy
      simp [Finset.mem_symmDiff, Finset.mem_erase, hx, hxLf]
    · simp only [Finset.mem_symmDiff, Finset.mem_erase, Finset.mem_insert, hy,
        false_or, ne_eq, not_false_eq_true, true_and]
  rw [hset, Finset.card_erase_of_mem hmem]
  have hpos : 0 < (symmDiff A L.toFinset).card := Finset.card_pos.2 ⟨x, hmem⟩
  omega

theorem tdist_insert_notmem {A : Finset ℕ} {x : ℕ} {L : List ℕ}
    (hx : x ∉ A) (hxL : x ∉ L) : tdist (insert x A) L = tdist A L + 1 := by
  unfold tdist
  have hxLf : x ∉ L.toFinset := fun h => hxL (List.mem_toFinset.1 h)
  have hnot : x ∉ symmDiff A L.toFinset := by
    intro hmem
    rcases Finset.mem_symmDiff.1 hmem with ⟨h1, -⟩ | ⟨h1, -⟩
    · exact hx h1
    · exact hxLf h1
  have hset : symmDiff (insert x A) L.toFinset
      = insert x (symmDiff A L.toFinset) := by
    ext y
    by_cases hy : y = x
    · subst hy
      simp [Finset.mem_symmDiff, hx, hxLf]
    · simp only [Finset.mem_symmDiff, Finset.mem_insert, hy, false_or]
  rw [hset, Finset.card_insert_of_not_mem hnot]
  push_cast
  ring

theorem foldl_op_assoc (op : Int → Int → Int)
    (hop : ∀ a b c, op (op a b) c = op a (op b c)) :
    ∀ (l : List Int) (s x : Int), l.foldl op (op s x) = op s (l.foldl op x) := by
  intro l
  induction l with
  | nil => intro s x; rfl
  | cons y l ih =>
    intro s x
    show l.foldl op (op (op s x) y) = op s ((y :: l).foldl op x)
    rw [hop s x y, ih s (op x y)]
    rfl

theorem subLists_head : ∀ t : ATree, ∃ rest, subLists t = leafList t :: rest := by
  intro t
  rcases t with ⟨f, ch⟩
  rcases ch with _ | ⟨c, cs⟩
  · exact ⟨[], rfl⟩
  · exact ⟨subListsL (c :: cs), rfl⟩

theorem foldl_min_subLists (A : Finset ℕ) (c : ATree) (s : Int) :
    ((subLists c).map (tdist A)).foldl min s = min s (minTD A c) := by
  rcases subLists_head c with ⟨rest, hrest⟩
  unfold minTD
  rw [hrest]
  show (rest.map (tdist A)).foldl min (min s (tdist A (leafList c)))
      = min s ((rest.map (tdist A)).foldl min
          (min (tdist A (leafList c)) (tdist A (leafList c))))
  rw [min_self, foldl_op_assoc min min_assoc]

theorem foldl_min_subListsL (A : Finset ℕ) : ∀ (ch : List ATree) (s : Int),
    ((subListsL ch).map (tdist A)).foldl min s
      = ch.foldl (fun m c => min m (minTD A c)) s := by
  intro ch
  induction ch with
  | nil => intro s; rfl
  | cons c cs ih =>
    intro s
    show ((subLists c ++ subListsL cs).map (tdist A)).foldl min s = _
    rw [List.map_append, List.foldl_append, foldl_min_subLists, ih]
    rfl

theorem minTD_structure (A : Finset ℕ) (f : NFields) (ch : List ATree) :
    minTD A (.node f ch)
      = ch.foldl (fun m c => min m (minTD A c))
          (tdist A (leafList (.node f ch))) := by
  rcases ch with _ | ⟨c, cs⟩
  · unfold minTD
    show min (tdist A [f.name]) (tdist A [f.name]) = tdist A [f.name]
    exact min_self _
  · unfold minTD
    show ((subListsL (c :: cs)).map (tdist A)).foldl min
        (min (tdist A (leafList (ATree.node f (c :: cs))))
             (tdist A (leafList (ATree.node f (c :: cs))))) = _
    rw [min_self, foldl_min_subListsL]
    rfl

theorem foldl_max_subLists (A : Finset ℕ) (c : ATree) (s : Int) :
    ((subLists c).map (tdist A)).foldl max s = max s (maxTD A c) := by
  rcases subLists_head c with ⟨rest, hrest⟩
  unfold maxTD
  rw [hrest]
  show (rest.map (tdist A)).foldl max (max s (tdist A (leafList c)))
      = max s ((rest.map (tdist A)).foldl max
          (max (tdist A (leafList c)) (tdist A (leafList c))))
  rw [max_self, foldl_op_assoc max max_assoc]

theorem foldl_max_subListsL (A : Finset ℕ) : ∀ (ch : List ATree) (s : Int),
    ((subListsL ch).map (tdist A)).foldl max s
      = ch.foldl (fun m c => max m (maxTD A c)) s := by
  intro ch
  induction ch with
  | nil => intro s; rfl
  | cons c cs ih =>
    intro s
    show ((subLists c ++ subListsL cs).map (tdist A)).foldl max s = _
    rw [List.map_append, List.foldl_append, foldl_max_subLists, ih]
    rfl

theorem maxTD_structure (A : Finset ℕ) (f : NFields) (ch : List ATree) :
    maxTD A (.node f ch)
      = ch.foldl (fun m c => max m (maxTD A c))
          (tdist A (leafList (.node f ch))) := by
  rcases ch with _ | ⟨c, cs⟩
  · unfold maxTD
    show max (tdist A [f.name]) (tdist A [f.name]) = tdist A [f.name]
    exact max_self _
  · unfold maxTD
    show ((subListsL (c :: cs)).map (tdist A)).foldl max
        (max (tdist A (leafList (ATree.node f (c :: cs))))
             (tdist A (leafList (ATree.node f (c :: cs))))) = _
    rw [max_self, foldl_max_subListsL]
    rfl

theorem foldl_min_add_one : ∀ (l : List Int) (s : Int),
    (l.map (fun a => a + 1)).foldl min (s + 1) = l.foldl min s + 1 := by
  intro l
  induction l with
  | nil => intro s; rfl
  | cons a l ih =>
    intro s
    show (l.map (fun a => a + 1)).foldl min (min (s + 1) (a + 1)) = _
    rw [show min (s + 1) (a + 1) = min s a + 1 from by omega, ih]
    rfl

theorem foldl_max_add_one : ∀ (l : List Int) (s : Int),
    (l.map (fun a => a + 1)).foldl max (s + 1) = l.foldl max s + 1 := by
  intro l
  induction l with
  | nil => intro s; rfl
  | cons a l ih =>
    intro s
    show (l.map (fun a => a + 1)).foldl max (max (s + 1) (a + 1)) = _
    rw [show max (s + 1) (a + 1) = max s a + 1 from by omega, ih]
    rfl

theorem leafList_mem_subLists (t : ATree) : leafList t ∈ subLists t := by
  rcases subLists_head t with ⟨rest, hrest⟩
  rw [hrest]
  exact List.mem_cons_self _ _

theorem minTD_shift (A : Finset ℕ) (x : ℕ) (hx : x ∉ A) (t : ATree)
    (hL : ∀ L ∈ subLists t, x ∉ L) :
    minTD (insert x A) t = minTD A t + 1 := by
  unfold minTD
  have hmap : (subLists t).map (tdist (insert x A))
      = ((subLists t).map (tdist A)).map (fun a => a + 1) := by
    rw [List.map_map]
    apply List.map_congr_left
    intro L hLm
    exact tdist_insert_notmem hx (hL L hLm)
  rw [hmap, tdist_insert_notmem hx (hL _ (leafList_mem_subLists t)),
     foldl_min_add_one]

theorem maxTD_shift (A : Finset ℕ) (x : ℕ) (hx : x ∉ A) (t : ATree)
    (hL : ∀ L ∈ subLists t, x ∉ L) :
    maxTD (insert x A) t = maxTD A t + 1 := by
  unfold maxTD
  have hmap : (subLists t).map (tdist (insert x A))
      = ((subLists t).map (tdist A)).map (fun a => a + 1) := by
    rw [List.map_map]
    apply List.map_congr_left
    intro L hLm
    exact tdist_insert_notmem hx (hL L hLm)
  rw [hmap, tdist_insert_notmem hx (hL _ (leafList_mem_subLists t)),
     foldl_max_add_one]

/-! ### `add_leaf` preserves the leaf structure (names, lists of leaf
sets), and basic facts about leaf lists. -/
theorem leafList_offBump (g : Bool) (x : Nat) (e : Int) (c : ATree) :
    leafList (offBump g x e c) = leafList c := by
  rcases c with ⟨f, ch⟩
  rcases ch with _ | ⟨c0, cs⟩ <;> rfl

theorem subLists_offBump (g : Bool) (x : Nat) (e : Int) (c : ATree) :
    subLists (offBump g x e c) = subLists c := by
  rcases c with ⟨f, ch⟩
  rcases ch with _ | ⟨c0, cs⟩ <;> rfl

theorem leafListL_mapIdx (h : Nat → ATree → ATree) :
    ∀ (ch : List ATree) (k : Nat),
    (∀ i c, ch[i]? = some c → leafList (h (k + i) c) = leafList c) →
    leafListL (mapIdxA h k ch) = leafListL ch := by
  intro ch
  induction ch with
  | nil => intro k _; rfl
  | cons c cs ih =>
    intro k hp
    show leafList (h k c) ++ leafListL (mapIdxA h (k + 1) cs)
        = leafList c ++ leafListL cs
    rw [show h k c = h (k + 0) c from rfl, hp 0 c (by simp),
       ih (k + 1) (fun i c' hc' => by
         have hstep := hp (i + 1) c' (by simpa using hc')
         rwa [show k + (i + 1) = k + 1 + i from by omega] at hstep)]

theorem subListsL_mapIdx (h : Nat → ATree → ATree) :
    ∀ (ch : List ATree) (k : Nat),
    (∀ i c, ch[i]? = some c → subLists (h (k + i) c) = subLists c) →
    subListsL (mapIdxA h k ch) = subListsL ch := by
  intro ch
  induction ch with
  | nil => intro k _; rfl
  | cons c cs ih =>
    intro k hp
    show subLists (h k c) ++ subListsL (mapIdxA h (k + 1) cs)
        = subLists c ++ subListsL cs
    rw [show h k c = h (k + 0) c from rfl, hp 0 c (by simp),
       ih (k + 1) (fun i c' hc' => by
         have hstep := hp (i + 1) c' (by simpa using hc')
         rwa [show k + (i + 1) = k + 1 + i from by omega] at hstep)]

theorem leafList_addGo (g : Bool) (x : Nat) : ∀ (π : Pos) (a : Int)
    (t : ATree), leafList (addGo g x a π t) = leafList t := by
  intro π
  induction π with
  | nil =>
    intro a t
    rcases t with ⟨f, ch⟩
    rcases ch with _ | ⟨c, cs⟩ <;> rfl
  | cons j p ih =>
    intro a t
    rcases t with ⟨f, ch⟩
    rcases ch with _ | ⟨c, cs⟩
    · rfl
    · show leafListL (mapIdxA
          (fun i c => if i = j then addGo g x (f.diff + a) p c
           else offBump g x (f.diff + a) c) 0 (c :: cs))
        = leafListL (c :: cs)
      refine leafListL_mapIdx _ (c :: cs) 0 (fun i ci hci => ?_)
      simp only [Nat.zero_add]
      by_cases hij : i = j
      · subst hij
        simp only [if_pos rfl]
        exact ih (f.diff + a) ci
      · simp only [if_neg hij]
        exact leafList_offBump g x (f.diff + a) ci

theorem subLists_addGo (g : Bool) (x : Nat) : ∀ (π : Pos) (a : Int)
    (t : ATree), subLists (addGo g x a π t) = subLists t := by
  intro π
  induction π with
  | nil =>
    intro a t
    rcases t with ⟨f, ch⟩
    rcases ch with _ | ⟨c, cs⟩ <;> rfl
  | cons j p ih =>
    intro a t
    rcases t with ⟨f, ch⟩
    rcases ch with _ | ⟨c, cs⟩
    · rfl
    · have h1 : leafList (addGo g x a (j :: p) (ATree.node f (c :: cs)))
          = leafList (ATree.node f (c :: cs)) :=
        leafList_addGo g x (j :: p) a (ATree.node f (c :: cs))
      have h2 : subListsL (mapIdxA
          (fun i c => if i = j then addGo g x (f.diff + a) p c
           else offBump g x (f.diff + a) c) 0 (c :: cs))
          = subListsL (c :: cs) := by
        refine subListsL_mapIdx _ (c :: cs) 0 (fun i ci hci => ?_)
        simp only [Nat.zero_add]
        by_cases hij : i = j
        · subst hij
          simp only [if_pos rfl]
          exact ih (f.diff + a) ci
        · simp only [if_neg hij]
          exact subLists_offBump g x (f.diff + a) ci
      show leafList (addGo g x a (j :: p) (ATree.node f (c :: cs)))
          :: subListsL (mapIdxA
            (fun i c => if i = j then addGo g x (f.diff + a) p c
             else offBump g x (f.diff + a) c) 0 (c :: cs))
        = leafList (ATree.node f (c :: cs)) :: subListsL (c :: cs)
      rw [h1, h2]

theorem leafListL_mem : ∀ (ch : List ATree) (c : ATree), c ∈ ch →
    ∀ y ∈ leafList c, y ∈ leafListL ch := by
  intro ch
  induction ch with
  | nil => intro c hc; exact absurd hc (List.not_mem_nil c)
  | cons a as ih =>
    intro c hc y hy
    show y ∈ leafList a ++ leafListL as
    rcases List.mem_cons.1 hc with h | h
    · exact List.mem_append.2 (Or.inl (h ▸ hy))
    · exact List.mem_append.2 (Or.inr (ih c h y hy))

theorem getA_leaf_name_mem : ∀ (π : Pos) (t c : ATree),
    getA π t = some c → c.ch = [] → c.f.name ∈ leafList t := by
  intro π
  induction π with
  | nil =>
    intro t c hg hc
    have ht : t = c := Option.some.inj hg
    subst ht
    rcases t with ⟨f, ch⟩
    have hch : ch = [] := hc
    subst hch
    exact List.mem_cons_self _ _
  | cons j p ih =>
    intro t c hg hc
    rcases t with ⟨f, ch⟩
    rw [show getA (j :: p) (ATree.node f ch) = (ch[j]?).bind (getA p)
        from rfl] at hg
    rcases hj : ch[j]? with _ | cj
    · rw [hj] at hg
      cases hg
    · rw [hj] at hg
      have hmem := ih cj c hg hc
      have hcj : cj ∈ ch := by
        rcases List.getElem?_eq_some.1 hj with ⟨hi, hv⟩
        exact hv ▸ List.getElem_mem hi
      rcases ch with _ | ⟨c0, cs⟩
      · rw [show ([] : List ATree)[j]? = none from by simp] at hj
        cases hj
      · exact leafListL_mem (c0 :: cs) cj hcj _ hmem

theorem subListsL_mem_ex : ∀ (ch : List ATree) (L : List ℕ),
    L ∈ subListsL ch → ∃ c ∈ ch, L ∈ subLists c := by
  intro ch
  induction ch with
  | nil => intro L hL; cases hL
  | cons c cs ih =>
    intro L hL
    rcases List.mem_append.1 hL with h | h
    · exact ⟨c, List.mem_cons_self c cs, h⟩
    · rcases ih L h with ⟨c', hc', hL'⟩
      exact ⟨c', List.mem_cons_of_mem c hc', hL'⟩

theorem subListsL_mem_intro : ∀ (ch : List ATree) (c : ATree), c ∈ ch →
    ∀ L ∈ subLists c, L ∈ subListsL ch := by
  intro ch
  induction ch with
  | nil => intro c hc; exact absurd hc (List.not_mem_nil c)
  | cons a as ih =>
    intro c hc L hL
    show L ∈ subLists a ++ subListsL as
    rcases List.mem_cons.1 hc with h | h
    · exact List.mem_append.2 (Or.inl (h ▸ hL))
    · exact List.mem_append.2 (Or.inr (ih c h L hL))

theorem subLists_subset : ∀ (t : ATree) (L : List ℕ), L ∈ subLists t →
    ∀ y ∈ L, y ∈ leafList t := by
  intro t
  induction t using ATree.ind with
  | h f ch ihc =>
    intro L hL y hy
    rcases ch with _ | ⟨c, cs⟩
    · rw [show subLists (ATree.node f []) = [[f.name]] from rfl] at hL
      have hLe : L = [f.name] := List.mem_singleton.1 hL
      subst hLe
      exact hy
    · rw [show subLists (ATree.node f (c :: cs))
          = leafList (ATree.node f (c :: cs)) :: subListsL (c :: cs)
          from rfl] at hL
      rcases List.mem_cons.1 hL with h | h
      · exact h ▸ hy
      · rcases subListsL_mem_ex (c :: cs) L h with ⟨c', hc', hL'⟩
        exact leafListL_mem (c :: cs) c' hc' y (ihc c' hc' L hL' y hy)

theorem leafListL_nodup_child : ∀ (ch : List ATree),
    (leafListL ch).Nodup → ∀ c ∈ ch, (leafList c).Nodup := by
  intro ch
  induction ch with
  | nil => intro _ c hc; exact absurd hc (List.not_mem_nil c)
  | cons a as ih =>
    intro hN c hc
    have hN' := List.nodup_append.1
      (show (leafList a ++ leafListL as).Nodup from hN)
    rcases List.mem_cons.1 hc with h | h
    · exact h ▸ hN'.1
    · exact ih hN'.2.1 c h

theorem leafListL_sib : ∀ (ch : List ATree), (leafListL ch).Nodup →
    ∀ (i j : Nat) (ci cj : ATree), ch[i]? = some ci → ch[j]? = some cj →
    i ≠ j → ∀ y ∈ leafList cj, y ∉ leafList ci := by
  intro ch
  induction ch with
  | nil =>
    intro _ i j ci cj hci
    simp at hci
  | cons a as ih =>
    intro hN i j ci cj hci hcj hij y hyj hyi
    have hN' := List.nodup_append.1
      (show (leafList a ++ leafListL as).Nodup from hN)
    rcases i with _ | i <;> rcases j with _ | j
    · exact hij rfl
    · have ha : a = ci := by simpa using hci
      have hcj' : as[j]? = some cj := by simpa using hcj
      have hmemj : cj ∈ as := by
        rcases List.getElem?_eq_some.1 hcj' with ⟨hi2, hv⟩
        exact hv ▸ List.getElem_mem hi2
      exact hN'.2.2 (ha ▸ hyi) (leafListL_mem as cj hmemj y hyj)
    · have ha : a = cj := by simpa using hcj
      have hci' : as[i]? = some ci := by simpa using hci
      have hmemi : ci ∈ as := by
        rcases List.getElem?_eq_some.1 hci' with ⟨hi2, hv⟩
        exact hv ▸ List.getElem_mem hi2
      exact hN'.2.2 (ha ▸ hyj) (leafListL_mem as ci hmemi y hyi)
    · exact ih hN'.2.1 i j ci cj (by simpa using hci) (by simpa using hcj)
        (fun hc => hij (by rw [hc])) y hyj hyi

/-! ### `InvL` helpers and the +1 shift of the invariant. -/
theorem InvL_get (A : Finset ℕ) (e : Int) : ∀ (ch : List ATree),
    InvL A e ch → ∀ (i : Nat) (c : ATree), ch[i]? = some c → InvAt A e c := by
  intro ch
  induction ch with
  | nil => intro _ i c hc; simp at hc
  | cons a as ih =>
    intro hI i c hc
    rcases i with _ | i
    · have ha : a = c := by simpa using hc
      exact ha ▸ hI.1
    · exact ih hI.2 i c (by simpa using hc)

theorem InvL_mapIdx (A : Finset ℕ) (e : Int) (h : Nat → ATree → ATree) :
    ∀ (ch : List ATree) (k : Nat),
    (∀ i c, ch[i]? = some c → InvAt A e (h (k + i) c)) →
    InvL A e (mapIdxA h k ch) := by
  intro ch
  induction ch with
  | nil => intro k _; exact trivial
  | cons c cs ih =>
    intro k hp
    refine ⟨?_, ?_⟩
    · have := hp 0 c (by simp)
      rwa [show k + 0 = k from rfl] at this
    · exact ih (k + 1) (fun i c' hc' => by
        have hstep := hp (i + 1) c' (by simpa using hc')
        rwa [show k + (i + 1) = k + 1 + i from by omega] at hstep)

theorem InvAt_congr_e (A : Finset ℕ) {e1 e2 : Int} (t : ATree)
    (h : InvAt A e1 t) (he : e1 = e2) : InvAt A e2 t := he ▸ h

theorem inv_shift (A : Finset ℕ) (x : ℕ) (hx : x ∉ A) :
    ∀ (t : ATree) (e : Int), InvAt A e t →
    (∀ L ∈ subLists t, x ∉ L) → InvAt (insert x A) (e + 1) t := by
  intro t
  induction t using ATree.ind with
  | h f ch ihc =>
    intro e hI hL
    rcases hI with ⟨h1, h2, h3, h4⟩
    have hxleaf : x ∉ leafList (ATree.node f ch) :=
      hL _ (leafList_mem_subLists _)
    have htd : tdist (insert x A) (leafList (ATree.node f ch))
        = tdist A (leafList (ATree.node f ch)) + 1 :=
      tdist_insert_notmem hx hxleaf
    have hmin : minTD (insert x A) (ATree.node f ch)
        = minTD A (ATree.node f ch) + 1 :=
      minTD_shift A x hx _ hL
    have hmax : maxTD (insert x A) (ATree.node f ch)
        = maxTD A (ATree.node f ch) + 1 :=
      maxTD_shift A x hx _ hL
    refine ⟨by rw [htd]; omega, by rw [hmin]; omega, by rw [hmax]; omega, ?_⟩
    have hchL : ∀ c ∈ ch, ∀ L ∈ subLists c, x ∉ L := by
      intro c hc L hLc
      refine hL L ?_
      rcases ch with _ | ⟨c0, cs⟩
      · exact absurd hc (List.not_mem_nil c)
      · rw [show subLists (ATree.node f (c0 :: cs))
            = leafList (ATree.node f (c0 :: cs)) :: subListsL (c0 :: cs)
            from rfl]
        exact List.mem_cons_of_mem _ (subListsL_mem_intro (c0 :: cs) c hc L hLc)
    clear h1 h2 h3 htd hmin hmax hxleaf hL
    induction ch with
    | nil => exact trivial
    | cons c cs ihl =>
      refine ⟨?_, ?_⟩
      · have := ihc c (List.mem_cons_self c cs) (f.diff + e) h4.1
          (hchL c (List.mem_cons_self c cs))
        exact InvAt_congr_e _ _ this (by ring)
      · exact ihl (fun c' hc' => ihc c' (List.mem_cons_of_mem c hc')) h4.2
          (fun c' hc' => hchL c' (List.mem_cons_of_mem c hc'))

/-! ### The invariant is maintained by one `add_leaf` pass. -/
theorem InvAt_lazy {A : Finset ℕ} {e : Int} {t : ATree} (h : InvAt A e t) :
    t.f.d_lazy + (t.f.diff + e) = tdist A (leafList t) := by
  rcases t with ⟨f, ch⟩
  exact h.1

theorem InvAt_min {A : Finset ℕ} {e : Int} {t : ATree} (h : InvAt A e t) :
    t.f.d_min + (t.f.diff + e) = minTD A t := by
  rcases t with ⟨f, ch⟩
  exact h.2.1

theorem InvAt_max {A : Finset ℕ} {e : Int} {t : ATree} (h : InvAt A e t) :
    t.f.d_max + (t.f.diff + e) = maxTD A t := by
  rcases t with ⟨f, ch⟩
  exact h.2.2.1

theorem InvL_congr_e (A : Finset ℕ) {e1 e2 : Int} (ch : List ATree)
    (h : InvL A e1 ch) (he : e1 = e2) : InvL A e2 ch := he ▸ h

theorem minTD_offBump (B : Finset ℕ) (g : Bool) (x : Nat) (e : Int)
    (c : ATree) : minTD B (offBump g x e c) = minTD B c := by
  unfold minTD
  rw [subLists_offBump, leafList_offBump]

theorem maxTD_offBump (B : Finset ℕ) (g : Bool) (x : Nat) (e : Int)
    (c : ATree) : maxTD B (offBump g x e c) = maxTD B c := by
  unfold maxTD
  rw [subLists_offBump, leafList_offBump]

theorem minTD_addGo (B : Finset ℕ) (g : Bool) (x : Nat) (π : Pos) (a : Int)
    (t : ATree) : minTD B (addGo g x a π t) = minTD B t := by
  unfold minTD
  rw [subLists_addGo, leafList_addGo]

theorem maxTD_addGo (B : Finset ℕ) (g : Bool) (x : Nat) (π : Pos) (a : Int)
    (t : ATree) : maxTD B (addGo g x a π t) = maxTD B t := by
  unfold maxTD
  rw [subLists_addGo, leafList_addGo]

theorem foldch (op : Int → Int → Int) (F G : ATree → Int)
    (h : Nat → ATree → ATree) :
    ∀ (ch : List ATree) (k : Nat) (s : Int),
    (∀ i c, ch[i]? = some c → F (h (k + i) c) = G c) →
    (mapIdxA h k ch).foldl (fun m c => op m (F c)) s
      = ch.foldl (fun m c => op m (G c)) s := by
  intro ch
  induction ch with
  | nil => intro k s _; rfl
  | cons c cs ih =>
    intro k s hp
    show (mapIdxA h (k + 1) cs).foldl (fun m c => op m (F c)) (op s (F (h k c)))
        = cs.foldl (fun m c => op m (G c)) (op s (G c))
    rw [show h k c = h (k + 0) c from rfl, hp 0 c (by simp),
       ih (k + 1) (op s (G c)) (fun i c' hc' => by
         have hstep := hp (i + 1) c' (by simpa using hc')
         rwa [show k + (i + 1) = k + 1 + i from by omega] at hstep)]

theorem offBump_inv (g : Bool) (x : ℕ) (A : Finset ℕ) (hx : x ∉ A)
    (c : ATree) (e : Int) (hI : InvAt A e c)
    (hL : ∀ L ∈ subLists c, x ∉ L) :
    InvAt (insert x A) 0 (offBump g x e c) := by
  have hsh := inv_shift A x hx c e hI hL
  rcases c with ⟨f, ch⟩
  rcases hsh with ⟨h1, h2, h3, h4⟩
  refine ⟨?_, ?_, ?_, ?_⟩
  · show f.d_lazy + (f.diff + (e + 1) + 0)
        = tdist (insert x A) (leafList (offBump g x e (ATree.node f ch)))
    rw [leafList_offBump]
    omega
  · show f.d_min + (f.diff + (e + 1) + 0)
        = minTD (insert x A) (offBump g x e (ATree.node f ch))
    rw [minTD_offBump]
    omega
  · show f.d_max + (f.diff + (e + 1) + 0)
        = maxTD (insert x A) (offBump g x e (ATree.node f ch))
    rw [maxTD_offBump]
    omega
  · show InvL (insert x A) (f.diff + (e + 1) + 0) ch
    exact InvL_congr_e _ ch h4 (by ring)

theorem addGo_inv (g : Bool) (x : ℕ) :
    ∀ (π : Pos) (t : ATree) (A : Finset ℕ) (a : Int) (lf : ATree),
    InvAt A a t →
    getA π t = some lf → lf.ch = [] → lf.f.name = x →
    x ∉ A → (leafList t).Nodup →
    InvAt (insert x A) 0 (addGo g x a π t) := by
  intro π
  induction π with
  | nil =>
    intro t A a lf hI hg hlf hnm hx hN
    obtain rfl : t = lf := Option.some.inj hg
    rcases t with ⟨f, ch⟩
    have hch : ch = [] := hlf
    subst hch
    have hnm' : f.name = x := hnm
    rcases hI with ⟨h1, h2, h3, -⟩
    have hxin : x ∈ leafList (ATree.node f []) :=
      List.mem_singleton.2 hnm'.symm
    have htd := tdist_insert_mem hx hxin
    have hms := minTD_structure (insert x A) f []
    have hxs := maxTD_structure (insert x A) f []
    have hms0 := minTD_structure A f []
    have hxs0 := maxTD_structure A f []
    refine ⟨?_, ?_, ?_, trivial⟩
    · show (f.d_lazy + (f.diff + a) - 1) + (0 + 0)
          = tdist (insert x A) (leafList (addGo g x a [] (ATree.node f [])))
      rw [leafList_addGo]
      omega
    · show (f.d_lazy + (f.diff + a) - 1) + (0 + 0)
          = minTD (insert x A) (addGo g x a [] (ATree.node f []))
      rw [minTD_addGo]
      rw [show minTD (insert x A) (ATree.node f [])
          = tdist (insert x A) (leafList (ATree.node f [])) from hms]
      omega
    · show (f.d_lazy + (f.diff + a) - 1) + (0 + 0)
          = maxTD (insert x A) (addGo g x a [] (ATree.node f []))
      rw [maxTD_addGo]
      rw [show maxTD (insert x A) (ATree.node f [])
          = tdist (insert x A) (leafList (ATree.node f [])) from hxs]
      omega
  | cons j p ih =>
    intro t A a lf hI hg hlf hnm hx hN
    rcases t with ⟨f, ch⟩
    rw [show getA (j :: p) (ATree.node f ch) = (ch[j]?).bind (getA p)
        from rfl] at hg
    rcases hj : ch[j]? with _ | cj
    · rw [hj] at hg
      cases hg
    · rw [hj] at hg
      have hg' : getA p cj = some lf := hg
      rcases hI with ⟨h1, h2, h3, h4⟩
      have hxj : x ∈ leafList cj := hnm ▸ getA_leaf_name_mem p cj lf hg' hlf
      rcases ch with _ | ⟨c0, cs⟩
      · simp at hj
      · have hNL : (leafListL (c0 :: cs)).Nodup := hN
        have hcjmem : cj ∈ c0 :: cs := by
          rcases List.getElem?_eq_some.1 hj with ⟨hi, hv⟩
          exact hv ▸ List.getElem_mem hi
        have hNcj : (leafList cj).Nodup := leafListL_nodup_child _ hNL cj hcjmem
        have hpoint : ∀ (i : Nat) (ci : ATree), (c0 :: cs)[i]? = some ci →
            InvAt (insert x A) 0
              ((fun i c => if i = j then addGo g x (f.diff + a) p c
                else offBump g x (f.diff + a) c) i ci) := by
          intro i ci hci
          by_cases hij : i = j
          · subst hij
            have hcicj : ci = cj := by
              rw [hci] at hj
              exact Option.some.inj hj
            subst hcicj
            simp only [if_pos rfl, if_true]
            exact ih ci A (f.diff + a) lf (InvL_get A _ _ h4 i ci hci)
              hg' hlf hnm hx hNcj
          · simp only [if_neg hij]
            have hsib := leafListL_sib _ hNL i j ci cj hci hj hij
            have hxci : x ∉ leafList ci := hsib x hxj
            have hLci : ∀ L ∈ subLists ci, x ∉ L :=
              fun L hL hxL => hxci (subLists_subset ci L hL x hxL)
            exact offBump_inv g x A hx ci (f.diff + a)
              (InvL_get A _ _ h4 i ci hci) hLci
        have hxroot : x ∈ leafList (ATree.node f (c0 :: cs)) :=
          leafListL_mem _ cj hcjmem x hxj
        have htd := tdist_insert_mem hx hxroot
        have hdl : f.d_lazy + (f.diff + a) - 1
            = tdist (insert x A) (leafList (ATree.node f (c0 :: cs))) := by
          omega
        have hpmin : ∀ (i : Nat) (ci : ATree), (c0 :: cs)[i]? = some ci →
            (fun c => c.f.d_min + c.f.diff)
              ((fun i c => if i = j then addGo g x (f.diff + a) p c
                else offBump g x (f.diff + a) c) (0 + i) ci)
            = minTD (insert x A) ci := by
          intro i ci hci
          rw [Nat.zero_add]
          have hinv := hpoint i ci hci
          have hmin := InvAt_min hinv
          by_cases hij : i = j
          · subst hij
            simp only [if_pos rfl, if_true] at hmin ⊢
            rw [minTD_addGo] at hmin
            omega
          · simp only [if_neg hij] at hmin ⊢
            rw [minTD_offBump] at hmin
            omega
        have hpmax : ∀ (i : Nat) (ci : ATree), (c0 :: cs)[i]? = some ci →
            (fun c => c.f.d_max + c.f.diff)
              ((fun i c => if i = j then addGo g x (f.diff + a) p c
                else offBump g x (f.diff + a) c) (0 + i) ci)
            = maxTD (insert x A) ci := by
          intro i ci hci
          rw [Nat.zero_add]
          have hinv := hpoint i ci hci
          have hmax := InvAt_max hinv
          by_cases hij : i = j
          · subst hij
            simp only [if_pos rfl, if_true] at hmax ⊢
            rw [maxTD_addGo] at hmax
            omega
          · simp only [if_neg hij] at hmax ⊢
            rw [maxTD_offBump] at hmax
            omega
        refine ⟨?_, ?_, ?_, ?_⟩
        · show (f.d_lazy + (f.diff + a) - 1) + (0 + 0)
              = tdist (insert x A)
                  (leafList (addGo g x a (j :: p) (ATree.node f (c0 :: cs))))
          rw [leafList_addGo]
          omega
        · show chMin (f.d_lazy + (f.diff + a) - 1)
              (mapIdxA (fun i c => if i = j then addGo g x (f.diff + a) p c
                else offBump g x (f.diff + a) c) 0 (c0 :: cs)) + (0 + 0)
              = minTD (insert x A)
                  (addGo g x a (j :: p) (ATree.node f (c0 :: cs)))
          rw [minTD_addGo, minTD_structure]
          unfold chMin
          rw [foldch min (fun c => c.f.d_min + c.f.diff)
              (fun c => minTD (insert x A) c) _ (c0 :: cs) 0 _ hpmin, hdl]
          omega
        · show chMax (f.d_lazy + (f.diff + a) - 1)
              (mapIdxA (fun i c => if i = j then addGo g x (f.diff + a) p c
                else offBump g x (f.diff + a) c) 0 (c0 :: cs)) + (0 + 0)
              = maxTD (insert x A)
                  (addGo g x a (j :: p) (ATree.node f (c0 :: cs)))
          rw [maxTD_addGo, maxTD_structure]
          unfold chMax
          rw [foldch max (fun c => c.f.d_max + c.f.diff)
              (fun c => maxTD (insert x A) c) _ (c0 :: cs) 0 _ hpmax, hdl]
          omega
        · show InvL (insert x A) (0 + 0)
              (mapIdxA (fun i c => if i = j then addGo g x (f.diff + a) p c
                else offBump g x (f.diff + a) c) 0 (c0 :: cs))
          refine InvL_mapIdx _ _ _ (c0 :: cs) 0 (fun i ci hci => ?_)
          rw [Nat.zero_add]
          exact InvAt_congr_e _ _ (hpoint i ci hci) (by ring)

/-! ### The prepared tree (`prepare_rapid_TI`) satisfies the invariant at
`A = ∅`. -/
theorem leafList_ne_nil : ∀ t : ATree, leafList t ≠ [] := by
  intro t
  rcases t with ⟨f, ch⟩
  rcases ch with _ | ⟨c, cs⟩
  · show ([f.name] : List Nat) ≠ []
    exact List.cons_ne_nil _ _
  · show leafList c ++ leafListL cs ≠ []
    have := leafList_ne_nil c
    simp [this]

theorem foldl_min_ones (G : ATree → Int) :
    ∀ (cs : List ATree) (u : Int), (∀ c ∈ cs, G c = 1) → u ≤ 1 →
    cs.foldl (fun m c => min m (G c)) u = u := by
  intro cs
  induction cs with
  | nil => intro u _ _; rfl
  | cons c cs ih =>
    intro u hG hu
    show cs.foldl (fun m c => min m (G c)) (min u (G c)) = u
    rw [hG c (List.mem_cons_self c cs),
       show min u 1 = u from by omega]
    exact ih u (fun c' hc' => hG c' (List.mem_cons_of_mem c hc')) hu

theorem foldl_max_below (G : ATree → Int) :
    ∀ (cs : List ATree) (s : Int), (∀ c ∈ cs, G c ≤ s) →
    cs.foldl (fun m c => max m (G c)) s = s := by
  intro cs
  induction cs with
  | nil => intro s _; rfl
  | cons c cs ih =>
    intro s hG
    show cs.foldl (fun m c => max m (G c)) (max s (G c)) = s
    rw [show max s (G c) = s from by
        have := hG c (List.mem_cons_self c cs)
        omega]
    exact ih s (fun c' hc' => hG c' (List.mem_cons_of_mem c hc'))

theorem tdist_empty (L : List ℕ) (hN : L.Nodup) :
    tdist ∅ L = (L.length : Int) := by
  unfold tdist
  rw [show symmDiff (∅ : Finset ℕ) L.toFinset = L.toFinset from by
      ext y
      simp [Finset.mem_symmDiff]]
  rw [List.toFinset_card_of_nodup hN]

theorem leafListL_length_le : ∀ (ch : List ATree) (c : ATree), c ∈ ch →
    (leafList c).length ≤ (leafListL ch).length := by
  intro ch
  induction ch with
  | nil => intro c hc; exact absurd hc (List.not_mem_nil c)
  | cons a as ih =>
    intro c hc
    show _ ≤ (leafList a ++ leafListL as).length
    rw [List.length_append]
    rcases List.mem_cons.1 hc with h | h
    · rw [h]
      omega
    · have := ih c h
      omega

theorem minTD_empty : ∀ (t : ATree), (leafList t).Nodup → minTD ∅ t = 1 := by
  intro t
  induction t using ATree.ind with
  | h f ch ihc =>
    intro hN
    rw [minTD_structure]
    rcases ch with _ | ⟨c0, cs⟩
    · show tdist ∅ (leafList (ATree.node f [])) = 1
      rw [tdist_empty _ hN]
      rfl
    · have hlen : tdist ∅ (leafList (ATree.node f (c0 :: cs)))
          = ((leafList (ATree.node f (c0 :: cs))).length : Int) :=
        tdist_empty _ hN
    -- fold over c0 :: cs: first child brings the min to 1
      have hall : ∀ c ∈ c0 :: cs, minTD ∅ c = 1 := by
        intro c hc
        exact ihc c hc (leafListL_nodup_child _ hN c hc)
      show (c0 :: cs).foldl (fun m c => min m (minTD ∅ c))
          (tdist ∅ (leafList (ATree.node f (c0 :: cs)))) = 1
      show cs.foldl (fun m c => min m (minTD ∅ c))
          (min (tdist ∅ (leafList (ATree.node f (c0 :: cs)))) (minTD ∅ c0)) = 1
      rw [hall c0 (List.mem_cons_self c0 cs)]
      have hge : 1 ≤ tdist ∅ (leafList (ATree.node f (c0 :: cs))) := by
        rw [hlen]
        have := leafList_ne_nil (ATree.node f (c0 :: cs))
        have hpos : 0 < (leafList (ATree.node f (c0 :: cs))).length :=
          List.length_pos.2 this
        omega
      rw [show min (tdist ∅ (leafList (ATree.node f (c0 :: cs)))) 1 = 1
          from by omega]
      exact foldl_min_ones _ cs 1
        (fun c hc => hall c (List.mem_cons_of_mem c0 hc)) le_rfl

theorem maxTD_empty : ∀ (t : ATree), (leafList t).Nodup →
    maxTD ∅ t = ((leafList t).length : Int) := by
  intro t
  induction t using ATree.ind with
  | h f ch ihc =>
    intro hN
    rw [maxTD_structure]
    rcases ch with _ | ⟨c0, cs⟩
    · exact tdist_empty _ hN
    · have hall : ∀ c ∈ c0 :: cs,
          maxTD ∅ c = ((leafList c).length : Int) := by
        intro c hc
        exact ihc c hc (leafListL_nodup_child _ hN c hc)
      rw [tdist_empty _ hN]
      refine foldl_max_below _ (c0 :: cs) _ (fun c hc => ?_)
      rw [hall c hc]
      have hle : (leafList c).length
          ≤ (leafList (ATree.node f (c0 :: cs))).length :=
        leafListL_length_le (c0 :: cs) c hc
      omega

mutual
/-- `initA` preserves the leaf structure. -/
theorem leafList_initA : ∀ (t : ATree), leafList (initA t) = leafList t
  | .node f [] => rfl
  | .node f (c :: cs) => by
    show leafListL (initL (c :: cs)) = leafListL (c :: cs)
    exact leafListL_initL (c :: cs)
theorem leafListL_initL : ∀ (ch : List ATree),
    leafListL (initL ch) = leafListL ch
  | [] => rfl
  | c :: cs => by
    show leafList (initA c) ++ leafListL (initL cs) = _
    rw [leafList_initA c, leafListL_initL cs]
    rfl
end

theorem initA_sub : ∀ (t : ATree),
    (initA t).f.sub = ((leafList t).length : Int) := by
  intro t
  induction t using ATree.ind with
  | h f ch ihc =>
    rcases ch with _ | ⟨c0, cs⟩
    · rfl
    · show subSum (initL (c0 :: cs)) = ((leafListL (c0 :: cs)).length : Int)
      unfold subSum
      have hgen : ∀ (ch' : List ATree), (∀ c ∈ ch', c ∈ c0 :: cs) →
          ∀ (s : Int), (initL ch').foldl (fun s c => s + c.f.sub) s
            = s + ((leafListL ch').length : Int) := by
        intro ch'
        induction ch' with
        | nil =>
          intro _ s
          show s = s + ((0 : Nat) : Int)
          omega
        | cons a as iha =>
          intro hsub s
          show (initL as).foldl (fun s c => s + c.f.sub) (s + (initA a).f.sub)
              = s + (((leafList a ++ leafListL as)).length : Int)
          rw [ihc a (hsub a (List.mem_cons_self a as)),
             iha (fun c hc => hsub c (List.mem_cons_of_mem a hc))]
          rw [List.length_append]
          push_cast
          ring
      have := hgen (c0 :: cs) (fun c hc => hc) 0
      rw [this]
      omega

mutual
theorem freshA_initA : ∀ (t : ATree), freshA (initA t) = true
  | .node f [] => by
    show (freshF { f with
        sub := 1, d_lazy := 1, d_max := 1, d_min := 1, diff := 0,
        incl := [], excl := [] } && freshL []) = true
    rw [Bool.and_eq_true]
    exact ⟨by simp [freshF], rfl⟩
  | .node f (c :: cs) => by
    show (freshF { f with
        sub := subSum (initL (c :: cs)), d_lazy := subSum (initL (c :: cs)),
        d_max := subSum (initL (c :: cs)), d_min := 1, diff := 0,
        incl := [], excl := [] } && freshL (initL (c :: cs))) = true
    rw [Bool.and_eq_true]
    exact ⟨by simp [freshF], freshL_initL (c :: cs)⟩
theorem freshL_initL : ∀ (ch : List ATree), freshL (initL ch) = true
  | [] => rfl
  | c :: cs => by
    show (freshA (initA c) && freshL (initL cs)) = true
    rw [Bool.and_eq_true]
    exact ⟨freshA_initA c, freshL_initL cs⟩
end

theorem initA_inv : ∀ (t : ATree), (leafList t).Nodup →
    InvAt ∅ 0 (initA t) := by
  intro t
  induction t using ATree.ind with
  | h f ch ihc =>
    intro hN
    have hNi : (leafList (initA (ATree.node f ch))).Nodup := by
      rw [leafList_initA]
      exact hN
    have hmin := minTD_empty (initA (ATree.node f ch)) hNi
    have hmax := maxTD_empty (initA (ATree.node f ch)) hNi
    have hsub := initA_sub (ATree.node f ch)
    have hlen : tdist ∅ (leafList (initA (ATree.node f ch)))
        = ((leafList (ATree.node f ch)).length : Int) := by
      rw [leafList_initA]
      exact tdist_empty _ hN
    rcases ch with _ | ⟨c0, cs⟩
    · refine ⟨?_, ?_, ?_, trivial⟩
      · show (1 : Int) + (0 + 0) = tdist ∅ (leafList (initA (ATree.node f [])))
        rw [hlen]
        rfl
      · show (1 : Int) + (0 + 0) = minTD ∅ (initA (ATree.node f []))
        rw [hmin]
        rfl
      · show (1 : Int) + (0 + 0) = maxTD ∅ (initA (ATree.node f []))
        rw [hmax, leafList_initA]
        rfl
    · have hsub' : subSum (initL (c0 :: cs))
          = ((leafList (ATree.node f (c0 :: cs))).length : Int) := hsub
      refine ⟨?_, ?_, ?_, ?_⟩
      · show subSum (initL (c0 :: cs)) + (0 + 0)
            = tdist ∅ (leafList (initA (ATree.node f (c0 :: cs))))
        rw [hlen, hsub']
        ring
      · show (1 : Int) + (0 + 0) = minTD ∅ (initA (ATree.node f (c0 :: cs)))
        rw [hmin]
        ring
      · show subSum (initL (c0 :: cs)) + (0 + 0)
            = maxTD ∅ (initA (ATree.node f (c0 :: cs)))
        rw [hmax, leafList_initA, hsub']
        ring
      · show InvL ∅ (0 + 0) (initL (c0 :: cs))
        have hgen : ∀ (ch' : List ATree), (∀ c ∈ ch', c ∈ c0 :: cs) →
            InvL ∅ (0 + 0) (initL ch') := by
          intro ch'
          induction ch' with
          | nil => intro _; exact trivial
          | cons a as iha =>
            intro hsubm
            refine ⟨?_, iha (fun c hc => hsubm c (List.mem_cons_of_mem a hc))⟩
            have hNa : (leafList a).Nodup :=
              leafListL_nodup_child (c0 :: cs) hN a
                (hsubm a (List.mem_cons_self a as))
            exact InvAt_congr_e _ _
              (ihc a (hsubm a (List.mem_cons_self a as)) hNa) (by ring)
        exact hgen (c0 :: cs) (fun c hc => hc)

/-! ### The invariant along a chain of `add_leaf` calls. -/
theorem addGo_root_diff (g : Bool) (x : Nat) (a : Int) (π : Pos) (t : ATree) :
    (addGo g x a π t).f.diff = 0 := by
  rcases π with _ | ⟨j, p⟩ <;> rcases t with ⟨f, ch⟩ <;> rfl

theorem addChain_root_diff (g : Bool) : ∀ (ps : List Pos) (t : ATree),
    t.f.diff = 0 → (addChain g ps t).f.diff = 0 := by
  intro ps
  induction ps with
  | nil => intro t h; exact h
  | cons p ps ih =>
    intro t h
    exact ih _ (addGo_root_diff g (nmAt t p) 0 p t)

theorem leafList_addChain (g : Bool) : ∀ (ps : List Pos) (t : ATree),
    leafList (addChain g ps t) = leafList t := by
  intro ps
  induction ps with
  | nil => intro t; rfl
  | cons p ps ih =>
    intro t
    rw [show addChain g (p :: ps) t
        = addChain g ps (addGo g (nmAt t p) 0 p t) from rfl, ih,
       leafList_addGo]

theorem minTD_addChain (B : Finset ℕ) (g : Bool) : ∀ (ps : List Pos)
    (t : ATree), minTD B (addChain g ps t) = minTD B t := by
  intro ps
  induction ps with
  | nil => intro t; rfl
  | cons p ps ih =>
    intro t
    rw [show addChain g (p :: ps) t
        = addChain g ps (addGo g (nmAt t p) 0 p t) from rfl, ih, minTD_addGo]

theorem maxTD_addChain (B : Finset ℕ) (g : Bool) : ∀ (ps : List Pos)
    (t : ATree), maxTD B (addChain g ps t) = maxTD B t := by
  intro ps
  induction ps with
  | nil => intro t; rfl
  | cons p ps ih =>
    intro t
    rw [show addChain g (p :: ps) t
        = addChain g ps (addGo g (nmAt t p) 0 p t) from rfl, ih, maxTD_addGo]

theorem nmAt_of_stView {t1 t2 : ATree} {q : Pos}
    (h : stView t1 q = stView t2 q) : nmAt t1 q = nmAt t2 q := by
  unfold stView obsV at h
  unfold nmAt
  rcases h1 : getA q t1 with _ | c1 <;> rcases h2 : getA q t2 with _ | c2 <;>
      rw [h1, h2] at h
  · simp at h
  · simp at h
  · simp only [Option.map_some', Option.some.injEq, Prod.mk.injEq] at h
    exact h.1

theorem InvAt_congr_A {A1 A2 : Finset ℕ} (e : Int) (t : ATree)
    (h : InvAt A1 e t) (hA : A1 = A2) : InvAt A2 e t := hA ▸ h

theorem isLeafAt_name {t : ATree} {p : Pos} (h : isLeafAt t p = true) :
    ∃ c, getA p t = some c ∧ c.ch = [] ∧ c.f.name = nmAt t p := by
  unfold isLeafAt at h
  rcases hc : getA p t with _ | c
  · rw [hc] at h
    cases h
  · rw [hc] at h
    refine ⟨c, rfl, List.isEmpty_iff.1 h, ?_⟩
    unfold nmAt
    rw [hc]

/-- Adding a list of fresh distinct leaves maintains the invariant, with
the added names joining `A`. -/
theorem addChain_inv (g : Bool) : ∀ (ps : List Pos) (t : ATree)
    (A : Finset ℕ),
    InvAt A 0 t → (leafList t).Nodup →
    (∀ p ∈ ps, isLeafAt t p = true) →
    (∀ p ∈ ps, nmAt t p ∉ A) →
    (ps.map (fun p => nmAt t p)).Nodup →
    InvAt (A ∪ (ps.map (fun p => nmAt t p)).toFinset) 0 (addChain g ps t) := by
  intro ps
  induction ps with
  | nil =>
    intro t A hI _ _ _ _
    exact InvAt_congr_A 0 t hI (by simp)
  | cons p ps ih =>
    intro t A hI hN hleaf hnotin hnodup
    rcases isLeafAt_name (hleaf p (List.mem_cons_self p ps)) with ⟨lf, hg, hlf, hnm⟩
    have hstep : InvAt (insert (nmAt t p) A) 0 (addGo g (nmAt t p) 0 p t) :=
      addGo_inv g (nmAt t p) p t A 0 lf hI hg hlf hnm
        (hnotin p (List.mem_cons_self p ps)) hN
    have hN1 : (leafList (addGo g (nmAt t p) 0 p t)).Nodup := by
      rw [leafList_addGo]
      exact hN
    have hst1 : ∀ q, stView (addGo g (nmAt t p) 0 p t) q = stView t q :=
      fun q => addGo_st g (nmAt t p) p 0 t q
    have hleaf1 : ∀ p' ∈ ps, isLeafAt (addGo g (nmAt t p) 0 p t) p' = true :=
      fun p' hp' =>
        leaf_transfer (hst1 p') (hleaf p' (List.mem_cons_of_mem p hp'))
    have hnm1 : ∀ p', nmAt (addGo g (nmAt t p) 0 p t) p' = nmAt t p' :=
      fun p' => nmAt_of_stView (hst1 p')
    have hnodup' := hnodup
    rw [show (p :: ps).map (fun p' => nmAt t p')
        = nmAt t p :: ps.map (fun p' => nmAt t p') from rfl,
       List.nodup_cons] at hnodup'
    have hnotin1 : ∀ p' ∈ ps,
        nmAt (addGo g (nmAt t p) 0 p t) p' ∉ insert (nmAt t p) A := by
      intro p' hp' hmem
      rw [hnm1 p'] at hmem
      rcases Finset.mem_insert.1 hmem with h | h
      · exact hnodup'.1 (h ▸ List.mem_map_of_mem (fun p'' => nmAt t p'') hp')
      · exact hnotin p' (List.mem_cons_of_mem p hp') h
    have hnodup1 : (ps.map (fun p' => nmAt (addGo g (nmAt t p) 0 p t) p')).Nodup := by
      rw [show ps.map (fun p' => nmAt (addGo g (nmAt t p) 0 p t) p')
          = ps.map (fun p' => nmAt t p') from List.map_congr_left
            (fun p' _ => hnm1 p')]
      exact hnodup'.2
    have hrec := ih (addGo g (nmAt t p) 0 p t) (insert (nmAt t p) A)
      hstep hN1 hleaf1 hnotin1 hnodup1
    refine InvAt_congr_A _ _ hrec ?_
    rw [show ps.map (fun p' => nmAt (addGo g (nmAt t p) 0 p t) p')
        = ps.map (fun p' => nmAt t p') from List.map_congr_left
          (fun p' _ => hnm1 p')]
    ext y
    simp [Finset.mem_insert, Finset.mem_union, List.mem_toFinset]

/-! ### The reference-tree leaf table (`tree->leaves`), binary shape, and
the leaf bijection. -/
theorem getA_append : ∀ (p q : Pos) (t : ATree),
    getA (p ++ q) t = (getA p t).bind (getA q) := by
  intro p
  induction p with
  | nil => intro q t; rfl
  | cons j p ih =>
    intro q t
    rcases t with ⟨f, ch⟩
    show (ch[j]?).bind (getA (p ++ q)) = ((ch[j]?).bind (getA p)).bind (getA q)
    rcases hc : ch[j]? with _ | c
    · rfl
    · show getA (p ++ q) c = (getA p c).bind (getA q)
      exact ih q c

theorem leafPNL_mem_ex : ∀ (ch : List ATree) (k : Nat) (p : Pos) (nm : ℕ),
    (p, nm) ∈ leafPNL k ch →
    ∃ i q ci, p = (k + i) :: q ∧ ch[i]? = some ci ∧ (q, nm) ∈ leafPN ci := by
  intro ch
  induction ch with
  | nil => intro k p nm h; cases h
  | cons c cs ih =>
    intro k p nm h
    rcases List.mem_append.1 h with h1 | h1
    · rcases List.mem_map.1 h1 with ⟨⟨q, nm'⟩, hq, hpe⟩
      refine ⟨0, q, c, ?_, by simp, ?_⟩
      · have hp : (k :: q : Pos) = p := congrArg Prod.fst hpe
        rw [← hp]
        rfl
      · have hn : nm' = nm := congrArg Prod.snd hpe
        exact hn ▸ hq
    · rcases ih (k + 1) p nm h1 with ⟨i, q, ci, hpe, hci, hq⟩
      refine ⟨i + 1, q, ci, ?_, by simpa using hci, hq⟩
      rw [hpe]
      congr 1
      omega

theorem leafPNL_mem_intro : ∀ (ch : List ATree) (k i : Nat) (ci : ATree)
    (q : Pos) (nm : ℕ), ch[i]? = some ci → (q, nm) ∈ leafPN ci →
    ((k + i) :: q, nm) ∈ leafPNL k ch := by
  intro ch
  induction ch with
  | nil => intro k i ci q nm hci; simp at hci
  | cons c cs ih =>
    intro k i ci q nm hci hq
    rcases i with _ | i
    · have hc : c = ci := by simpa using hci
      subst hc
      exact List.mem_append.2 (Or.inl (List.mem_map.2 ⟨(q, nm), hq, rfl⟩))
    · have hstep := ih (k + 1) i ci q nm (by simpa using hci) hq
      refine List.mem_append.2 (Or.inr ?_)
      rwa [show k + 1 + i = k + (i + 1) from by omega] at hstep

theorem leafPN_leaf : ∀ (t : ATree) (p : Pos) (nm : ℕ),
    (p, nm) ∈ leafPN t → ∃ c, getA p t = some c ∧ c.ch = [] ∧ c.f.name = nm := by
  intro t
  induction t using ATree.ind with
  | h f ch ihc =>
    intro p nm hm
    rcases ch with _ | ⟨c0, cs⟩
    · have : (p, nm) = ([], f.name) := List.mem_singleton.1 hm
      have hp : p = [] := congrArg Prod.fst this
      have hn : nm = f.name := congrArg Prod.snd this
      subst hp
      exact ⟨ATree.node f [], rfl, rfl, hn.symm⟩
    · rcases leafPNL_mem_ex (c0 :: cs) 0 p nm hm with ⟨i, q, ci, hpe, hci, hq⟩
      have hcm : ci ∈ c0 :: cs := by
        rcases List.getElem?_eq_some.1 hci with ⟨hi, hv⟩
        exact hv ▸ List.getElem_mem hi
      rcases ihc ci hcm q nm hq with ⟨c, hg, hch, hnm⟩
      refine ⟨c, ?_, hch, hnm⟩
      rw [hpe, show (0 : Nat) + i = i from by omega]
      show ((c0 :: cs)[i]?).bind (getA q) = some c
      rw [hci]
      exact hg

theorem leafPN_append_intro : ∀ (p : Pos) (t u : ATree) (r : Pos) (nm : ℕ),
    getA p t = some u → (r, nm) ∈ leafPN u → (p ++ r, nm) ∈ leafPN t := by
  intro p
  induction p with
  | nil =>
    intro t u r nm hg hm
    have : t = u := Option.some.inj hg
    subst this
    exact hm
  | cons j p ih =>
    intro t u r nm hg hm
    rcases t with ⟨f, ch⟩
    rw [show getA (j :: p) (ATree.node f ch) = (ch[j]?).bind (getA p)
        from rfl] at hg
    rcases hc : ch[j]? with _ | cj
    · rw [hc] at hg
      cases hg
    · rw [hc] at hg
      have hin : (p ++ r, nm) ∈ leafPN cj := ih cj u r nm hg hm
      rcases ch with _ | ⟨c0, cs⟩
      · simp at hc
      · have := leafPNL_mem_intro (c0 :: cs) 0 j cj (p ++ r) nm hc hin
        rwa [show (0 : Nat) + j = j from by omega] at this

theorem leafPN_names : ∀ (t : ATree),
    (leafPN t).map (fun x => x.2) = leafList t := by
  intro t
  induction t using ATree.ind with
  | h f ch ihc =>
    rcases ch with _ | ⟨c0, cs⟩
    · rfl
    · show (leafPNL 0 (c0 :: cs)).map (fun x => x.2) = leafListL (c0 :: cs)
      have hgen : ∀ (ch' : List ATree), (∀ c ∈ ch', c ∈ c0 :: cs) →
          ∀ (k : Nat), (leafPNL k ch').map (fun x => x.2) = leafListL ch' := by
        intro ch'
        induction ch' with
        | nil => intro _ k; rfl
        | cons a as iha =>
          intro hsub k
          show (((leafPN a).map (fun q => (k :: q.1, q.2))
              ++ leafPNL (k + 1) as).map (fun x => x.2))
              = leafList a ++ leafListL as
          rw [List.map_append, List.map_map,
             show ((fun x => x.2) ∘ (fun (q : Pos × ℕ) =>
               ((k :: q.1 : Pos), q.2))) = (fun (x : Pos × ℕ) => x.2)
               from rfl,
             ihc a (hsub a (List.mem_cons_self a as)),
             iha (fun c hc => hsub c (List.mem_cons_of_mem a hc)) (k + 1)]
      exact hgen (c0 :: cs) (fun c hc => hc) 0

theorem leafPNL_names (ch : List ATree) : ∀ (k : Nat),
    (leafPNL k ch).map (fun x => x.2) = leafListL ch := by
  induction ch with
  | nil => intro k; rfl
  | cons a as iha =>
    intro k
    show (((leafPN a).map (fun q => (k :: q.1, q.2))
        ++ leafPNL (k + 1) as).map (fun x => x.2))
        = leafList a ++ leafListL as
    rw [List.map_append, List.map_map,
       show ((fun x => x.2) ∘ (fun (q : Pos × ℕ) =>
         ((k :: q.1 : Pos), q.2))) = (fun (x : Pos × ℕ) => x.2) from rfl,
       leafPN_names a, iha (k + 1)]

theorem leafPN_pos_nodup : ∀ (t : ATree), ((leafPN t).map (fun x => x.1)).Nodup := by
  intro t
  induction t using ATree.ind with
  | h f ch ihc =>
    rcases ch with _ | ⟨c0, cs⟩
    · show ((([(([] : Pos), f.name)]) : List (Pos × ℕ)).map (fun x => x.1)).Nodup
      simp
    · show ((leafPNL 0 (c0 :: cs)).map (fun x => x.1)).Nodup
      have hgen : ∀ (ch' : List ATree), (∀ c ∈ ch', c ∈ c0 :: cs) →
          ∀ (k : Nat), ((leafPNL k ch').map (fun x => x.1)).Nodup := by
        intro ch'
        induction ch' with
        | nil =>
          intro _ k
          exact List.nodup_nil
        | cons a as iha =>
          intro hsub k
          show (((leafPN a).map (fun q => (k :: q.1, q.2))
              ++ leafPNL (k + 1) as).map (fun x => x.1)).Nodup
          rw [List.map_append, List.map_map]
          rw [List.nodup_append]
          refine ⟨?_, iha (fun c hc => hsub c (List.mem_cons_of_mem a hc)) (k + 1), ?_⟩
          · rw [show ((fun x => x.1) ∘ (fun (q : Pos × ℕ) =>
                ((k :: q.1 : Pos), q.2))) = (fun (q : Pos × ℕ) => k :: q.1)
                from rfl]
            rw [show (fun (q : Pos × ℕ) => (k :: q.1 : Pos))
                = (fun (r : Pos) => (k :: r : Pos)) ∘ (fun (q : Pos × ℕ) => q.1)
                from rfl]
            rw [← List.map_map]
            refine List.Nodup.map ?_ (ihc a (hsub a (List.mem_cons_self a as)))
            intro q1 q2 hq
            injection hq
          · intro y hy1 hy2
            rcases List.mem_map.1 hy1 with ⟨x, -, hx⟩
            rcases List.mem_map.1 hy2 with ⟨z, hz, hzy⟩
            rcases leafPNL_mem_ex as (k + 1) z.1 z.2 (by
              rcases z with ⟨z1, z2⟩
              exact hz) with ⟨i, q, ci, hpe, -, -⟩
            rw [← hx] at hzy
            rw [hpe] at hzy
            have hcon : k + 1 + i = k := by
              have := congrArg (fun (l : Pos) => l.headI) hzy
              simpa using this
            omega
      exact hgen (c0 :: cs) (fun c hc => hc) 0

theorem binaryL_get : ∀ (ch : List ATree), binaryL ch = true →
    ∀ (i : Nat) (c : ATree), ch[i]? = some c → binaryA c = true := by
  intro ch
  induction ch with
  | nil => intro _ i c hc; simp at hc
  | cons a as ih =>
    intro h i c hc
    rw [show binaryL (a :: as) = (binaryA a && binaryL as) from rfl,
       Bool.and_eq_true] at h
    rcases i with _ | i
    · have : a = c := by simpa using hc
      exact this ▸ h.1
    · exact ih h.2 i c (by simpa using hc)

theorem binary_getA : ∀ (p : Pos) (t u : ATree), getA p t = some u →
    binaryA t = true → binaryA u = true := by
  intro p
  induction p with
  | nil =>
    intro t u hg hb
    have : t = u := Option.some.inj hg
    exact this ▸ hb
  | cons j p ih =>
    intro t u hg hb
    rcases t with ⟨f, ch⟩
    rw [show getA (j :: p) (ATree.node f ch) = (ch[j]?).bind (getA p)
        from rfl] at hg
    rcases hc : ch[j]? with _ | cj
    · rw [hc] at hg
      cases hg
    · rw [hc] at hg
      rw [show binaryA (ATree.node f ch)
          = ((ch.isEmpty || ch.length == 2) && binaryL ch) from rfl,
         Bool.and_eq_true] at hb
      exact ih cj u hg (binaryL_get ch hb.2 j cj hc)

theorem binary_shape {f : NFields} {ch : List ATree}
    (h : binaryA (.node f ch) = true) : ch = [] ∨ ∃ a b, ch = [a, b] := by
  rw [show binaryA (ATree.node f ch)
      = ((ch.isEmpty || ch.length == 2) && binaryL ch) from rfl,
     Bool.and_eq_true, Bool.or_eq_true] at h
  rcases h.1 with h1 | h1
  · exact Or.inl (List.isEmpty_iff.1 h1)
  · right
    have hlen : ch.length = 2 := by
      have h2 := h1
      rwa [beq_iff_eq] at h2
    rcases ch with _ | ⟨a, _ | ⟨b, _ | ⟨c, r⟩⟩⟩
    · simp at hlen
    · simp at hlen
    · exact ⟨a, b, rfl⟩
    · simp at hlen

theorem nodup_getA : ∀ (p : Pos) (t u : ATree), getA p t = some u →
    (leafList t).Nodup → (leafList u).Nodup := by
  intro p
  induction p with
  | nil =>
    intro t u hg hN
    have : t = u := Option.some.inj hg
    exact this ▸ hN
  | cons j p ih =>
    intro t u hg hN
    rcases t with ⟨f, ch⟩
    rw [show getA (j :: p) (ATree.node f ch) = (ch[j]?).bind (getA p)
        from rfl] at hg
    rcases hc : ch[j]? with _ | cj
    · rw [hc] at hg
      cases hg
    · rw [hc] at hg
      rcases ch with _ | ⟨c0, cs⟩
      · simp at hc
      · have hcm : cj ∈ c0 :: cs := by
          rcases List.getElem?_eq_some.1 hc with ⟨hi, hv⟩
          exact hv ▸ List.getElem_mem hi
        exact ih cj u hg (leafListL_nodup_child (c0 :: cs) hN cj hcm)

theorem leafList_getA_subset : ∀ (p : Pos) (t u : ATree),
    getA p t = some u → ∀ y ∈ leafList u, y ∈ leafList t := by
  intro p
  induction p with
  | nil =>
    intro t u hg y hy
    have : t = u := Option.some.inj hg
    exact this ▸ hy
  | cons j p ih =>
    intro t u hg y hy
    rcases t with ⟨f, ch⟩
    rw [show getA (j :: p) (ATree.node f ch) = (ch[j]?).bind (getA p)
        from rfl] at hg
    rcases hc : ch[j]? with _ | cj
    · rw [hc] at hg
      cases hg
    · rw [hc] at hg
      rcases ch with _ | ⟨c0, cs⟩
      · simp at hc
      · have hcm : cj ∈ c0 :: cs := by
          rcases List.getElem?_eq_some.1 hc with ⟨hi, hv⟩
          exact hv ▸ List.getElem_mem hi
        exact leafListL_mem (c0 :: cs) cj hcm y (ih cj u hg y hy)

theorem leafPosIn_eq : ∀ (c : ATree), binaryA c = true →
    leafPosIn c = (leafPN c).map (fun x => x.1) := by
  intro c
  induction c using ATree.ind with
  | h f ch ihc =>
    intro hb
    rcases binary_shape hb with hch | ⟨a, b, hch⟩
    · subst hch
      rfl
    · subst hch
      rw [show binaryA (ATree.node f [a, b])
          = ((([a, b] : List ATree).isEmpty || ([a, b] : List ATree).length == 2)
            && binaryL [a, b]) from rfl, Bool.and_eq_true] at hb
      have hba : binaryA a = true := binaryL_get [a, b] hb.2 0 a (by simp)
      have hbb : binaryA b = true := binaryL_get [a, b] hb.2 1 b (by simp)
      show (leafPosIn a).map (fun q => 0 :: q)
          ++ (leafPosIn b).map (fun q => 1 :: q)
        = (leafPNL 0 [a, b]).map (fun x => x.1)
      rw [ihc a (List.mem_cons_self a [b]) hba,
         ihc b (by simp) hbb]
      show ((leafPN a).map (fun x => x.1)).map (fun q => 0 :: q)
          ++ ((leafPN b).map (fun x => x.1)).map (fun q => 1 :: q)
        = (((leafPN a).map (fun (q : Pos × ℕ) => (((0 : Nat) :: q.1 : Pos), q.2)))
           ++ ((leafPN b).map (fun (q : Pos × ℕ) => (((1 : Nat) :: q.1 : Pos), q.2)) ++ [])).map
            (fun (x : Pos × ℕ) => x.1)
      rw [List.append_nil, List.map_append, List.map_map, List.map_map,
         List.map_map, List.map_map]
      rfl

theorem heavyChildIdx_binary (a b : ATree) :
    heavyChildIdx [a, b] = some (if a.f.sub < b.f.sub then 1 else 0) := rfl

theorem lightPossOf_binary_hi (f : NFields) (a b : ATree)
    (h : a.f.sub < b.f.sub) :
    lightPossOf (ATree.node f [a, b]) = (leafPosIn a).map (fun q => 0 :: q) := by
  unfold lightPossOf
  rw [show (ATree.node f [a, b]).ch = [a, b] from rfl, heavyChildIdx_binary,
     if_pos h]
  show (List.range 2).flatMap (fun i =>
      if i = 1 then []
      else match ([a, b] : List ATree)[i]? with
           | some c => (leafPosIn c).map (fun q => i :: q)
           | none => []) = (leafPosIn a).map (fun q => 0 :: q)
  rw [show List.range 2 = [0, 1] from by decide]
  simp

theorem lightPossOf_binary_lo (f : NFields) (a b : ATree)
    (h : ¬ a.f.sub < b.f.sub) :
    lightPossOf (ATree.node f [a, b]) = (leafPosIn b).map (fun q => 1 :: q) := by
  unfold lightPossOf
  rw [show (ATree.node f [a, b]).ch = [a, b] from rfl, heavyChildIdx_binary,
     if_neg h]
  show (List.range 2).flatMap (fun i =>
      if i = 0 then []
      else match ([a, b] : List ATree)[i]? with
           | some c => (leafPosIn c).map (fun q => i :: q)
           | none => []) = (leafPosIn b).map (fun q => 1 :: q)
  rw [show List.range 2 = [0, 1] from by decide]
  simp

theorem stepAdds_ok (ref : ATree) (p : Pos) (u : ATree)
    (hg : getA p ref = some u) : stepAdds ref p = Except.ok (stepPoss u p) := by
  unfold stepAdds getE stepPoss
  rw [hg]
  rfl

theorem nmAt_of_leafPN {t : ATree} {p : Pos} {nm : ℕ}
    (h : (p, nm) ∈ leafPN t) : nmAt t p = nm := by
  rcases leafPN_leaf t p nm h with ⟨c, hg, -, hnm⟩
  unfold nmAt
  rw [hg]
  exact hnm

theorem nmAt_compose {t u : ATree} {p : Pos} (r : Pos)
    (hg : getA p t = some u) : nmAt t (p ++ r) = nmAt u r := by
  unfold nmAt
  rw [getA_append, hg]
  rfl

theorem nmAt_child {u c : ATree} {i : Nat} (r : Pos)
    (hc : u.ch[i]? = some c) : nmAt u (i :: r) = nmAt c r := by
  unfold nmAt
  rcases u with ⟨f, ch⟩
  have hc' : ch[i]? = some c := hc
  rw [show getA (i :: r) (ATree.node f ch) = (ch[i]?).bind (getA r) from rfl,
     hc']
  rfl

theorem stepPoss_leaf_case (ref : ATree) (p : Pos) (fu : NFields)
    (hg : getA p ref = some (.node fu [])) :
    stepPoss (.node fu []) p = [p] ∧ (p, fu.name) ∈ leafPN ref ∧
    nmAt ref p = fu.name := by
  refine ⟨rfl, ?_, ?_⟩
  · have h1 : (([] : Pos), fu.name) ∈ leafPN (ATree.node fu []) :=
      List.mem_singleton.2 rfl
    have h2 := leafPN_append_intro p ref _ [] fu.name hg h1
    rwa [List.append_nil] at h2
  · unfold nmAt
    rw [hg]
    rfl

theorem stepPoss_internal_hi (ref : ATree) (p : Pos) (f2 : NFields)
    (a b : ATree) (hg : getA p ref = some (.node f2 [a, b]))
    (hbin : binaryA ref = true) (hab : a.f.sub < b.f.sub) :
    ((stepPoss (.node f2 [a, b]) p).map (fun p' => nmAt ref p') = leafList a) ∧
    (∀ p' ∈ stepPoss (.node f2 [a, b]) p, (p', nmAt ref p') ∈ leafPN ref) := by
  have hbu : binaryA (.node f2 [a, b]) = true := binary_getA p ref _ hg hbin
  have hba : binaryA a = true := by
    rw [show binaryA (ATree.node f2 [a, b])
        = ((([a, b] : List ATree).isEmpty || ([a, b] : List ATree).length == 2)
          && binaryL [a, b]) from rfl, Bool.and_eq_true] at hbu
    exact binaryL_get [a, b] hbu.2 0 a (by simp)
  have hsp : stepPoss (.node f2 [a, b]) p
      = ((leafPN a).map (fun x => p ++ (0 :: x.1))) := by
    unfold stepPoss
    rw [if_neg (by simp [ATree.ch])]
    rw [lightPossOf_binary_hi f2 a b hab, leafPosIn_eq a hba, List.map_map,
       List.map_map]
    rfl
  constructor
  · rw [hsp, List.map_map]
    rw [show ((fun p' => nmAt ref p') ∘ (fun (x : Pos × ℕ) => p ++ (0 :: x.1)))
        = (fun (x : Pos × ℕ) => nmAt ref (p ++ (0 :: x.1))) from rfl,
       ← leafPN_names a]
    apply List.map_congr_left
    intro x hx
    rw [nmAt_compose _ hg,
       nmAt_child _ (show (ATree.node f2 [a, b]).ch[0]? = some a from by simp [ATree.ch])]
    exact nmAt_of_leafPN hx
  · intro p' hp'
    rw [hsp] at hp'
    rcases List.mem_map.1 hp' with ⟨x, hx, hpe⟩
    have h1 : ((0 : Nat) :: x.1, x.2) ∈ leafPN (ATree.node f2 [a, b]) := by
      have := leafPNL_mem_intro [a, b] 0 0 a x.1 x.2 (by simp) hx
      simpa using this
    have h2 := leafPN_append_intro p ref _ _ _ hg h1
    rw [← hpe]
    rw [nmAt_of_leafPN h2]
    exact h2

theorem stepPoss_internal_lo (ref : ATree) (p : Pos) (f2 : NFields)
    (a b : ATree) (hg : getA p ref = some (.node f2 [a, b]))
    (hbin : binaryA ref = true) (hab : ¬ a.f.sub < b.f.sub) :
    ((stepPoss (.node f2 [a, b]) p).map (fun p' => nmAt ref p') = leafList b) ∧
    (∀ p' ∈ stepPoss (.node f2 [a, b]) p, (p', nmAt ref p') ∈ leafPN ref) := by
  have hbu : binaryA (.node f2 [a, b]) = true := binary_getA p ref _ hg hbin
  have hbb : binaryA b = true := by
    rw [show binaryA (ATree.node f2 [a, b])
        = ((([a, b] : List ATree).isEmpty || ([a, b] : List ATree).length == 2)
          && binaryL [a, b]) from rfl, Bool.and_eq_true] at hbu
    exact binaryL_get [a, b] hbu.2 1 b (by simp)
  have hsp : stepPoss (.node f2 [a, b]) p
      = ((leafPN b).map (fun x => p ++ (1 :: x.1))) := by
    unfold stepPoss
    rw [if_neg (by simp [ATree.ch])]
    rw [lightPossOf_binary_lo f2 a b hab, leafPosIn_eq b hbb, List.map_map,
       List.map_map]
    rfl
  constructor
  · rw [hsp, List.map_map]
    rw [show ((fun p' => nmAt ref p') ∘ (fun (x : Pos × ℕ) => p ++ (1 :: x.1)))
        = (fun (x : Pos × ℕ) => nmAt ref (p ++ (1 :: x.1))) from rfl,
       ← leafPN_names b]
    apply List.map_congr_left
    intro x hx
    rw [nmAt_compose _ hg,
       nmAt_child _ (show (ATree.node f2 [a, b]).ch[1]? = some b from by simp [ATree.ch])]
    exact nmAt_of_leafPN hx
  · intro p' hp'
    rw [hsp] at hp'
    rcases List.mem_map.1 hp' with ⟨x, hx, hpe⟩
    have h1 : ((1 : Nat) :: x.1, x.2) ∈ leafPN (ATree.node f2 [a, b]) := by
      have := leafPNL_mem_intro [a, b] 0 1 b x.1 x.2 (by simp) hx
      simpa using this
    have h2 := leafPN_append_intro p ref _ _ _ hg h1
    rw [← hpe]
    rw [nmAt_of_leafPN h2]
    exact h2

theorem insByName_perm (x : Pos × Nat) : ∀ (l : List (Pos × Nat)),
    (insByName x l).Perm (x :: l) := by
  intro l
  induction l with
  | nil => exact List.Perm.refl _
  | cons y ys ih =>
    show (if x.2 ≤ y.2 then x :: y :: ys else y :: insByName x ys).Perm
        (x :: y :: ys)
    by_cases h : x.2 ≤ y.2
    · rw [if_pos h]
    · rw [if_neg h]
      exact (ih.cons y).trans (List.Perm.swap x y ys)

theorem sortByName_perm : ∀ (l : List (Pos × Nat)), (sortByName l).Perm l := by
  intro l
  induction l with
  | nil => exact List.Perm.refl _
  | cons x xs ih =>
    show (insByName x (sortByName xs)).Perm (x :: xs)
    exact (insByName_perm x (sortByName xs)).trans (ih.cons x)

theorem zip_lookup : ∀ (l1 l2 : List Pos) (i : Nat) (p : Pos),
    l1.Nodup → l1[i]? = some p → i < l2.length →
    ∃ q, l2[i]? = some q ∧
      (l1.zip l2).find? (fun r => r.1 == p) = some (p, q) := by
  intro l1
  induction l1 with
  | nil => intro l2 i p _ hp; simp at hp
  | cons a l1 ih =>
    intro l2 i p hN hp hlen
    rcases l2 with _ | ⟨b, l2⟩
    · simp at hlen
    · rcases i with _ | i
      · have hap : a = p := by simpa using hp
        subst hap
        refine ⟨b, by simp, ?_⟩
        show ((a, b) :: l1.zip l2).find? (fun r => r.1 == a) = some (a, b)
        exact List.find?_cons_of_pos _ (by simp)
      · have hp' : l1[i]? = some p := by simpa using hp
        have hN' := List.nodup_cons.1 hN
        have hlen' : i < l2.length := by simpa using hlen
        rcases ih l2 i p hN'.2 hp' hlen' with ⟨q, hq, hfind⟩
        have hmem : p ∈ l1 := by
          rcases List.getElem?_eq_some.1 hp' with ⟨hh, hv⟩
          exact hv ▸ List.getElem_mem hh
        refine ⟨q, by simpa using hq, ?_⟩
        show ((a, b) :: l1.zip l2).find? (fun r => r.1 == p) = some (p, q)
        rw [List.find?_cons_of_neg _ (by
          simp only [beq_iff_eq]
          intro hap
          exact hN'.1 (hap ▸ hmem))]
        exact hfind

theorem othLook_spec (l1 l2 : List Pos) (i : Nat) (p : Pos)
    (hN : l1.Nodup) (hp : l1[i]? = some p) (hlen : i < l2.length) :
    ∃ q, l2[i]? = some q ∧ othLook (l1.zip l2) p = Except.ok q := by
  rcases zip_lookup l1 l2 i p hN hp hlen with ⟨q, hq, hfind⟩
  refine ⟨q, hq, ?_⟩
  unfold othLook
  rw [hfind]

theorem subLists_addChain (g : Bool) : ∀ (ps : List Pos) (t : ATree),
    subLists (addChain g ps t) = subLists t := by
  intro ps
  induction ps with
  | nil => intro t; rfl
  | cons p ps ih =>
    intro t
    rw [show addChain g (p :: ps) t
        = addChain g ps (addGo g (nmAt t p) 0 p t) from rfl, ih, subLists_addGo]

theorem addChain_append (g : Bool) : ∀ (l1 l2 : List Pos) (t : ATree),
    addChain g (l1 ++ l2) t = addChain g l2 (addChain g l1 t) := by
  intro l1
  induction l1 with
  | nil => intro l2 t; rfl
  | cons p l1 ih =>
    intro l2 t
    show addChain g (l1 ++ l2) (addGo g (nmAt t p) 0 p t) = _
    rw [ih]
    rfl

theorem resetChain_append (g : Bool) : ∀ (l1 l2 : List Pos) (t : ATree),
    resetChain g (l1 ++ l2) t = resetChain g l2 (resetChain g l1 t) := by
  intro l1
  induction l1 with
  | nil => intro l2 t; rfl
  | cons p l1 ih =>
    intro l2 t
    show resetChain g (l1 ++ l2) (resetGo g p t) = _
    rw [ih]
    rfl

theorem minTD_congr_struct (A : Finset ℕ) {t1 t2 : ATree}
    (h1 : subLists t1 = subLists t2) (h2 : leafList t1 = leafList t2) :
    minTD A t1 = minTD A t2 := by
  unfold minTD
  rw [h1, h2]

theorem maxTD_congr_struct (A : Finset ℕ) {t1 t2 : ATree}
    (h1 : subLists t1 = subLists t2) (h2 : leafList t1 = leafList t2) :
    maxTD A t1 = maxTD A t2 := by
  unfold maxTD
  rw [h1, h2]

theorem addLeavesB_ok (oth : List (Pos × Pos)) (othF : Pos → Pos) :
    ∀ (ps : List Pos) (t : ATree),
    (∀ p' ∈ ps, othLook oth p' = Except.ok (othF p') ∧
      isLeafAt t (othF p') = true) →
    addLeavesB oth t ps = Except.ok (addChain false (ps.map othF) t) := by
  intro ps
  induction ps with
  | nil => intro t _; rfl
  | cons p ps ih =>
    intro t h
    rcases h p (List.mem_cons_self p ps) with ⟨hok, hleaf⟩
    have hlf := hleaf
    unfold isLeafAt at hlf
    rcases hc : getA (othF p) t with _ | c
    · rw [hc] at hlf
      cases hlf
    · rw [hc] at hlf
      have hstep : add_leaf false t (othF p)
          = Except.ok (addGo false (nmAt t (othF p)) 0 (othF p) t) := by
        simp only [add_leaf, hc]
        rw [if_pos hlf]
        unfold nmAt
        rw [hc]
      have hnext : ∀ p' ∈ ps,
          othLook oth p' = Except.ok (othF p') ∧
          isLeafAt (addGo false (nmAt t (othF p)) 0 (othF p) t) (othF p') = true := by
        intro p' hp'
        refine ⟨(h p' (List.mem_cons_of_mem p hp')).1, ?_⟩
        exact leaf_transfer (addGo_st false (nmAt t (othF p)) (othF p) 0 t (othF p'))
          (h p' (List.mem_cons_of_mem p hp')).2
      rw [show addLeavesB oth t (p :: ps)
          = ((do
              let q ← othLook oth p
              add_leaf false t q) >>=
             fun st => addLeavesB oth st ps) from rfl, hok]
      show (add_leaf false t (othF p) >>= fun st => addLeavesB oth st ps)
          = Except.ok (addChain false ((p :: ps).map othF) t)
      rw [hstep]
      show addLeavesB oth (addGo false (nmAt t (othF p)) 0 (othF p) t) ps
          = Except.ok (addChain false ((p :: ps).map othF) t)
      rw [ih _ hnext]
      rfl

theorem resetLeavesB_ok (oth : List (Pos × Pos)) (othF : Pos → Pos) :
    ∀ (ps : List Pos) (t : ATree),
    (∀ p' ∈ ps, othLook oth p' = Except.ok (othF p') ∧
      isLeafAt t (othF p') = true) →
    resetLeavesB oth t ps = Except.ok (resetChain false (ps.map othF) t) := by
  intro ps
  induction ps with
  | nil => intro t _; rfl
  | cons p ps ih =>
    intro t h
    rcases h p (List.mem_cons_self p ps) with ⟨hok, hleaf⟩
    have hlf := hleaf
    unfold isLeafAt at hlf
    rcases hc : getA (othF p) t with _ | c
    · rw [hc] at hlf
      cases hlf
    · rw [hc] at hlf
      have hstep : reset_leaf false t (othF p)
          = Except.ok (resetGo false (othF p) t) := by
        simp only [reset_leaf, hc]
        rw [if_pos hlf]
      have hnext : ∀ p' ∈ ps,
          othLook oth p' = Except.ok (othF p') ∧
          isLeafAt (resetGo false (othF p) t) (othF p') = true := by
        intro p' hp'
        refine ⟨(h p' (List.mem_cons_of_mem p hp')).1, ?_⟩
        exact leaf_transfer (resetGo_static false (othF p) t (othF p'))
          (h p' (List.mem_cons_of_mem p hp')).2
      rw [show resetLeavesB oth t (p :: ps)
          = ((do
              let q ← othLook oth p
              reset_leaf false t q) >>=
             fun st => resetLeavesB oth st ps) from rfl, hok]
      show (reset_leaf false t (othF p) >>= fun st => resetLeavesB oth st ps)
          = Except.ok (resetChain false ((p :: ps).map othF) t)
      rw [hstep]
      show resetLeavesB oth (resetGo false (othF p) t) ps
          = Except.ok (resetChain false ((p :: ps).map othF) t)
      rw [ih _ hnext]
      rfl

theorem stepPoss_mem (ref : ATree) (hbin : binaryA ref = true) (p : Pos)
    (u : ATree) (hg : getA p ref = some u) :
    ∀ p' ∈ stepPoss u p, (p', nmAt ref p') ∈ leafPN ref := by
  rcases u with ⟨fu, chu⟩
  rcases binary_shape (binary_getA p ref _ hg hbin) with hch | ⟨a, b, hch⟩
  · subst hch
    rcases stepPoss_leaf_case ref p fu hg with ⟨hsp, hmem, hnm⟩
    intro p' hp'
    rw [hsp] at hp'
    have hpe : p' = p := List.mem_singleton.1 hp'
    subst hpe
    rw [hnm]
    exact hmem
  · subst hch
    by_cases hab : a.f.sub < b.f.sub
    · exact (stepPoss_internal_hi ref p fu a b hg hbin hab).2
    · exact (stepPoss_internal_lo ref p fu a b hg hbin hab).2

/-- Processing one node of the climb: add its step leaves; the resulting
state carries the invariant for the whole ref-subtree leaf set, and the
root `d_min`/`d_max` are the true min/max transfer distances. -/
theorem stepNode (ref t0a : ATree) (oth : List (Pos × Pos)) (othF : Pos → Pos)
    (hOth : ∀ p nm, (p, nm) ∈ leafPN ref →
      othLook oth p = Except.ok (othF p) ∧ isLeafAt t0a (othF p) = true ∧
      nmAt t0a (othF p) = nm)
    (hbin : binaryA ref = true) (hNa : (leafList t0a).Nodup)
    (p : Pos) (u alt : ATree) (A : Finset ℕ)
    (hg : getA p ref = some u)
    (hstat : ∀ q, stView alt q = stView t0a q)
    (hsl : subLists alt = subLists t0a) (hll : leafList alt = leafList t0a)
    (hdiff : alt.f.diff = 0) (hInv : InvAt A 0 alt)
    (hUnion : A ∪ ((stepPoss u p).map (fun p' => nmAt ref p')).toFinset
      = (leafList u).toFinset)
    (hNew : ∀ nm ∈ (stepPoss u p).map (fun p' => nmAt ref p'), nm ∉ A)
    (hNod : ((stepPoss u p).map (fun p' => nmAt ref p')).Nodup) :
    addLeavesB oth alt (stepPoss u p)
      = Except.ok (addChain false ((stepPoss u p).map othF) alt) ∧
    (∀ q' ∈ (stepPoss u p).map othF, isLeafAt t0a q' = true) ∧
    InvAt ((leafList u).toFinset) 0
      (addChain false ((stepPoss u p).map othF) alt) ∧
    (∀ q, stView (addChain false ((stepPoss u p).map othF) alt) q
      = stView t0a q) ∧
    subLists (addChain false ((stepPoss u p).map othF) alt) = subLists t0a ∧
    leafList (addChain false ((stepPoss u p).map othF) alt) = leafList t0a ∧
    (addChain false ((stepPoss u p).map othF) alt).f.diff = 0 ∧
    (addChain false ((stepPoss u p).map othF) alt).f.d_min
      = minTD ((leafList u).toFinset) t0a ∧
    (addChain false ((stepPoss u p).map othF) alt).f.d_max
      = maxTD ((leafList u).toFinset) t0a := by
  have hmem := stepPoss_mem ref hbin p u hg
  have hsucc : ∀ p' ∈ stepPoss u p,
      othLook oth p' = Except.ok (othF p') ∧
      isLeafAt t0a (othF p') = true ∧ nmAt t0a (othF p') = nmAt ref p' :=
    fun p' hp' => hOth p' (nmAt ref p') (hmem p' hp')
  have hlfq : ∀ q' ∈ (stepPoss u p).map othF, isLeafAt t0a q' = true := by
    intro q' hq'
    rcases List.mem_map.1 hq' with ⟨p', hp', hpe⟩
    exact hpe ▸ (hsucc p' hp').2.1
  have hlfalt : ∀ q' ∈ (stepPoss u p).map othF, isLeafAt alt q' = true :=
    fun q' hq' => leaf_transfer (hstat q') (hlfq q' hq')
  have haddB : addLeavesB oth alt (stepPoss u p)
      = Except.ok (addChain false ((stepPoss u p).map othF) alt) := by
    refine addLeavesB_ok oth othF (stepPoss u p) alt (fun p' hp' => ?_)
    exact ⟨(hsucc p' hp').1,
      leaf_transfer (hstat (othF p')) (hsucc p' hp').2.1⟩
  have hnames : ((stepPoss u p).map othF).map (fun q => nmAt alt q)
      = (stepPoss u p).map (fun p' => nmAt ref p') := by
    rw [List.map_map]
    apply List.map_congr_left
    intro p' hp'
    show nmAt alt (othF p') = nmAt ref p'
    rw [nmAt_of_stView (hstat (othF p'))]
    exact (hsucc p' hp').2.2
  have hInv1 : InvAt ((leafList u).toFinset) 0
      (addChain false ((stepPoss u p).map othF) alt) := by
    have h1 := addChain_inv false ((stepPoss u p).map othF) alt A hInv
      (hll ▸ hNa) hlfalt
      (by
        intro q' hq' hin
        rcases List.mem_map.1 hq' with ⟨p', hp', hpe⟩
        have : nmAt alt q' = nmAt ref p' := by
          rw [← hpe, nmAt_of_stView (hstat (othF p'))]
          exact (hsucc p' hp').2.2
        rw [this] at hin
        exact hNew (nmAt ref p')
          (List.mem_map_of_mem (fun p'' => nmAt ref p'') hp') hin)
      (by rw [hnames]; exact hNod)
    refine InvAt_congr_A _ _ h1 ?_
    rw [hnames, hUnion]
  have hstat1 : ∀ q, stView (addChain false ((stepPoss u p).map othF) alt) q
      = stView t0a q := by
    intro q
    rw [addChain_static, hstat q]
  have hsl1 : subLists (addChain false ((stepPoss u p).map othF) alt)
      = subLists t0a := by rw [subLists_addChain, hsl]
  have hll1 : leafList (addChain false ((stepPoss u p).map othF) alt)
      = leafList t0a := by rw [leafList_addChain, hll]
  have hdiff1 : (addChain false ((stepPoss u p).map othF) alt).f.diff = 0 :=
    addChain_root_diff false _ alt hdiff
  have hdm := InvAt_min hInv1
  have hdM := InvAt_max hInv1
  rw [hdiff1] at hdm hdM
  have hminTD : minTD ((leafList u).toFinset)
      (addChain false ((stepPoss u p).map othF) alt)
      = minTD ((leafList u).toFinset) t0a := by
    rw [minTD_addChain]
    exact minTD_congr_struct _ hsl hll
  have hmaxTD : maxTD ((leafList u).toFinset)
      (addChain false ((stepPoss u p).map othF) alt)
      = maxTD ((leafList u).toFinset) t0a := by
    rw [maxTD_addChain]
    exact maxTD_congr_struct _ hsl hll
  refine ⟨haddB, hlfq, hInv1, hstat1, hsl1, hll1, hdiff1, ?_, ?_⟩
  · rw [hminTD] at hdm
    omega
  · rw [hmaxTD] at hdM
    omega

theorem parent_entry (ref : ATree) (hbin : binaryA ref = true)
    (hNr : (leafList ref).Nodup)
    (pp : Pos) (par u : ATree) (j : Nat)
    (hpar : getA pp ref = some par)
    (hju : par.ch[j]? = some u)
    (hguard : heavyChildIdx par.ch = some j) :
    (leafList u).toFinset ∪
      ((stepPoss par pp).map (fun p' => nmAt ref p')).toFinset
      = (leafList par).toFinset ∧
    (∀ nm ∈ (stepPoss par pp).map (fun p' => nmAt ref p'),
      nm ∉ (leafList u).toFinset) ∧
    ((stepPoss par pp).map (fun p' => nmAt ref p')).Nodup := by
  rcases par with ⟨f2, chp⟩
  rcases binary_shape (binary_getA pp ref _ hpar hbin) with hch | ⟨a, b, hch⟩
  · subst hch
    have hju' : ([] : List ATree)[j]? = some u := hju
    simp at hju'
  · subst hch
    have hNpar : (leafList (ATree.node f2 [a, b])).Nodup :=
      nodup_getA pp ref _ hpar hNr
    have hl2 : leafList (ATree.node f2 [a, b])
        = leafList a ++ (leafList b ++ []) := rfl
    have hNab : (leafList a ++ leafList b).Nodup := by
      have h0 := hl2 ▸ hNpar
      rwa [List.append_nil] at h0
    have hsplit := List.nodup_append.1 hNab
    have hju' : ([a, b] : List ATree)[j]? = some u := hju
    have hguard' : heavyChildIdx [a, b] = some j := hguard
    rw [heavyChildIdx_binary] at hguard'
    by_cases hab : a.f.sub < b.f.sub
    · rw [if_pos hab] at hguard'
      have hj : j = 1 := (Option.some.inj hguard').symm
      subst hj
      have hub : u = b := by
        rw [show ([a, b] : List ATree)[1]? = some b from by simp] at hju'
        exact (Option.some.inj hju').symm
      have hnames := (stepPoss_internal_hi ref pp f2 a b hpar hbin hab).1
      refine ⟨?_, ?_, ?_⟩
      · rw [hnames, hub, hl2, List.append_nil, List.toFinset_append]
        exact Finset.union_comm _ _
      · rw [hnames, hub]
        intro nm hnm hmem
        exact hsplit.2.2 hnm (List.mem_toFinset.1 hmem)
      · rw [hnames]
        exact hsplit.1
    · rw [if_neg hab] at hguard'
      have hj : j = 0 := (Option.some.inj hguard').symm
      subst hj
      have hub : u = a := by
        rw [show ([a, b] : List ATree)[0]? = some a from by simp] at hju'
        exact (Option.some.inj hju').symm
      have hnames := (stepPoss_internal_lo ref pp f2 a b hpar hbin hab).1
      refine ⟨?_, ?_, ?_⟩
      · rw [hnames, hub, hl2, List.append_nil, List.toFinset_append]
      · rw [hnames, hub]
        intro nm hnm hmem
        exact hsplit.2.2 (List.mem_toFinset.1 hmem) hnm
      · rw [hnames]
        exact hsplit.2.1

theorem getA_snoc (ref : ATree) (pp : Pos) (j : Nat) (u : ATree)
    (h : getA (pp ++ [j]) ref = some u) :
    ∃ par, getA pp ref = some par ∧ par.ch[j]? = some u := by
  rw [getA_append] at h
  rcases hpar : getA pp ref with _ | par
  · rw [hpar] at h
    cases h
  · rw [hpar] at h
    refine ⟨par, rfl, ?_⟩
    rcases par with ⟨f, ch⟩
    have h2 : (ch[j]?).bind (getA ([] : Pos)) = some u := h
    rcases hc : ch[j]? with _ | c
    · rw [hc] at h2
      cases h2
    · rw [hc] at h2
      have hcu : c = u := Option.some.inj h2
      show ch[j]? = some u
      rw [hc, hcu]

/-- `add_heavy_path`/`reset_heavy_path` (balanced): the climb from a node
up the heavy path succeeds, its net effect is an `addChain` of the
bijection images of the newly entering reference leaves, the matching
reset walk undoes exactly that chain, and every recorded
`(ti_min, ti_max)` pair is the true min/max transfer distance for the
leaf set of the recorded reference node. -/
theorem climb_spec (ref t0a : ATree) (oth : List (Pos × Pos)) (othF : Pos → Pos)
    (hOth : ∀ p nm, (p, nm) ∈ leafPN ref →
      othLook oth p = Except.ok (othF p) ∧ isLeafAt t0a (othF p) = true ∧
      nmAt t0a (othF p) = nm)
    (hbin : binaryA ref = true) (hNr : (leafList ref).Nodup)
    (hNa : (leafList t0a).Nodup) :
    ∀ (rp : List Nat) (alt u : ATree) (A : Finset ℕ),
    getA rp.reverse ref = some u →
    (∀ q, stView alt q = stView t0a q) →
    subLists alt = subLists t0a → leafList alt = leafList t0a →
    alt.f.diff = 0 → InvAt A 0 alt →
    A ∪ ((stepPoss u rp.reverse).map (fun p' => nmAt ref p')).toFinset
      = (leafList u).toFinset →
    (∀ nm ∈ (stepPoss u rp.reverse).map (fun p' => nmAt ref p'), nm ∉ A) →
    ((stepPoss u rp.reverse).map (fun p' => nmAt ref p')).Nodup →
    ∃ recs qs,
      climb ref oth rp alt = Except.ok (recs, addChain false qs alt) ∧
      (∀ q' ∈ qs, isLeafAt t0a q' = true) ∧
      (∀ s, (∀ q, stView s q = stView t0a q) →
        climbR ref oth rp s = Except.ok (resetChain false qs s)) ∧
      (∀ r ∈ recs, ∃ u', getA r.1 ref = some u' ∧
        r.2.1 = minTD ((leafList u').toFinset) t0a ∧
        r.2.2 = maxTD ((leafList u').toFinset) t0a) ∧
      recs.map Prod.fst = visited ref rp := by
  intro rp
  induction rp with
  | nil =>
    intro alt u A hg hstat hsl hll hdiff hInv hUnion hNew hNod
    obtain ⟨haddB, hlfq, hInv1, hstat1, hsl1, hll1, hdiff1, hdm, hdM⟩ :=
      stepNode ref t0a oth othF hOth hbin hNa [] u alt A hg hstat
        hsl hll hdiff hInv hUnion hNew hNod
    refine ⟨[(([] : Pos),
             (addChain false ((stepPoss u []).map othF) alt).f.d_min,
             (addChain false ((stepPoss u []).map othF) alt).f.d_max)],
           (stepPoss u []).map othF, ?_, hlfq, ?_, ?_, rfl⟩
    · show (stepAdds ref [] >>= fun adds =>
            addLeavesB oth alt adds >>= fun alt2 =>
            Except.ok ([(([] : Pos), alt2.f.d_min, alt2.f.d_max)], alt2)) = _
      rw [stepAdds_ok ref [] u hg]
      show (addLeavesB oth alt (stepPoss u []) >>= fun alt2 =>
            Except.ok ([(([] : Pos), alt2.f.d_min, alt2.f.d_max)], alt2)) = _
      rw [haddB]
      rfl
    · intro s hs
      show (stepAdds ref [] >>= fun adds => resetLeavesB oth s adds)
          = Except.ok (resetChain false ((stepPoss u []).map othF) s)
      rw [stepAdds_ok ref [] u hg]
      show resetLeavesB oth s (stepPoss u [])
          = Except.ok (resetChain false ((stepPoss u []).map othF) s)
      refine resetLeavesB_ok oth othF (stepPoss u []) s (fun p' hp' => ?_)
      have hfacts := hOth p' (nmAt ref p') (stepPoss_mem ref hbin [] u hg p' hp')
      exact ⟨hfacts.1, leaf_transfer (hs (othF p')) hfacts.2.1⟩
    · intro r hr
      have hre := List.mem_singleton.1 hr
      subst hre
      exact ⟨u, hg, hdm, hdM⟩
  | cons j rp ih =>
    intro alt u A hg hstat hsl hll hdiff hInv hUnion hNew hNod
    have hrev : (j :: rp).reverse = rp.reverse ++ [j] := by simp
    have hg' : getA (rp.reverse ++ [j]) ref = some u := by
      rw [← hrev]
      exact hg
    rcases getA_snoc ref rp.reverse j u hg' with ⟨par, hpar, hju⟩
    obtain ⟨haddB, hlfq, hInv1, hstat1, hsl1, hll1, hdiff1, hdm, hdM⟩ :=
      stepNode ref t0a oth othF hOth hbin hNa ((j :: rp).reverse) u alt A hg
        hstat hsl hll hdiff hInv hUnion hNew hNod
    have hgE : getE ref rp.reverse = Except.ok par := by
      unfold getE
      rw [hpar]
    by_cases hguard : heavyChildIdx par.ch = some j
    · obtain ⟨hU2, hN2, hD2⟩ :=
        parent_entry ref hbin hNr rp.reverse par u j hpar hju hguard
      obtain ⟨recs2, qs2, hcl2, hlf2, hclR2, hrec2, hmap2⟩ :=
        ih (addChain false ((stepPoss u ((j :: rp).reverse)).map othF) alt) par
          ((leafList u).toFinset) hpar hstat1 hsl1 hll1 hdiff1 hInv1 hU2 hN2 hD2
      have hv : visited ref (j :: rp) = (j :: rp).reverse :: visited ref rp := by
        show (j :: rp).reverse ::
            (match getA rp.reverse ref with
             | some par2 =>
                 if heavyChildIdx par2.ch = some j then visited ref rp else []
             | none => []) = _
        rw [hpar]
        show (j :: rp).reverse ::
            (if heavyChildIdx par.ch = some j then visited ref rp else []) = _
        rw [if_pos hguard]
      refine ⟨((j :: rp).reverse,
               (addChain false ((stepPoss u ((j :: rp).reverse)).map othF) alt).f.d_min,
               (addChain false ((stepPoss u ((j :: rp).reverse)).map othF) alt).f.d_max)
              :: recs2,
             (stepPoss u ((j :: rp).reverse)).map othF ++ qs2, ?_, ?_, ?_, ?_, ?_⟩
      · show (stepAdds ref ((j :: rp).reverse) >>= fun adds =>
              addLeavesB oth alt adds >>= fun alt2 =>
              getE ref rp.reverse >>= fun par2 =>
              if heavyChildIdx par2.ch = some j then
                climb ref oth rp alt2 >>= fun res =>
                  Except.ok (((j :: rp).reverse, alt2.f.d_min, alt2.f.d_max)
                    :: res.1, res.2)
              else
                Except.ok ([((j :: rp).reverse, alt2.f.d_min, alt2.f.d_max)],
                  alt2)) = _
        rw [stepAdds_ok ref ((j :: rp).reverse) u hg]
        show (addLeavesB oth alt (stepPoss u ((j :: rp).reverse)) >>= fun alt2 =>
              getE ref rp.reverse >>= fun par2 =>
              if heavyChildIdx par2.ch = some j then
                climb ref oth rp alt2 >>= fun res =>
                  Except.ok (((j :: rp).reverse, alt2.f.d_min, alt2.f.d_max)
                    :: res.1, res.2)
              else
                Except.ok ([((j :: rp).reverse, alt2.f.d_min, alt2.f.d_max)],
                  alt2)) = _
        rw [haddB]
        show (getE ref rp.reverse >>= fun par2 =>
              if heavyChildIdx par2.ch = some j then
                climb ref oth rp
                    (addChain false ((stepPoss u ((j :: rp).reverse)).map othF) alt)
                  >>= fun res =>
                  Except.ok (((j :: rp).reverse,
                    (addChain false ((stepPoss u ((j :: rp).reverse)).map othF) alt).f.d_min,
                    (addChain false ((stepPoss u ((j :: rp).reverse)).map othF) alt).f.d_max)
                    :: res.1, res.2)
              else
                Except.ok ([((j :: rp).reverse,
                  (addChain false ((stepPoss u ((j :: rp).reverse)).map othF) alt).f.d_min,
                  (addChain false ((stepPoss u ((j :: rp).reverse)).map othF) alt).f.d_max)],
                  addChain false ((stepPoss u ((j :: rp).reverse)).map othF) alt)) = _
        rw [hgE]
        show (if heavyChildIdx par.ch = some j then
                climb ref oth rp
                    (addChain false ((stepPoss u ((j :: rp).reverse)).map othF) alt)
                  >>= fun res =>
                  Except.ok (((j :: rp).reverse,
                    (addChain false ((stepPoss u ((j :: rp).reverse)).map othF) alt).f.d_min,
                    (addChain false ((stepPoss u ((j :: rp).reverse)).map othF) alt).f.d_max)
                    :: res.1, res.2)
              else
                Except.ok ([((j :: rp).reverse,
                  (addChain false ((stepPoss u ((j :: rp).reverse)).map othF) alt).f.d_min,
                  (addChain false ((stepPoss u ((j :: rp).reverse)).map othF) alt).f.d_max)],
                  addChain false ((stepPoss u ((j :: rp).reverse)).map othF) alt)) = _
        rw [if_pos hguard, hcl2, addChain_append]
        rfl
      · intro q' hq'
        rcases List.mem_append.1 hq' with h1 | h1
        · exact hlfq q' h1
        · exact hlf2 q' h1
      · intro s hs
        have hRB : resetLeavesB oth s (stepPoss u ((j :: rp).reverse))
            = Except.ok (resetChain false
                ((stepPoss u ((j :: rp).reverse)).map othF) s) := by
          refine resetLeavesB_ok oth othF _ s (fun p' hp' => ?_)
          have hfacts := hOth p' (nmAt ref p')
            (stepPoss_mem ref hbin ((j :: rp).reverse) u hg p' hp')
          exact ⟨hfacts.1, leaf_transfer (hs (othF p')) hfacts.2.1⟩
        show (stepAdds ref ((j :: rp).reverse) >>= fun adds =>
              resetLeavesB oth s adds >>= fun alt2 =>
              getE ref rp.reverse >>= fun par2 =>
              if heavyChildIdx par2.ch = some j then climbR ref oth rp alt2
              else Except.ok alt2) = _
        rw [stepAdds_ok ref ((j :: rp).reverse) u hg]
        show (resetLeavesB oth s (stepPoss u ((j :: rp).reverse)) >>= fun alt2 =>
              getE ref rp.reverse >>= fun par2 =>
              if heavyChildIdx par2.ch = some j then climbR ref oth rp alt2
              else Except.ok alt2) = _
        rw [hRB]
        show (getE ref rp.reverse >>= fun par2 =>
              if heavyChildIdx par2.ch = some j then
                climbR ref oth rp (resetChain false
                  ((stepPoss u ((j :: rp).reverse)).map othF) s)
              else Except.ok (resetChain false
                ((stepPoss u ((j :: rp).reverse)).map othF) s)) = _
        rw [hgE]
        show (if heavyChildIdx par.ch = some j then
                climbR ref oth rp (resetChain false
                  ((stepPoss u ((j :: rp).reverse)).map othF) s)
              else Except.ok (resetChain false
                ((stepPoss u ((j :: rp).reverse)).map othF) s)) = _
        rw [if_pos hguard,
           hclR2 (resetChain false ((stepPoss u ((j :: rp).reverse)).map othF) s)
             (fun q => by rw [resetChain_static]; exact hs q),
           resetChain_append]
      · intro r hr
        rcases List.mem_cons.1 hr with h1 | h1
        · subst h1
          exact ⟨u, hg, hdm, hdM⟩
        · exact hrec2 r h1
      · rw [List.map_cons, hmap2, hv]
    · have hv : visited ref (j :: rp) = [(j :: rp).reverse] := by
        show (j :: rp).reverse ::
            (match getA rp.reverse ref with
             | some par2 =>
                 if heavyChildIdx par2.ch = some j then visited ref rp else []
             | none => []) = _
        rw [hpar]
        show (j :: rp).reverse ::
            (if heavyChildIdx par.ch = some j then visited ref rp else []) = _
        rw [if_neg hguard]
      refine ⟨[((j :: rp).reverse,
               (addChain false ((stepPoss u ((j :: rp).reverse)).map othF) alt).f.d_min,
               (addChain false ((stepPoss u ((j :: rp).reverse)).map othF) alt).f.d_max)],
             (stepPoss u ((j :: rp).reverse)).map othF, ?_, hlfq, ?_, ?_, ?_⟩
      · show (stepAdds ref ((j :: rp).reverse) >>= fun adds =>
              addLeavesB oth alt adds >>= fun alt2 =>
              getE ref rp.reverse >>= fun par2 =>
              if heavyChildIdx par2.ch = some j then
                climb ref oth rp alt2 >>= fun res =>
                  Except.ok (((j :: rp).reverse, alt2.f.d_min, alt2.f.d_max)
                    :: res.1, res.2)
              else
                Except.ok ([((j :: rp).reverse, alt2.f.d_min, alt2.f.d_max)],
                  alt2)) = _
        rw [stepAdds_ok ref ((j :: rp).reverse) u hg]
        show (addLeavesB oth alt (stepPoss u ((j :: rp).reverse)) >>= fun alt2 =>
              getE ref rp.reverse >>= fun par2 =>
              if heavyChildIdx par2.ch = some j then
                climb ref oth rp alt2 >>= fun res =>
                  Except.ok (((j :: rp).reverse, alt2.f.d_min, alt2.f.d_max)
                    :: res.1, res.2)
              else
                Except.ok ([((j :: rp).reverse, alt2.f.d_min, alt2.f.d_max)],
                  alt2)) = _
        rw [haddB]
        show (getE ref rp.reverse >>= fun par2 =>
              if heavyChildIdx par2.ch = some j then
                climb ref oth rp
                    (addChain false ((stepPoss u ((j :: rp).reverse)).map othF) alt)
                  >>= fun res =>
                  Except.ok (((j :: rp).reverse,
                    (addChain false ((stepPoss u ((j :: rp).reverse)).map othF) alt).f.d_min,
                    (addChain false ((stepPoss u ((j :: rp).reverse)).map othF) alt).f.d_max)
                    :: res.1, res.2)
              else
                Except.ok ([((j :: rp).reverse,
                  (addChain false ((stepPoss u ((j :: rp).reverse)).map othF) alt).f.d_min,
                  (addChain false ((stepPoss u ((j :: rp).reverse)).map othF) alt).f.d_max)],
                  addChain false ((stepPoss u ((j :: rp).reverse)).map othF) alt)) = _
        rw [hgE]
        show (if heavyChildIdx par.ch = some j then
                climb ref oth rp
                    (addChain false ((stepPoss u ((j :: rp).reverse)).map othF) alt)
                  >>= fun res =>
                  Except.ok (((j :: rp).reverse,
                    (addChain false ((stepPoss u ((j :: rp).reverse)).map othF) alt).f.d_min,
                    (addChain false ((stepPoss u ((j :: rp).reverse)).map othF) alt).f.d_max)
                    :: res.1, res.2)
              else
                Except.ok ([((j :: rp).reverse,
                  (addChain false ((stepPoss u ((j :: rp).reverse)).map othF) alt).f.d_min,
                  (addChain false ((stepPoss u ((j :: rp).reverse)).map othF) alt).f.d_max)],
                  addChain false ((stepPoss u ((j :: rp).reverse)).map othF) alt)) = _
        rw [if_neg hguard]
      · intro s hs
        have hRB : resetLeavesB oth s (stepPoss u ((j :: rp).reverse))
            = Except.ok (resetChain false
                ((stepPoss u ((j :: rp).reverse)).map othF) s) := by
          refine resetLeavesB_ok oth othF _ s (fun p' hp' => ?_)
          have hfacts := hOth p' (nmAt ref p')
            (stepPoss_mem ref hbin ((j :: rp).reverse) u hg p' hp')
          exact ⟨hfacts.1, leaf_transfer (hs (othF p')) hfacts.2.1⟩
        show (stepAdds ref ((j :: rp).reverse) >>= fun adds =>
              resetLeavesB oth s adds >>= fun alt2 =>
              getE ref rp.reverse >>= fun par2 =>
              if heavyChildIdx par2.ch = some j then climbR ref oth rp alt2
              else Except.ok alt2) = _
        rw [stepAdds_ok ref ((j :: rp).reverse) u hg]
        show (resetLeavesB oth s (stepPoss u ((j :: rp).reverse)) >>= fun alt2 =>
              getE ref rp.reverse >>= fun par2 =>
              if heavyChildIdx par2.ch = some j then climbR ref oth rp alt2
              else Except.ok alt2) = _
        rw [hRB]
        show (getE ref rp.reverse >>= fun par2 =>
              if heavyChildIdx par2.ch = some j then
                climbR ref oth rp (resetChain false
                  ((stepPoss u ((j :: rp).reverse)).map othF) s)
              else Except.ok (resetChain false
                ((stepPoss u ((j :: rp).reverse)).map othF) s)) = _
        rw [hgE]
        show (if heavyChildIdx par.ch = some j then
                climbR ref oth rp (resetChain false
                  ((stepPoss u ((j :: rp).reverse)).map othF) s)
              else Except.ok (resetChain false
                ((stepPoss u ((j :: rp).reverse)).map othF) s)) = _
        rw [if_neg hguard]
      · intro r hr
        have hre := List.mem_singleton.1 hr
        subst hre
        exact ⟨u, hg, hdm, hdM⟩
      · rw [hv]
        rfl

theorem visited_self (ref : ATree) : ∀ (rp : List Nat),
    rp.reverse ∈ visited ref rp := by
  intro rp
  rcases rp with _ | ⟨j, rp'⟩
  · show ([] : Pos) ∈ [([] : Pos)]
    exact List.mem_singleton.2 rfl
  · exact List.mem_cons_self _ _

/-- If a node's heavy child is visited during a climb, the node itself is
visited right after it. -/
theorem visited_up (ref : ATree) (p : Pos) (j : Nat) (u : ATree)
    (hp : getA p ref = some u) (hj : heavyChildIdx u.ch = some j) :
    ∀ (rp0 : List Nat), (p ++ [j]) ∈ visited ref rp0 → p ∈ visited ref rp0 := by
  intro rp0
  induction rp0 with
  | nil =>
    intro hm
    have : p ++ [j] = ([] : Pos) := List.mem_singleton.1 hm
    simp at this
  | cons k rp' ih =>
    intro hm
    rcases List.mem_cons.1 hm with heq | hm'
    · have heq2 : j :: p.reverse = k :: rp' := by
        have := congrArg List.reverse heq
        simpa using this
      have hjk : j = k := (List.cons.injEq _ _ _ _ ▸ heq2).1
      have hpr : p.reverse = rp' := (List.cons.injEq _ _ _ _ ▸ heq2).2
      have hpe : p = rp'.reverse := by
        rw [← hpr, List.reverse_reverse]
      show p ∈ (k :: rp').reverse ::
          (match getA rp'.reverse ref with
           | some par =>
               if heavyChildIdx par.ch = some k then visited ref rp' else []
           | none => [])
      apply List.mem_cons_of_mem
      have hgp : getA rp'.reverse ref = some u := by
        rw [← hpe]
        exact hp
      rw [hgp]
      show p ∈ (if heavyChildIdx u.ch = some k then visited ref rp' else [])
      rw [if_pos (hjk ▸ hj), hpe]
      exact visited_self ref rp'
    · show p ∈ (k :: rp').reverse ::
          (match getA rp'.reverse ref with
           | some par =>
               if heavyChildIdx par.ch = some k then visited ref rp' else []
           | none => [])
      apply List.mem_cons_of_mem
      rcases hg2 : getA rp'.reverse ref with _ | par2
      · exfalso
        have hm2 : (p ++ [j]) ∈ (match getA rp'.reverse ref with
            | some par =>
                if heavyChildIdx par.ch = some k then visited ref rp' else []
            | none => ([] : List Pos)) := hm'
        rw [hg2] at hm2
        simp at hm2
      · have hm2 : (p ++ [j]) ∈ (match getA rp'.reverse ref with
            | some par =>
                if heavyChildIdx par.ch = some k then visited ref rp' else []
            | none => ([] : List Pos)) := hm'
        rw [hg2] at hm2
        have hm3 : (p ++ [j]) ∈
            (if heavyChildIdx par2.ch = some k then visited ref rp' else []) :=
          hm2
        show p ∈ (if heavyChildIdx par2.ch = some k then visited ref rp' else [])
        by_cases hgd : heavyChildIdx par2.ch = some k
        · rw [if_pos hgd]
          rw [if_pos hgd] at hm3
          exact ih hm3
        · rw [if_neg hgd] at hm3
          simp at hm3

/-- Every node of a binary reference tree is visited by the climb
starting from some reference leaf (the leaf reached by repeatedly
descending into the heavy child). -/
theorem visited_cover (ref : ATree) (hbin : binaryA ref = true) :
    ∀ (u : ATree) (p : Pos), getA p ref = some u →
    ∃ l nm, (l, nm) ∈ leafPN ref ∧ p ∈ visited ref l.reverse := by
  intro u
  induction u using ATree.ind with
  | h f ch ihc =>
    intro p hp
    have hbu : binaryA (.node f ch) = true := binary_getA p ref _ hp hbin
    rcases binary_shape hbu with hnil | ⟨a, b, hab⟩
    · subst hnil
      rcases stepPoss_leaf_case ref p f hp with ⟨-, hmem, -⟩
      refine ⟨p, f.name, hmem, ?_⟩
      have hs := visited_self ref p.reverse
      rwa [List.reverse_reverse] at hs
    · subst hab
      by_cases hlt : a.f.sub < b.f.sub
      · have hj : heavyChildIdx (ATree.node f [a, b]).ch = some 1 := by
          show heavyChildIdx [a, b] = some 1
          rw [heavyChildIdx_binary, if_pos hlt]
        have hchild : getA (p ++ [1]) ref = some b := by
          rw [getA_append, hp]
          rfl
        rcases ihc b (by simp) (p ++ [1]) hchild with ⟨l, nm, hmem, hvis⟩
        exact ⟨l, nm, hmem, visited_up ref p 1 _ hp hj l.reverse hvis⟩
      · have hj : heavyChildIdx (ATree.node f [a, b]).ch = some 0 := by
          show heavyChildIdx [a, b] = some 0
          rw [heavyChildIdx_binary, if_neg hlt]
        have hchild : getA (p ++ [0]) ref = some a := by
          rw [getA_append, hp]
          rfl
        rcases ihc a (by simp) (p ++ [0]) hchild with ⟨l, nm, hmem, hvis⟩
        exact ⟨l, nm, hmem, visited_up ref p 0 _ hp hj l.reverse hvis⟩

theorem initL_length : ∀ (ch : List ATree), (initL ch).length = ch.length
  | [] => rfl
  | c :: cs => by
    show (initA c :: initL cs).length = (c :: cs).length
    simp [initL_length cs]

mutual
theorem binaryA_initA : ∀ (t : ATree), binaryA (initA t) = binaryA t
  | .node f [] => rfl
  | .node f (c :: cs) => by
    show (((initL (c :: cs)).isEmpty || (initL (c :: cs)).length == 2)
        && binaryL (initL (c :: cs)))
      = ((((c :: cs) : List ATree).isEmpty
          || ((c :: cs) : List ATree).length == 2) && binaryL (c :: cs))
    rw [initL_length, binaryL_initL (c :: cs)]
    rfl
theorem binaryL_initL : ∀ (ch : List ATree), binaryL (initL ch) = binaryL ch
  | [] => rfl
  | c :: cs => by
    show (binaryA (initA c) && binaryL (initL cs)) = (binaryA c && binaryL cs)
    rw [binaryA_initA c, binaryL_initL cs]
end

mutual
theorem leafPN_initA : ∀ (t : ATree), leafPN (initA t) = leafPN t
  | .node f [] => rfl
  | .node f (c :: cs) => by
    show leafPNL 0 (initL (c :: cs)) = leafPNL 0 (c :: cs)
    exact leafPNL_initL 0 (c :: cs)
theorem leafPNL_initL : ∀ (k : Nat) (ch : List ATree),
    leafPNL k (initL ch) = leafPNL k ch
  | _, [] => rfl
  | k, c :: cs => by
    show (leafPN (initA c)).map (fun q => (k :: q.1, q.2))
          ++ leafPNL (k + 1) (initL cs)
        = (leafPN c).map (fun q => (k :: q.1, q.2)) ++ leafPNL (k + 1) cs
    rw [leafPN_initA c, leafPNL_initL (k + 1) cs]
end

mutual
theorem subLists_initA : ∀ (t : ATree), subLists (initA t) = subLists t
  | .node f [] => rfl
  | .node f (c :: cs) => by
    show leafList (initA (ATree.node f (c :: cs))) :: subListsL (initL (c :: cs))
        = leafList (ATree.node f (c :: cs)) :: subListsL (c :: cs)
    rw [leafList_initA, subListsL_initL (c :: cs)]
theorem subListsL_initL : ∀ (ch : List ATree),
    subListsL (initL ch) = subListsL ch
  | [] => rfl
  | c :: cs => by
    show subLists (initA c) ++ subListsL (initL cs)
        = subLists c ++ subListsL cs
    rw [subLists_initA c, subListsL_initL cs]
end

theorem initL_get : ∀ (ch : List ATree) (i : Nat),
    (initL ch)[i]? = (ch[i]?).map initA := by
  intro ch
  induction ch with
  | nil =>
    intro i
    show ([] : List ATree)[i]? = (([] : List ATree)[i]?).map initA
    simp
  | cons c cs ih =>
    intro i
    rcases i with _ | i
    · show (initA c :: initL cs)[0]? = ((c :: cs)[0]?).map initA
      simp
    · show (initA c :: initL cs)[i + 1]? = ((c :: cs)[i + 1]?).map initA
      simp only [List.getElem?_cons_succ]
      exact ih i

theorem getA_initA : ∀ (p : Pos) (t : ATree),
    getA p (initA t) = (getA p t).map initA := by
  intro p
  induction p with
  | nil => intro t; rfl
  | cons i p ih =>
    intro t
    rcases t with ⟨f, ch⟩
    rcases ch with _ | ⟨c, cs⟩
    · rfl
    · show ((initL (c :: cs))[i]?).bind (getA p)
          = (((c :: cs)[i]?).bind (getA p)).map initA
      rw [initL_get]
      rcases hc : (c :: cs)[i]? with _ | c'
      · rfl
      · show getA p (initA c') = (getA p c').map initA
        exact ih c'

theorem initA_diff : ∀ (t : ATree), (initA t).f.diff = 0 := by
  intro t
  rcases t with ⟨f, ch⟩
  rcases ch with _ | ⟨c, cs⟩ <;> rfl

theorem foldl_min_le_init : ∀ (l : List Int) (a : Int), l.foldl min a ≤ a := by
  intro l
  induction l with
  | nil => intro a; exact le_refl a
  | cons d l ih =>
    intro a
    exact le_trans (ih (min a d)) (min_le_left a d)

theorem foldl_max_ge_init : ∀ (l : List Int) (a : Int), a ≤ l.foldl max a := by
  intro l
  induction l with
  | nil => intro a; exact le_refl a
  | cons d l ih =>
    intro a
    exact le_trans (le_max_left a d) (ih (max a d))

theorem foldl_min_le_mem : ∀ (l : List Int) (a b : Int), b ∈ l →
    l.foldl min a ≤ b := by
  intro l
  induction l with
  | nil => intro a b hb; exact absurd hb (List.not_mem_nil b)
  | cons d l ih =>
    intro a b hb
    rcases List.mem_cons.1 hb with h | h
    · subst h
      exact le_trans (foldl_min_le_init l (min a b)) (min_le_right a b)
    · exact ih (min a d) b h

theorem foldl_min_bound : ∀ (l : List Int) (a c : Int), (∀ x ∈ l, c ≤ x) →
    c ≤ a → c ≤ l.foldl min a := by
  intro l
  induction l with
  | nil => intro a c _ ha; exact ha
  | cons d l ih =>
    intro a c hl ha
    exact ih (min a d) c (fun x hx => hl x (List.mem_cons_of_mem d hx))
      (le_min ha (hl d (List.mem_cons_self d l)))

theorem foldl_max_bound : ∀ (l : List Int) (a c : Int), (∀ x ∈ l, x ≤ c) →
    a ≤ c → l.foldl max a ≤ c := by
  intro l
  induction l with
  | nil => intro a c _ ha; exact ha
  | cons d l ih =>
    intro a c hl ha
    exact ih (max a d) c (fun x hx => hl x (List.mem_cons_of_mem d hx))
      (max_le ha (hl d (List.mem_cons_self d l)))

/-- Fold distributivity: folding `min` over `min(d, n - d)` equals the
`min` of the folded minimum and `n` minus the folded maximum. -/
theorem foldl_min_pair (n : Int) : ∀ (l : List Int) (a m M : Int),
    a = min m (n - M) →
    (l.map (fun d => min d (n - d))).foldl min a
      = min (l.foldl min m) (n - l.foldl max M) := by
  intro l
  induction l with
  | nil => intro a m M ha; exact ha
  | cons d l ih =>
    intro a m M ha
    show (l.map (fun d => min d (n - d))).foldl min (min a (min d (n - d)))
        = min (l.foldl min (min m d)) (n - l.foldl max (max M d))
    apply ih
    subst ha
    simp only [min_def, max_def]
    split_ifs <;> omega

theorem specTIall_eq (A : Finset ℕ) (n : Int) (t : ATree) :
    specTIall A n t = min (minTD A t) (n - maxTD A t) := by
  unfold specTIall minTD maxTD
  rw [show (subLists t).map (fun L => min (tdist A L) (n - tdist A L))
      = ((subLists t).map (tdist A)).map (fun d => min d (n - d)) from by
        rw [List.map_map]
        rfl]
  exact foldl_min_pair n ((subLists t).map (tdist A)) _ _ _ rfl

theorem minTD_nonneg (A : Finset ℕ) (t : ATree) : 0 ≤ minTD A t := by
  unfold minTD
  apply foldl_min_bound
  · intro x hx
    rcases List.mem_map.1 hx with ⟨L, -, hL⟩
    exact hL ▸ tdist_nonneg A L
  · exact tdist_nonneg A _

theorem tdist_le_card (A : Finset ℕ) (L : List ℕ) (N : Finset ℕ)
    (hA : A ⊆ N) (hL : L.toFinset ⊆ N) : tdist A L ≤ (N.card : Int) := by
  unfold tdist
  have hsub : symmDiff A L.toFinset ⊆ N := by
    intro x hx
    rcases Finset.mem_symmDiff.1 hx with ⟨h1, -⟩ | ⟨h1, -⟩
    · exact hA h1
    · exact hL h1
  exact_mod_cast Finset.card_le_card hsub

theorem maxTD_le (A : Finset ℕ) (t : ATree) (N : Finset ℕ)
    (hA : A ⊆ N) (hT : (leafList t).toFinset ⊆ N) :
    maxTD A t ≤ (N.card : Int) := by
  unfold maxTD
  apply foldl_max_bound
  · intro x hx
    rcases List.mem_map.1 hx with ⟨L, hLm, hL⟩
    refine hL ▸ tdist_le_card A L N hA ?_
    intro y hy
    have hy' : y ∈ leafList t :=
      subLists_subset t L hLm y (List.mem_toFinset.1 hy)
    exact hT (List.mem_toFinset.2 hy')
  · exact tdist_le_card A _ N hA hT

theorem minTD_le_mem (A : Finset ℕ) (t : ATree) (L : List ℕ)
    (hL : L ∈ subLists t) : minTD A t ≤ tdist A L := by
  unfold minTD
  exact foldl_min_le_mem _ _ _ (List.mem_map_of_mem (tdist A) hL)

theorem minTD_le_root (A : Finset ℕ) (t : ATree) :
    minTD A t ≤ tdist A (leafList t) := foldl_min_le_init _ _

theorem root_le_maxTD (A : Finset ℕ) (t : ATree) :
    tdist A (leafList t) ≤ maxTD A t := foldl_max_ge_init _ _

mutual
theorem mem_singleton_subLists : ∀ (t : ATree) (x : ℕ),
    x ∈ leafList t → [x] ∈ subLists t
  | .node f [], x => by
    intro hx
    have hxe : x = f.name := List.mem_singleton.1 hx
    subst hxe
    exact List.mem_singleton.2 rfl
  | .node f (c :: cs), x => by
    intro hx
    show [x] ∈ leafList (ATree.node f (c :: cs)) :: subListsL (c :: cs)
    exact List.mem_cons_of_mem _ (mem_singleton_subListsL (c :: cs) x hx)
theorem mem_singleton_subListsL : ∀ (ch : List ATree) (x : ℕ),
    x ∈ leafListL ch → [x] ∈ subListsL ch
  | [], x => by
    intro hx
    exact absurd hx (List.not_mem_nil x)
  | c :: cs, x => by
    intro hx
    have hx' : x ∈ leafList c ++ leafListL cs := hx
    show [x] ∈ subLists c ++ subListsL cs
    rcases List.mem_append.1 hx' with h | h
    · exact List.mem_append_left _ (mem_singleton_subLists c x h)
    · exact List.mem_append_right _ (mem_singleton_subListsL cs x h)
end

/-- One main-loop iteration (`add_heavy_path` then `reset_heavy_path` from
one reference leaf) succeeds, returns the AltIndex to its exact entry
state, and records the true min/max transfer distances for every visited
reference node. -/
theorem iterate1_spec (ref t0a : ATree) (oth : List (Pos × Pos)) (othF : Pos → Pos)
    (hOth : ∀ p nm, (p, nm) ∈ leafPN ref →
      othLook oth p = Except.ok (othF p) ∧ isLeafAt t0a (othF p) = true ∧
      nmAt t0a (othF p) = nm)
    (hbin : binaryA ref = true) (hNr : (leafList ref).Nodup)
    (hNa : (leafList t0a).Nodup) (hF : freshA t0a = true)
    (hdiff : t0a.f.diff = 0) (hInv : InvAt ∅ 0 t0a)
    (pl : Pos) (nm : ℕ) (hm : (pl, nm) ∈ leafPN ref) :
    ∃ recs, iterate1 ref oth t0a pl = Except.ok (recs, t0a) ∧
      (∀ r ∈ recs, ∃ u', getA r.1 ref = some u' ∧
        r.2.1 = minTD ((leafList u').toFinset) t0a ∧
        r.2.2 = maxTD ((leafList u').toFinset) t0a) ∧
      recs.map Prod.fst = visited ref pl.reverse := by
  rcases leafPN_leaf ref pl nm hm with ⟨c, hg, hch, hnm⟩
  rcases c with ⟨fu, cch⟩
  have hch' : cch = [] := hch
  subst hch'
  have hrr : (pl.reverse).reverse = pl := List.reverse_reverse pl
  have hg2 : getA (pl.reverse).reverse ref = some (ATree.node fu []) := by
    rw [hrr]
    exact hg
  have hstep : stepPoss (ATree.node fu []) ((pl.reverse).reverse) = [pl] := by
    rw [hrr]
    rfl
  have hnmpl : nmAt ref pl = fu.name := by
    unfold nmAt
    rw [hg]
    rfl
  obtain ⟨recs, qs, hcl, hlf, hclR, hrec, hmap⟩ :=
    climb_spec ref t0a oth othF hOth hbin hNr hNa pl.reverse t0a
      (ATree.node fu []) ∅ hg2 (fun q => rfl) rfl rfl hdiff hInv
      (by
        rw [hstep]
        show ∅ ∪ ([pl].map (fun p' => nmAt ref p')).toFinset
            = (leafList (ATree.node fu [])).toFinset
        rw [show [pl].map (fun p' => nmAt ref p') = [nmAt ref pl] from rfl,
           hnmpl, show leafList (ATree.node fu []) = [fu.name] from rfl]
        simp)
      (by
        rw [hstep]
        intro nm2 hnm2
        exact Finset.not_mem_empty nm2)
      (by
        rw [hstep]
        simp)
  refine ⟨recs, ?_, hrec, hmap⟩
  show (climb ref oth pl.reverse t0a >>= fun res =>
      climbR ref oth pl.reverse res.2 >>= fun alt2 =>
      Except.ok (res.1, alt2)) = Except.ok (recs, t0a)
  rw [hcl]
  show (climbR ref oth pl.reverse (addChain false qs t0a) >>= fun alt2 =>
      Except.ok (recs, alt2)) = Except.ok (recs, t0a)
  rw [hclR (addChain false qs t0a) (fun q => addChain_static false qs t0a q)]
  show Except.ok (recs, resetChain false qs (addChain false qs t0a))
      = Except.ok (recs, t0a)
  rw [chain_round_trip false t0a hF qs qs (List.Perm.refl qs)]

theorem othImg_ok (ref0 alt0 : ATree)
    (hsame : (sortByName (leafPN ref0)).map (fun x => x.2)
      = (sortByName (leafPN alt0)).map (fun x => x.2)) (p : Pos) (nm : ℕ)
    (hm : (p, nm) ∈ leafPN ref0) :
    othLook (bijBAL ref0 alt0) p
      = Except.ok (othImg (bijBAL ref0 alt0) p) ∧
    isLeafAt (initA alt0) (othImg (bijBAL ref0 alt0) p) = true ∧
    nmAt (initA alt0) (othImg (bijBAL ref0 alt0) p) = nm := by
  have hm1 : (p, nm) ∈ sortByName (leafPN ref0) :=
    ((sortByName_perm (leafPN ref0)).mem_iff).2 hm
  rcases List.mem_iff_getElem?.1 hm1 with ⟨i, hi⟩
  have hlen : (sortByName (leafPN ref0)).length
      = (sortByName (leafPN alt0)).length := by
    have h1 := congrArg List.length hsame
    simpa using h1
  have hilt : i < (sortByName (leafPN ref0)).length := by
    rcases List.getElem?_eq_some.1 hi with ⟨hh, -⟩
    exact hh
  have hN1 : (((sortByName (leafPN ref0)).map (fun x => x.1))).Nodup := by
    have hperm : ((sortByName (leafPN ref0)).map (fun x => x.1)).Perm
        ((leafPN ref0).map (fun x => x.1)) :=
      (sortByName_perm (leafPN ref0)).map _
    exact hperm.nodup_iff.2 (leafPN_pos_nodup ref0)
  have hp1 : ((sortByName (leafPN ref0)).map (fun x => x.1))[i]? = some p := by
    rw [List.getElem?_map, hi]
    rfl
  have hlen2 : i < ((sortByName (leafPN alt0)).map (fun x => x.1)).length := by
    rw [List.length_map, ← hlen]
    exact hilt
  rcases othLook_spec _ _ i p hN1 hp1 hlen2 with ⟨q, hq, hok⟩
  have hok' : othLook (bijBAL ref0 alt0) p = Except.ok q := hok
  have hoi : othImg (bijBAL ref0 alt0) p = q := by
    unfold othImg
    rw [hok']
  -- the alt-side entry at index i is (q, nm)
  have hs2i : ∃ x2, (sortByName (leafPN alt0))[i]? = some x2 ∧
      x2.1 = q ∧ x2.2 = nm := by
    rcases hx2 : (sortByName (leafPN alt0))[i]? with _ | x2
    · exfalso
      rw [List.getElem?_map, hx2] at hq
      cases hq
    · refine ⟨x2, rfl, ?_, ?_⟩
      · rw [List.getElem?_map, hx2] at hq
        exact Option.some.inj hq
      · have hsn := congrArg (fun l => l[i]?) hsame
        simp only [List.getElem?_map, hi, hx2] at hsn
        exact (Option.some.inj hsn).symm
  rcases hs2i with ⟨x2, hx2, hx2q, hx2n⟩
  have hx2mem : x2 ∈ sortByName (leafPN alt0) := by
    rcases List.getElem?_eq_some.1 hx2 with ⟨hh, hv⟩
    exact hv ▸ List.getElem_mem hh
  have hx2mem' : (q, nm) ∈ leafPN alt0 := by
    have : x2 = (q, nm) := by
      rcases x2 with ⟨a, b⟩
      simp only at hx2q hx2n
      rw [hx2q, hx2n]
    exact ((sortByName_perm (leafPN alt0)).mem_iff).1 (this ▸ hx2mem)
  rcases leafPN_leaf alt0 q nm hx2mem' with ⟨c, hgc, hcch, hcnm⟩
  rcases c with ⟨fc, cch⟩
  have hcch' : cch = [] := hcch
  subst hcch'
  have hgi : getA q (initA alt0) = some (initA (ATree.node fc [])) := by
    rw [getA_initA, hgc]
    rfl
  refine ⟨hoi ▸ hok', ?_, ?_⟩
  · rw [hoi]
    unfold isLeafAt
    rw [hgi]
    rfl
  · rw [hoi]
    unfold nmAt
    rw [hgi]
    exact hcnm

theorem foldIter_spec (ref t0a : ATree) (oth : List (Pos × Pos)) (othF : Pos → Pos)
    (hOth : ∀ p nm, (p, nm) ∈ leafPN ref →
      othLook oth p = Except.ok (othF p) ∧ isLeafAt t0a (othF p) = true ∧
      nmAt t0a (othF p) = nm)
    (hbin : binaryA ref = true) (hNr : (leafList ref).Nodup)
    (hNa : (leafList t0a).Nodup) (hF : freshA t0a = true)
    (hdiff : t0a.f.diff = 0) (hInv : InvAt ∅ 0 t0a) :
    ∀ (xs : List (Pos × ℕ)) (acc0 : List (Pos × Int × Int)),
    (∀ x ∈ xs, x ∈ leafPN ref) →
    ∃ R, (xs.foldlM
        (fun (acc : List (Pos × Int × Int) × ATree) x => do
          let r ← iterate1 ref oth acc.2 x.1
          Except.ok (acc.1 ++ r.1, r.2)) (acc0, t0a))
      = Except.ok (acc0 ++ R, t0a) ∧
      (∀ r ∈ R, ∃ u', getA r.1 ref = some u' ∧
        r.2.1 = minTD ((leafList u').toFinset) t0a ∧
        r.2.2 = maxTD ((leafList u').toFinset) t0a) ∧
      (∀ x ∈ xs, ∀ p ∈ visited ref x.1.reverse, p ∈ R.map Prod.fst) := by
  intro xs
  induction xs with
  | nil =>
    intro acc0 _
    refine ⟨[], ?_, ?_, ?_⟩
    · simp only [List.foldlM_nil, List.append_nil]
      rfl
    · intro r hr
      exact absurd hr (List.not_mem_nil r)
    · intro x hx
      exact absurd hx (List.not_mem_nil x)
  | cons x xs ih =>
    intro acc0 hmem
    rcases x with ⟨pl, nmx⟩
    have hm : (pl, nmx) ∈ leafPN ref := hmem (pl, nmx) (List.mem_cons_self _ _)
    obtain ⟨recs, hit, hrec, hmap⟩ :=
      iterate1_spec ref t0a oth othF hOth hbin hNr hNa hF hdiff hInv pl nmx hm
    obtain ⟨R2, hfold, hrec2, hcov2⟩ :=
      ih (acc0 ++ recs) (fun y hy => hmem y (List.mem_cons_of_mem _ hy))
    refine ⟨recs ++ R2, ?_, ?_, ?_⟩
    · rw [List.foldlM_cons]
      show ((iterate1 ref oth t0a pl >>= fun r =>
            Except.ok (acc0 ++ r.1, r.2)) >>= fun b' =>
          List.foldlM (fun (acc : List (Pos × Int × Int) × ATree)
              (x : Pos × ℕ) =>
            iterate1 ref oth acc.2 x.1 >>= fun r =>
              Except.ok (acc.1 ++ r.1, r.2)) b' xs)
        = Except.ok (acc0 ++ (recs ++ R2), t0a)
      rw [hit]
      show (List.foldlM (fun (acc : List (Pos × Int × Int) × ATree)
              (x : Pos × ℕ) =>
            iterate1 ref oth acc.2 x.1 >>= fun r =>
              Except.ok (acc.1 ++ r.1, r.2)) (acc0 ++ recs, t0a) xs)
        = Except.ok (acc0 ++ (recs ++ R2), t0a)
      rw [hfold, List.append_assoc]
    · intro r hr
      rcases List.mem_append.1 hr with h | h
      · exact hrec r h
      · exact hrec2 r h
    · intro y hy p hp
      rcases List.mem_cons.1 hy with h | h
      · rw [List.map_append]
        apply List.mem_append_left
        rw [hmap]
        have hy1 : y.1 = pl := by rw [h]
        rw [hy1] at hp
        exact hp
      · rw [List.map_append]
        exact List.mem_append_right _ (hcov2 y h p hp)

/-- `compute_transfer_indices_fast_BALANCED` up to the per-node records:
the run succeeds, returns `n` equal to the reference leaf count, every
record carries the true min/max transfer distances of its reference node
(measured on the prepared alternative tree, equivalently on `alt0`
itself), and every reference node is recorded. -/
theorem driveBAL_spec (ref0 alt0 : ATree)
    (hbin : binaryA ref0 = true)
    (hNr : (leafList ref0).Nodup) (hNa : (leafList alt0).Nodup)
    (hsame : (sortByName (leafPN ref0)).map (fun x => x.2)
      = (sortByName (leafPN alt0)).map (fun x => x.2)) :
    ∃ R, driveBAL ref0 alt0
        = Except.ok (R, ((leafList ref0).length : Int)) ∧
      (∀ r ∈ R, ∃ u0, getA r.1 ref0 = some u0 ∧
        r.2.1 = minTD ((leafList u0).toFinset) alt0 ∧
        r.2.2 = maxTD ((leafList u0).toFinset) alt0) ∧
      (∀ p u0, getA p ref0 = some u0 → p ∈ R.map Prod.fst) := by
  have hPNr : leafPN (initA ref0) = leafPN ref0 := leafPN_initA ref0
  have hPNa : leafPN (initA alt0) = leafPN alt0 := leafPN_initA alt0
  have hbinI : binaryA (initA ref0) = true := by
    rw [binaryA_initA]
    exact hbin
  have hNrI : (leafList (initA ref0)).Nodup := by
    rw [leafList_initA]
    exact hNr
  have hNaI : (leafList (initA alt0)).Nodup := by
    rw [leafList_initA]
    exact hNa
  have hF : freshA (initA alt0) = true := freshA_initA alt0
  have hdiff : (initA alt0).f.diff = 0 := initA_diff alt0
  have hInv : InvAt ∅ 0 (initA alt0) := initA_inv alt0 hNa
  have hOth : ∀ p nm, (p, nm) ∈ leafPN (initA ref0) →
      othLook (bijBAL ref0 alt0) p
        = Except.ok (othImg (bijBAL ref0 alt0) p) ∧
      isLeafAt (initA alt0) (othImg (bijBAL ref0 alt0) p) = true ∧
      nmAt (initA alt0) (othImg (bijBAL ref0 alt0) p) = nm := by
    intro p nm hm
    rw [hPNr] at hm
    exact othImg_ok ref0 alt0 hsame p nm hm
  have hlenS : (sortByName (leafPN ref0)).length
      = (sortByName (leafPN alt0)).length := by
    have h1 := congrArg List.length hsame
    simpa using h1
  have hbij : set_leaf_bijection
      ((sortByName (leafPN (initA ref0))).map (fun x => x.1))
      ((sortByName (leafPN (initA alt0))).map (fun x => x.1))
      = some (bijBAL ref0 alt0) := by
    rw [hPNr, hPNa]
    unfold set_leaf_bijection bijBAL
    rw [if_pos (by simp [hlenS])]
  obtain ⟨R, hfold, hrec, hcov⟩ :=
    foldIter_spec (initA ref0) (initA alt0) (bijBAL ref0 alt0)
      (othImg (bijBAL ref0 alt0)) hOth hbinI hNrI hNaI hF hdiff hInv
      (sortByName (leafPN (initA ref0))) []
      (fun x hx => ((sortByName_perm _).mem_iff).1 hx)
  have hlenL : (sortByName (leafPN (initA ref0))).length
      = (leafList ref0).length := by
    rw [hPNr]
    have h1 : (sortByName (leafPN ref0)).length = (leafPN ref0).length :=
      (sortByName_perm _).length_eq
    have h2 : (leafPN ref0).length = (leafList ref0).length := by
      have h3 := congrArg List.length (leafPN_names ref0)
      simpa using h3
    omega
  refine ⟨R, ?_, ?_, ?_⟩
  · show (match set_leaf_bijection
        ((sortByName (leafPN (initA ref0))).map (fun x => x.1))
        ((sortByName (leafPN (initA alt0))).map (fun x => x.1)) with
      | none => Except.error ()
      | some oth =>
          (List.foldlM (fun (acc : List (Pos × Int × Int) × ATree)
              (x : Pos × ℕ) =>
            iterate1 (initA ref0) oth acc.2 x.1 >>= fun r =>
              Except.ok (acc.1 ++ r.1, r.2))
            (([] : List (Pos × Int × Int)), initA alt0)
            (sortByName (leafPN (initA ref0)))) >>= fun res =>
            Except.ok (res.1,
              ((sortByName (leafPN (initA ref0))).length : Int)))
      = Except.ok (R, ((leafList ref0).length : Int))
    rw [hbij]
    show ((List.foldlM (fun (acc : List (Pos × Int × Int) × ATree)
            (x : Pos × ℕ) =>
          iterate1 (initA ref0) (bijBAL ref0 alt0) acc.2 x.1 >>= fun r =>
            Except.ok (acc.1 ++ r.1, r.2))
          (([] : List (Pos × Int × Int)), initA alt0)
          (sortByName (leafPN (initA ref0)))) >>= fun res =>
          Except.ok (res.1,
            ((sortByName (leafPN (initA ref0))).length : Int)))
        = Except.ok (R, ((leafList ref0).length : Int))
    rw [hfold]
    show Except.ok (([] : List (Pos × Int × Int)) ++ R,
          ((sortByName (leafPN (initA ref0))).length : Int))
        = Except.ok (R, ((leafList ref0).length : Int))
    rw [List.nil_append, hlenL]
  · intro r hr
    rcases hrec r hr with ⟨u', hg, hmin, hmax⟩
    rw [getA_initA] at hg
    rcases hg0 : getA r.1 ref0 with _ | u0
    · rw [hg0] at hg
      cases hg
    · rw [hg0] at hg
      have hu : initA u0 = u' := Option.some.inj hg
      refine ⟨u0, rfl, ?_, ?_⟩
      · rw [hmin, ← hu, leafList_initA]
        exact minTD_congr_struct _ (subLists_initA alt0) (leafList_initA alt0)
      · rw [hmax, ← hu, leafList_initA]
        exact maxTD_congr_struct _ (subLists_initA alt0) (leafList_initA alt0)
  · intro p u0 hg
    have hgI : getA p (initA ref0) = some (initA u0) := by
      rw [getA_initA, hg]
      rfl
    rcases visited_cover (initA ref0) hbinI (initA u0) p hgI with
      ⟨l, nm, hlm, hvis⟩
    have hxs : ((l, nm) : Pos × ℕ) ∈ sortByName (leafPN (initA ref0)) :=
      ((sortByName_perm _).mem_iff).2 hlm
    exact hcov (l, nm) hxs p hvis

/-- The full balanced pipeline: the per-edge output array exists, every
entry is the minimum over all alt-tree nodes `v` of
`min(|A △ L(v)|, n − |A △ L(v)|)` for the leaf set `A` of the reference
node below the edge, and every non-root reference node contributes its
entry. -/
theorem pipelineBAL_spec (ref0 alt0 : ATree)
    (hbin : binaryA ref0 = true)
    (hNr : (leafList ref0).Nodup) (hNa : (leafList alt0).Nodup)
    (hsame : (sortByName (leafPN ref0)).map (fun x => x.2)
      = (sortByName (leafPN alt0)).map (fun x => x.2)) :
    ∃ out, pipelineBAL ref0 alt0 = Except.ok out ∧
      (∀ p v, (p, v) ∈ out → ∃ u0, getA p ref0 = some u0 ∧ p ≠ [] ∧
        v = specTIall ((leafList u0).toFinset)
              ((leafList ref0).length : Int) alt0) ∧
      (∀ p u0, getA p ref0 = some u0 → p ≠ [] →
        (p, specTIall ((leafList u0).toFinset)
              ((leafList ref0).length : Int) alt0) ∈ out) := by
  obtain ⟨R, hdr, hrec, hcov⟩ := driveBAL_spec ref0 alt0 hbin hNr hNa hsame
  refine ⟨nodeTI_to_edgeTI ((leafList ref0).length : Int) R, ?_, ?_, ?_⟩
  · show (driveBAL ref0 alt0 >>= fun r =>
        Except.ok (nodeTI_to_edgeTI r.2 r.1))
      = Except.ok (nodeTI_to_edgeTI ((leafList ref0).length : Int) R)
    rw [hdr]
    rfl
  · intro p v hm
    rcases List.mem_filterMap.1 hm with ⟨r, hrm, hf⟩
    unfold set_edge_TI at hf
    by_cases hd : r.1.length ≠ 0
    · rw [if_pos hd] at hf
      have hf2 : (r.1, min r.2.1 (((leafList ref0).length : Int) - r.2.2))
          = (p, v) := Option.some.inj hf
      have hp : r.1 = p := congrArg Prod.fst hf2
      have hv : min r.2.1 (((leafList ref0).length : Int) - r.2.2) = v :=
        congrArg Prod.snd hf2
      rcases hrec r hrm with ⟨u0, hg, hmin, hmax⟩
      refine ⟨u0, hp ▸ hg, ?_, ?_⟩
      · intro hpe
        apply hd
        rw [hp, hpe]
        rfl
      · rw [← hv, hmin, hmax, specTIall_eq]
    · rw [if_neg hd] at hf
      cases hf
  · intro p u0 hg hne
    have hpmem : p ∈ R.map Prod.fst := hcov p u0 hg
    rcases List.mem_map.1 hpmem with ⟨r, hrm, hrp⟩
    rcases hrec r hrm with ⟨u0', hg', hmin, hmax⟩
    have hu0 : u0' = u0 := by
      rw [hrp] at hg'
      exact Option.some.inj (hg'.symm.trans hg)
    apply List.mem_filterMap.2
    refine ⟨r, hrm, ?_⟩
    unfold set_edge_TI
    rw [if_pos (by
      rw [hrp]
      intro h0
      exact hne (List.length_eq_zero.1 h0))]
    show some (r.1, min r.2.1 (((leafList ref0).length : Int) - r.2.2)) = _
    rw [hrp, hmin, hmax, hu0, specTIall_eq]

/-- Equal sorted taxon-name lists mean the two trees' leaf-name lists are
permutations of each other. -/
theorem perm_leafLists (ref0 alt0 : ATree)
    (hsame : (sortByName (leafPN ref0)).map (fun x => x.2)
      = (sortByName (leafPN alt0)).map (fun x => x.2)) :
    (leafList alt0).Perm (leafList ref0) := by
  have pR : ((sortByName (leafPN ref0)).map (fun x => x.2)).Perm
      (leafList ref0) := by
    have h := (sortByName_perm (leafPN ref0)).map (fun x => x.2)
    rwa [leafPN_names] at h
  have pA : ((sortByName (leafPN alt0)).map (fun x => x.2)).Perm
      (leafList alt0) := by
    have h := (sortByName_perm (leafPN alt0)).map (fun x => x.2)
    rwa [leafPN_names] at h
  exact pA.symm.trans (hsame ▸ pR)

/-- The stored edge value is in `[0, ⌊n/2⌋]` whenever the reference leaf
set under the edge and the alternative tree's leaves are drawn from the
same `n` taxa. -/
theorem specTIall_bounds (ref0 alt0 u0 : ATree) (p : Pos)
    (hNr : (leafList ref0).Nodup)
    (hperm : (leafList alt0).Perm (leafList ref0))
    (hg : getA p ref0 = some u0) :
    0 ≤ specTIall ((leafList u0).toFinset)
        ((leafList ref0).length : Int) alt0 ∧
    specTIall ((leafList u0).toFinset) ((leafList ref0).length : Int) alt0
      ≤ ((leafList ref0).length : Int) / 2 := by
  rw [specTIall_eq]
  have hNcard : ((leafList ref0).toFinset).card = (leafList ref0).length :=
    List.toFinset_card_of_nodup hNr
  have hA : (leafList u0).toFinset ⊆ (leafList ref0).toFinset := by
    intro x hx
    exact List.mem_toFinset.2
      (leafList_getA_subset p ref0 u0 hg x (List.mem_toFinset.1 hx))
  have hT : (leafList alt0).toFinset ⊆ (leafList ref0).toFinset := by
    intro x hx
    exact List.mem_toFinset.2 (hperm.mem_iff.1 (List.mem_toFinset.1 hx))
  have hmaxle := maxTD_le ((leafList u0).toFinset) alt0
    ((leafList ref0).toFinset) hA hT
  rw [hNcard] at hmaxle
  have hminnn := minTD_nonneg ((leafList u0).toFinset) alt0
  have hminroot := minTD_le_root ((leafList u0).toFinset) alt0
  have hmaxroot := root_le_maxTD ((leafList u0).toFinset) alt0
  constructor
  · apply le_min hminnn
    omega
  · have h1 : min (minTD ((leafList u0).toFinset) alt0)
        (((leafList ref0).length : Int) - maxTD ((leafList u0).toFinset) alt0)
        ≤ minTD ((leafList u0).toFinset) alt0 := min_le_left _ _
    have h2 : min (minTD ((leafList u0).toFinset) alt0)
        (((leafList ref0).length : Int) - maxTD ((leafList u0).toFinset) alt0)
        ≤ ((leafList ref0).length : Int)
          - maxTD ((leafList u0).toFinset) alt0 := min_le_right _ _
    rw [Int.le_ediv_iff_mul_le (by norm_num : (0 : Int) < 2)]
    omega

/-- C1 (counterexample): on the identical trees `((0,1),(2,3))` the code
stores `0` on the terminal edge above leaf `0` (the minimising alt node
is the leaf itself), while the claimed formula — minimum over *internal*
nodes only, clipped to `⌊n/2⌋` — gives `1`. -/
theorem transfer_index_internal_clip_cex :
    pipelineBAL cxT4 cxT4
      = Except.ok [([0, 0], 0), ([0], 0), ([0, 1], 0), ([1, 0], 0),
                   ([1], 0), ([1, 1], 0)] ∧
    specTIinternalClip ({0} : Finset ℕ) 4 cxT4 = 1 := by
  constructor
  · rfl
  · decide

/-- C1 (amended): the balanced pipeline succeeds and every entry of the
per-edge output equals the minimum over *all* nodes `v` of the
alternative tree of `min(|A △ L(v)|, n − |A △ L(v)|)`, where `A` is the
leaf set below the reference edge; conversely every non-root reference
node contributes exactly this entry. -/
theorem transfer_index_formula (ref0 alt0 : ATree)
    (hbin : binaryA ref0 = true)
    (hNr : (leafList ref0).Nodup) (hNa : (leafList alt0).Nodup)
    (hsame : (sortByName (leafPN ref0)).map (fun x => x.2)
      = (sortByName (leafPN alt0)).map (fun x => x.2)) :
    ∃ out, pipelineBAL ref0 alt0 = Except.ok out ∧
      (∀ p v, (p, v) ∈ out → ∃ u0, getA p ref0 = some u0 ∧ p ≠ [] ∧
        v = specTIall ((leafList u0).toFinset)
              ((leafList ref0).length : Int) alt0) ∧
      (∀ p u0, getA p ref0 = some u0 → p ≠ [] →
        (p, specTIall ((leafList u0).toFinset)
              ((leafList ref0).length : Int) alt0) ∈ out) :=
  pipelineBAL_spec ref0 alt0 hbin hNr hNa hsame

theorem transfer_index_formula_witness :
    (binaryA cxT4 = true ∧ (leafList cxT4).Nodup ∧ (leafList cxT4b).Nodup ∧
      (sortByName (leafPN cxT4)).map (fun x => x.2)
        = (sortByName (leafPN cxT4b)).map (fun x => x.2)) ∧
    (∃ out, pipelineBAL cxT4 cxT4b = Except.ok out ∧
      (∀ p v, (p, v) ∈ out → ∃ u0, getA p cxT4 = some u0 ∧ p ≠ [] ∧
        v = specTIall ((leafList u0).toFinset)
              ((leafList cxT4).length : Int) cxT4b) ∧
      (∀ p u0, getA p cxT4 = some u0 → p ≠ [] →
        (p, specTIall ((leafList u0).toFinset)
              ((leafList cxT4).length : Int) cxT4b) ∈ out)) :=
  ⟨⟨by decide, by decide, by decide, by decide⟩,
   transfer_index_formula cxT4 cxT4b (by decide) (by decide) (by decide)
     (by decide)⟩

/-- C4: every transfer index the balanced pipeline stores on an edge is
an integer in the range `[0, ⌊n/2⌋]`, `n` being the (shared) number of
taxa. -/
theorem transfer_index_range (ref0 alt0 : ATree)
    (hbin : binaryA ref0 = true)
    (hNr : (leafList ref0).Nodup) (hNa : (leafList alt0).Nodup)
    (hsame : (sortByName (leafPN ref0)).map (fun x => x.2)
      = (sortByName (leafPN alt0)).map (fun x => x.2)) :
    ∃ out, pipelineBAL ref0 alt0 = Except.ok out ∧
      ∀ p v, (p, v) ∈ out →
        0 ≤ v ∧ v ≤ ((leafList ref0).length : Int) / 2 := by
  obtain ⟨out, hok, hsound, -⟩ := pipelineBAL_spec ref0 alt0 hbin hNr hNa hsame
  refine ⟨out, hok, ?_⟩
  intro p v hm
  rcases hsound p v hm with ⟨u0, hg, -, hv⟩
  rw [hv]
  exact specTIall_bounds ref0 alt0 u0 p hNr (perm_leafLists ref0 alt0 hsame) hg

theorem transfer_index_range_witness :
    (binaryA cxT4 = true ∧ (leafList cxT4).Nodup ∧ (leafList cxT4b).Nodup ∧
      (sortByName (leafPN cxT4)).map (fun x => x.2)
        = (sortByName (leafPN cxT4b)).map (fun x => x.2)) ∧
    (∃ out, pipelineBAL cxT4 cxT4b = Except.ok out ∧
      ∀ p v, (p, v) ∈ out →
        0 ≤ v ∧ v ≤ ((leafList cxT4).length : Int) / 2) :=
  ⟨⟨by decide, by decide, by decide, by decide⟩,
   transfer_index_range cxT4 cxT4b (by decide) (by decide) (by decide)
     (by decide)⟩

/-- C5 (amended, transfer index part): for every terminal edge of the
reference tree the stored transfer index is `0`. -/
theorem terminal_edge_TI_zero (ref0 alt0 : ATree)
    (hbin : binaryA ref0 = true)
    (hNr : (leafList ref0).Nodup) (hNa : (leafList alt0).Nodup)
    (hsame : (sortByName (leafPN ref0)).map (fun x => x.2)
      = (sortByName (leafPN alt0)).map (fun x => x.2))
    (p : Pos) (hleaf : isLeafAt ref0 p = true) (hne : p ≠ []) :
    ∃ out, pipelineBAL ref0 alt0 = Except.ok out ∧ (p, (0 : Int)) ∈ out := by
  obtain ⟨out, hok, -, hcomp⟩ := pipelineBAL_spec ref0 alt0 hbin hNr hNa hsame
  rcases isLeafAt_name hleaf with ⟨c, hg, hch, -⟩
  rcases c with ⟨fc, cch⟩
  have hch' : cch = [] := hch
  subst hch'
  have hmem := hcomp p (ATree.node fc []) hg hne
  have hperm := perm_leafLists ref0 alt0 hsame
  have hb := specTIall_bounds ref0 alt0 (ATree.node fc []) p hNr hperm hg
  rcases hb with ⟨hb1, -⟩
  have hmemname : fc.name ∈ leafList alt0 := by
    have h1 : fc.name ∈ leafList ref0 :=
      leafList_getA_subset p ref0 _ hg fc.name (List.mem_singleton.2 rfl)
    exact hperm.mem_iff.2 h1
  have hsub : [fc.name] ∈ subLists alt0 :=
    mem_singleton_subLists alt0 fc.name hmemname
  have hminle : minTD ((leafList (ATree.node fc [])).toFinset) alt0
      ≤ tdist ((leafList (ATree.node fc [])).toFinset) [fc.name] :=
    minTD_le_mem _ _ _ hsub
  have htd : tdist ((leafList (ATree.node fc [])).toFinset) [fc.name] = 0 := by
    show tdist (([fc.name] : List ℕ).toFinset) [fc.name] = 0
    unfold tdist
    rw [symmDiff_self]
    simp
  have hz : specTIall ((leafList (ATree.node fc [])).toFinset)
      ((leafList ref0).length : Int) alt0 = 0 := by
    rw [specTIall_eq]
    rw [specTIall_eq] at hb1
    apply le_antisymm
    · exact le_trans (min_le_left _ _) (le_trans hminle (le_of_eq htd))
    · exact hb1
  rw [hz] at hmem
  exact ⟨out, hok, hmem⟩

theorem terminal_edge_TI_zero_witness :
    (binaryA cxT4 = true ∧ (leafList cxT4).Nodup ∧ (leafList cxT4b).Nodup ∧
      (sortByName (leafPN cxT4)).map (fun x => x.2)
        = (sortByName (leafPN cxT4b)).map (fun x => x.2) ∧
      isLeafAt cxT4 [0, 0] = true ∧ ([0, 0] : Pos) ≠ []) ∧
    (∃ out, pipelineBAL cxT4 cxT4b = Except.ok out ∧
      (([0, 0] : Pos), (0 : Int)) ∈ out) :=
  ⟨⟨by decide, by decide, by decide, by decide, by decide, by decide⟩,
   terminal_edge_TI_zero cxT4 cxT4b (by decide) (by decide) (by decide)
     (by decide) [0, 0] (by decide) (by decide)⟩

set_option maxHeartbeats 4000000 in
/-- C5 (counterexample, transfer set part): after adding the alt image
of reference leaf `0` (the visit that records the terminal edge above
it, where `ti_min = 0`), `get_transfer_set_HPT` returns the *empty* set,
not the singleton containing that leaf — consistently with its own size
assertion `|set| = min(ti_min, n − ti_max) = 0`. -/
theorem terminal_transfer_set_empty_cex :
    ((doHeavyDecomp 50 (initA cxT4)).elim (Except.error ())
      (fun pt0 => addLeafHPT1 (initA cxT4) pt0 [0, 0] >>= fun pt1 =>
        getTransferSetHPT 50 pt1 4)) = Except.ok ([] : List Nat) ∧
    ((doHeavyDecomp 50 (initA cxT4)).elim (Except.error ())
      (fun pt0 => addLeafHPT1 (initA cxT4) pt0 [0, 0] >>= fun pt1 =>
        Except.ok (get_ti_min pt1))) = Except.ok (0 : Int) := by
  constructor
  · rfl
  · rfl

